import Mathlib

/-
Verification of the ScriptAgent chatbot core: a shallow embedding of the
structural script parser (src/core/script_parser.py), the intent detector
(src/core/intent_detector.py) and the script flow engine
(src/core/script_flow_engine.py), together with proofs about the claims of
the specification.

Strings are modelled as ASCII character lists (`Str := List Char`); the
Python string operations used by the source (lower/strip/split/istitle/...)
are modelled on that type with their CPython semantics restricted to ASCII.
-/

namespace ScriptBot

/-- Model of a Python string: a list of characters. -/
abbrev Str := List Char

/-- Conversion from a Lean string literal. -/
def mkStr (s : String) : Str := s.data

/-- The apostrophe character (written via its code point). -/
def apos : Char := Char.ofNat 39

/-- The double-quote character (written via its code point). -/
def dq : Char := Char.ofNat 34

/-- The left-brace character (written via its code point). -/
def lbrace : Char := Char.ofNat 123

/-- The right-brace character (written via its code point). -/
def rbrace : Char := Char.ofNat 125

/-- Python `str.isspace` on one character (the whitespace set of
`str.strip()` / `str.split()`: space, tab, newline, carriage return,
vertical tab, form feed). -/
def isWS (c : Char) : Bool :=
  c = ' ' || c = Char.ofNat 9 || c = Char.ofNat 10 || c = Char.ofNat 13 ||
  c = Char.ofNat 11 || c = Char.ofNat 12

/-- ASCII upper-case letter test. -/
def isUpperCh (c : Char) : Bool := 'A' ≤ c && c ≤ 'Z'

/-- ASCII lower-case letter test. -/
def isLowerCh (c : Char) : Bool := 'a' ≤ c && c ≤ 'z'

/-- ASCII letter test. -/
def isAlphaCh (c : Char) : Bool := isUpperCh c || isLowerCh c

/-- ASCII digit test. -/
def isDigitCh (c : Char) : Bool := '0' ≤ c && c ≤ '9'

/-- Regex word-character class `\w` (ASCII): letters, digits, underscore. -/
def isWordCh (c : Char) : Bool := isAlphaCh c || isDigitCh c || c = '_'

/-- Python `str.lower()` (ASCII). -/
def pyLower (s : Str) : Str :=
  s.map fun c => if isUpperCh c then Char.ofNat (c.toNat + 32) else c

/-- Python `str.upper()` (ASCII). -/
def pyUpper (s : Str) : Str :=
  s.map fun c => if isLowerCh c then Char.ofNat (c.toNat - 32) else c

/-- Python `str.lstrip()` restricted to a character predicate. -/
def stripLeftBy (p : Char → Bool) (s : Str) : Str := s.dropWhile p

/-- Python `str.rstrip()` restricted to a character predicate. -/
def stripRightBy (p : Char → Bool) (s : Str) : Str :=
  (s.reverse.dropWhile p).reverse

/-- Python `str.strip()` (no arguments: strips whitespace on both ends). -/
def pyStrip (s : Str) : Str := stripRightBy isWS (stripLeftBy isWS s)

/-- Python `str.rstrip()` (no arguments). -/
def pyRstrip (s : Str) : Str := stripRightBy isWS s

/-- Python substring test `needle in hay`. -/
def isSub : Str → Str → Bool
  | n, [] => n.isPrefixOf ([] : Str)
  | n, c :: t => n.isPrefixOf (c :: t) || isSub n t

/-- Python `str.split()` with no separator: split on whitespace runs,
dropping empty parts.  `acc` holds the current word reversed. -/
def splitWSGo (acc : Str) : Str → List Str
  | [] => if acc = [] then [] else [acc.reverse]
  | c :: t =>
      if isWS c then
        if acc = [] then splitWSGo [] t else acc.reverse :: splitWSGo [] t
      else splitWSGo (c :: acc) t

/-- Python `str.split()` with no separator. -/
def pySplitWS (s : Str) : List Str := splitWSGo [] s

/-- Python `str.split(sep)` for a one-character separator (keeps empty
parts). -/
def splitChGo (sep : Char) (acc : Str) : Str → List Str
  | [] => [acc.reverse]
  | c :: t =>
      if c = sep then acc.reverse :: splitChGo sep [] t
      else splitChGo sep (c :: acc) t

/-- Python `str.split(sep)` for a one-character separator. -/
def splitCh (sep : Char) (s : Str) : List Str := splitChGo sep [] s

/-- Python `str.split(sep, 1)`: split at the first occurrence only;
`none` when the separator does not occur. -/
def splitOnceGo (sep : Char) (acc : Str) : Str → Option (Str × Str)
  | [] => none
  | c :: t => if c = sep then some (acc.reverse, t) else splitOnceGo sep (c :: acc) t

/-- Python `str.split(sep, 1)` as an optional pair. -/
def splitOnce (sep : Char) (s : Str) : Option (Str × Str) := splitOnceGo sep [] s

/-- Python `str.isupper()` (ASCII): at least one cased character and no
lower-case cased character. -/
def pyIsUpper (s : Str) : Bool :=
  s.any (fun c => isUpperCh c || isLowerCh c) && s.all (fun c => !isLowerCh c)

/-- State machine of Python `str.istitle()` (ASCII): upper-case letters only
start words, lower-case letters only continue them. -/
def pyIsTitleGo (prevCased seenCased : Bool) : Str → Bool
  | [] => seenCased
  | c :: t =>
      if isUpperCh c then
        if prevCased then false else pyIsTitleGo true true t
      else if isLowerCh c then
        if prevCased then pyIsTitleGo true seenCased t else false
      else pyIsTitleGo false seenCased t

/-- Python `str.istitle()` (ASCII). -/
def pyIsTitle (s : Str) : Bool := pyIsTitleGo false false s

/-- Python `str.replace(' ', '')`. -/
def removeSpaces (s : Str) : Str := s.filter (fun c => c ≠ ' ')

/-- Python `str.strip(chars)` for a set of characters given as a list. -/
def pyStripChars (cs : Str) (s : Str) : Str :=
  stripRightBy (fun c => cs.contains c) (stripLeftBy (fun c => cs.contains c) s)

/-- Association-list lookup (Python `dict.get(key)`). -/
def alGet (l : List (Str × Str)) (k : Str) : Option Str :=
  (l.find? (fun p => p.1 == k)).map (·.2)

/-- Python dict assignment `d[k] = v`: replaces the value in place when the
key exists (keeping its original position), appends otherwise. -/
def alPut (l : List (Str × Str)) (k : Str) (v : Str) : List (Str × Str) :=
  if l.any (fun p => p.1 == k) then
    l.map (fun p => if p.1 == k then (k, v) else p)
  else l ++ [(k, v)]

/-- Python `dict.update`: apply `alPut` for every pair of the update, in
order. -/
def alUpdate (l : List (Str × Str)) (u : List (Str × Str)) : List (Str × Str) :=
  u.foldl (fun acc p => alPut acc p.1 p.2) l

end ScriptBot

namespace ScriptBot

/-! ### Intent detector (src/core/intent_detector.py)

The third-party `fuzz.ratio` similarity scorer is not part of the
repository; the detector is therefore parametrised over an arbitrary
`ratio : Str → Str → ℕ` function (returning 0–100), and a concrete
executable model `fuzzRatioModel` is provided for closed evaluations. -/

/-- One row of the `INTENT_PATTERNS` table: label, keyword list, phrase
list. -/
abbrev IntentRow := Str × List Str × List Str

/-- The `POSITIVE` row of `INTENT_PATTERNS`. -/
def rowPOSITIVE : IntentRow :=
  (mkStr "POSITIVE",
    [mkStr "yes", mkStr "yeah", mkStr "yep", mkStr "sure", mkStr "okay",
     mkStr "ok", mkStr "definitely", mkStr "absolutely", mkStr "correct",
     mkStr "right", mkStr "agreed", mkStr "sounds good"],
    [mkStr "i agree", mkStr "that works", mkStr "go ahead", mkStr "lets do it"])

/-- The `NEGATIVE` row of `INTENT_PATTERNS`. -/
def rowNEGATIVE : IntentRow :=
  (mkStr "NEGATIVE",
    [mkStr "no", mkStr "nope", mkStr "nah", mkStr "never",
     mkStr "not interested", mkStr "dont want", mkStr "not now",
     mkStr "not right now"],
    [mkStr "no thanks", mkStr "not interested", mkStr "not for me"])

/-- The `QUESTION` row of `INTENT_PATTERNS`. -/
def rowQUESTION : IntentRow :=
  (mkStr "QUESTION",
    [mkStr "what", mkStr "when", mkStr "where", mkStr "who", mkStr "why",
     mkStr "how", mkStr "can you", mkStr "could you", mkStr "would you",
     mkStr "explain", mkStr "tell me"],
    [mkStr "can you explain", mkStr "what does", mkStr "how does",
     mkStr "tell me more"])

/-- The `UNCERTAIN` row of `INTENT_PATTERNS`. -/
def rowUNCERTAIN : IntentRow :=
  (mkStr "UNCERTAIN",
    [mkStr "maybe", mkStr "not sure", mkStr "dont know", mkStr "unsure",
     mkStr "uncertain", mkStr "thinking", mkStr "considering", mkStr "might",
     mkStr "could"],
    [mkStr "not certain", mkStr "let me think", mkStr "need to think"])

/-- The `OBJECTION` row of `INTENT_PATTERNS`. -/
def rowOBJECTION : IntentRow :=
  (mkStr "OBJECTION",
    [mkStr "but", mkStr "however", mkStr "expensive", mkStr "costly",
     mkStr "worried", mkStr "concern", mkStr "problem", mkStr "issue",
     mkStr "uncomfortable"],
    [mkStr "too expensive", mkStr "too much", mkStr "cant afford",
     mkStr "not ready"])

/-- The `REQUEST_INFO` row of `INTENT_PATTERNS`. -/
def rowREQUESTINFO : IntentRow :=
  (mkStr "REQUEST_INFO",
    [mkStr "details", mkStr "information", mkStr "more info",
     mkStr "specifics", mkStr "pricing", mkStr "cost", mkStr "rates",
     mkStr "terms"],
    [mkStr "more details", mkStr "need information", mkStr "want to know"])

/-- The `BUSY` row of `INTENT_PATTERNS`. -/
def rowBUSY : IntentRow :=
  (mkStr "BUSY",
    [mkStr "busy", mkStr "bad time", mkStr "not convenient",
     mkStr "call back", mkStr "later"],
    [mkStr "bad time", mkStr "not good time", mkStr "call me back",
     mkStr "call later"])

/-- The `FRUSTRATED` row of `INTENT_PATTERNS`. -/
def rowFRUSTRATED : IntentRow :=
  (mkStr "FRUSTRATED",
    [mkStr "frustrated", mkStr "annoyed", mkStr "upset", mkStr "angry",
     mkStr "third time", mkStr "again", mkStr "still", mkStr "always"],
    [mkStr "third time calling", mkStr "nobody helped", mkStr "still waiting"])

/-- The `INTENT_PATTERNS` table of `IntentDetector`, in declaration order. -/
def intentTable : List IntentRow :=
  [rowPOSITIVE, rowNEGATIVE, rowQUESTION, rowUNCERTAIN, rowOBJECTION,
   rowREQUESTINFO, rowBUSY, rowFRUSTRATED]

/-- Keyword-loop of `_score_all_intents`: the number of keywords that occur
as substrings of the utterance.  Each such keyword contributes `+1.0` to
the score and one match. -/
def kwCount (uLower : Str) (kws : List Str) : ℕ :=
  (kws.filter (fun kw => isSub kw uLower)).length

/-- Phrase-loop of `_score_all_intents`: the number of phrases that occur
as substrings of the utterance.  Each contributes `+1.5` and one match. -/
def phCount (uLower : Str) (phrs : List Str) : ℕ :=
  (phrs.filter (fun ph => isSub ph uLower)).length

/-- Fuzzy-loop of `_score_all_intents`: the number of keywords whose ratio
against some single word of the utterance reaches the threshold (the inner
loop breaks at the first matching word).  Each contributes `+0.5` and one
match. -/
def fzCount (ratio : Str → Str → ℕ) (thr : ℕ) (words : List Str)
    (kws : List Str) : ℕ :=
  (kws.filter (fun kw => words.any (fun w => decide (thr ≤ ratio kw w)))).length

/-- The body of the per-intent loop of `_score_all_intents`: the scored
entry for one table row, or `none` when the row has no match.  The float
accumulation of the source adds `1.0`, `1.5` and `0.5` per match, which is
exact on half-integers, so the accumulated score is the closed form
`kwCount + 1.5 * phCount + 0.5 * fzCount`. -/
def scoreRow (ratio : Str → Str → ℕ) (thr : ℕ) (uLower : Str)
    (row : IntentRow) : Option (Str × ℚ) :=
  let kws := row.2.1
  let phrs := row.2.2
  let km := kwCount uLower kws
  let pm := phCount uLower phrs
  let fm := fzCount ratio thr (pySplitWS uLower) kws
  let score : ℚ := (km : ℚ) + (3/2) * (pm : ℚ) + (1/2) * (fm : ℚ)
  let mcount := km + pm + fm
  if mcount > 0 then
    some (row.1, min (score / ((kws.length + phrs.length : ℕ) : ℚ)) 1)
  else none

/-- `_score_all_intents`: visit the intent table in declaration order and
keep, for each label with at least one match, the score normalised by
(keyword count + phrase count) and capped at 1. -/
def scoreAllIntents (ratio : Str → Str → ℕ) (thr : ℕ) (uLower : Str) :
    List (Str × ℚ) :=
  intentTable.filterMap (scoreRow ratio thr uLower)

/-- One comparison step of Python `max` with a key function: the candidate
replaces the current best only on a strictly greater key. -/
def pickMax (best q : Str × ℚ) : Str × ℚ :=
  if best.2 < q.2 then q else best

/-- Python `max(d, key=d.get)` over an insertion-ordered score map: the
first entry whose value is not exceeded later (replacement only on a
strictly greater value). -/
def maxByFirst : List (Str × ℚ) → Option (Str × ℚ)
  | [] => none
  | p :: t => some (t.foldl pickMax p)

/-- Python `intent_scores.get(label, 0.0)` on the score map. -/
def getScore (scores : List (Str × ℚ)) (lbl : Str) : ℚ :=
  (((scores.find? (fun p => p.1 == lbl)).map (·.2)).getD 0)

/-- `_detect_sentiment`: fixed priority order over the score map. -/
def detectSentiment (scores : List (Str × ℚ)) : Str :=
  if 1/2 < getScore scores (mkStr "FRUSTRATED") ∨
      1/2 < getScore scores (mkStr "OBJECTION") then
    mkStr "NEGATIVE"
  else if 1/2 < getScore scores (mkStr "POSITIVE") then mkStr "POSITIVE"
  else if 1/2 < getScore scores (mkStr "UNCERTAIN") then mkStr "UNCERTAIN"
  else mkStr "NEUTRAL"

/-- `_is_question`: a question mark anywhere, or a question word as the
first whitespace-separated token of the lower-cased text. -/
def isQuestionText (text : Str) : Bool :=
  if isSub [Char.ofNat 63] text then true
  else
    let firstWord := ((pySplitWS (pyLower text)).head?).getD []
    [mkStr "what", mkStr "when", mkStr "where", mkStr "who", mkStr "why",
     mkStr "how", mkStr "can", mkStr "could", mkStr "would"].contains firstWord

/-- The intent signal produced by `IntentDetector.detect` (entity
extraction is independent of every claim and is not modelled). -/
structure Signal where
  primaryIntent : Str
  allIntents : List Str
  confidence : ℚ
  sentiment : Str
  isQuestion : Bool
  hasMultipleIntents : Bool
  deriving Repr, DecidableEq

/-- `IntentDetector.detect`, parametric in the fuzzy ratio function and the
threshold (the application uses threshold 80). -/
def detect (ratio : Str → Str → ℕ) (thr : ℕ) (userInput : Str) : Signal :=
  let uLower := pyStrip (pyLower userInput)
  let scores := scoreAllIntents ratio thr uLower
  let primary := match maxByFirst scores with
    | some p => p.1
    | none => mkStr "NEUTRAL"
  let confidence := getScore scores primary
  let allIntents := (scores.filter (fun p => 1/2 ≤ p.2)).map (·.1)
  { primaryIntent := primary
    allIntents := allIntents
    confidence := confidence
    sentiment := detectSentiment scores
    isQuestion := isQuestionText userInput
    hasMultipleIntents := allIntents.length > 1 }

/-- Inner loop of one Wagner–Fischer row: walks the remaining characters of
`a` together with the tail of the previous row, carrying the diagonal value
and the value just computed to the left. -/
def levRowGo (bc : Char) : Str → List ℕ → ℕ → ℕ → List ℕ
  | [], _, _, _ => []
  | _ :: _, [], _, _ => []
  | ac :: rest, prevj :: prevRest, diag, leftV =>
      let cur := min (min (prevj + 1) (leftV + 1)) (diag + (if ac = bc then 0 else 2))
      cur :: levRowGo bc rest prevRest prevj cur

/-- One row of the Wagner–Fischer recurrence for the edit distance with
substitution cost 2 (insertions and deletions cost 1). -/
def levRow (a : Str) (bc : Char) (prev : List ℕ) : List ℕ :=
  let h := (prev.headD 0) + 1
  h :: levRowGo bc a prev.tail (prev.headD 0) h

/-- Edit distance with substitution cost 2 between two strings (the
distance underlying the `python-Levenshtein` ratio). -/
def levDist2 (a b : Str) : ℕ :=
  (b.foldl (fun prev bc => levRow a bc prev) (List.range (a.length + 1))).getLastD 0

/-- Modelled from the spec: the third-party fuzzy similarity scorer
(`fuzz.ratio`, "similarity ≥ configurable threshold, default 80/100"),
as the Levenshtein-based ratio `round(100 * (lensum - dist) / lensum)`
with half-up rounding. -/
def fuzzRatioModel (a b : Str) : ℕ :=
  let t := a.length + b.length
  if t = 0 then 100
  else (200 * (t - levDist2 a b) + t) / (2 * t)

/-- The maximum of the values of a score map (0 for the empty map; only
used on non-empty maps). -/
def listMaxScore : List (Str × ℚ) → ℚ
  | [] => 0
  | x :: t => t.foldl (fun m q => max m q.2) x.2

/-- The utterance of the classifier example of the specification. -/
def exUtter : Str := mkStr "No thanks, not interested"

/-- The lower-cased, stripped form of `exUtter` used for scoring. -/
def exLower : Str := pyStrip (pyLower exUtter)

/-- The score-map entry that `_score_all_intents` produces for the
`NEGATIVE` row on `exUtter`: two exact keyword matches and two phrase
matches contribute 5.0, plus the fuzzy contribution of the keyword list. -/
def exNegEntry (ratio : Str → Str → ℕ) (thr : ℕ) : Str × ℚ :=
  (mkStr "NEGATIVE",
   min ((5 + (1/2) * ((fzCount ratio thr (pySplitWS exLower) rowNEGATIVE.2.1 : ℕ) : ℚ)) / 11) 1)

end ScriptBot

namespace ScriptBot

/-! ### Script flow engine (src/core/script_flow_engine.py)

The engine is built from the sections of a parsed script and keeps a
per-conversation state.  `get_next_step` receives the classifier's
`intent_data` but the source never reads it beyond two unused local
variables, so the model omits the parameter. -/

/-- A parsed section as produced by the parser's `_save_section` and
consumed by the engine (`pvars` models the `variables` key, whose Python
name is a Lean keyword).  Every section built by the parser carries a
name, so the `SECTION_i` default of `_build_flow_map` never fires and is
not modelled. -/
structure PSection where
  name : Str
  content : Str
  agentLines : List Str
  dialogue : Str
  pvars : List Str
  isConditional : Bool
  deriving Repr, DecidableEq

/-- `_classify_section`: the section type, a pure function of the name
(the `section` argument of the source is never read). -/
def classifySection (name : Str) : Str :=
  let n := pyLower name
  if isSub (mkStr "start") n || isSub (mkStr "greeting") n || isSub (mkStr "opening") n then
    mkStr "OPENING"
  else if isSub (mkStr "introduction") n || isSub (mkStr "intro") n then
    mkStr "INTRODUCTION"
  else if isSub (mkStr "personal details") n || isSub (mkStr "contact") n ||
      isSub (mkStr "name") n || isSub (mkStr "title") n then
    mkStr "DATA_COLLECTION"
  else if isSub (mkStr "property") n || isSub (mkStr "address") n then
    mkStr "PROPERTY_INFO"
  else if isSub (mkStr "booking") n || isSub (mkStr "appointment") n ||
      isSub (mkStr "confirm") n then
    mkStr "BOOKING"
  else if isSub (mkStr "objection") n || isSub (mkStr "if user") n ||
      isSub (mkStr "handle") n then
    mkStr "OBJECTION_HANDLING"
  else if isSub (mkStr "end") n || isSub (mkStr "goodbye") n ||
      isSub (mkStr "closing") n then
    mkStr "CLOSING"
  else mkStr "CONVERSATION"

/-- Fuel-driven scanner for `re.findall(r'\{\{(\w+)\}\}', s)`: at each
position a match needs two opening braces, a maximal non-empty run of word
characters and two closing braces; on success scanning resumes after the
match, on failure one character later.  Each step consumes at least one
character, so fuel `s.length` is sufficient. -/
def findPlaceholdersFuel : ℕ → Str → List Str
  | 0, _ => []
  | fuel + 1, s =>
      match s with
      | [] => []
      | c :: rest =>
          if c = lbrace then
            match rest with
            | c2 :: rest2 =>
                if c2 = lbrace then
                  match rest2.takeWhile isWordCh with
                  | [] => findPlaceholdersFuel fuel rest
                  | w =>
                      match rest2.dropWhile isWordCh with
                      | a1 :: a2 :: rest3 =>
                          if a1 = rbrace && a2 = rbrace then
                            w :: findPlaceholdersFuel fuel rest3
                          else findPlaceholdersFuel fuel rest
                      | _ => findPlaceholdersFuel fuel rest
                else findPlaceholdersFuel fuel rest
            | [] => []
          else findPlaceholdersFuel fuel rest

/-- The engine's placeholder scan over a dialogue string. -/
def findPlaceholders (s : Str) : List Str := findPlaceholdersFuel s.length s

/-- First-occurrence deduplication, used to model the conversion of a
Python set union to a list (`list(set(matches) | variables)`); the source's
set iteration order is unspecified, the model fixes first-occurrence
order. -/
def dedupFirstGo (seen : List Str) : List Str → List Str
  | [] => []
  | x :: t =>
      if seen.contains x then dedupFirstGo seen t
      else x :: dedupFirstGo (x :: seen) t

/-- First-occurrence deduplication of a list of strings. -/
def dedupFirst (l : List Str) : List Str := dedupFirstGo [] l

/-- `_extract_required_fields`: the placeholders of the section's dialogue
united with the section's declared variables. -/
def extractRequiredFields (sec : PSection) : List Str :=
  dedupFirst (findPlaceholders sec.dialogue ++ sec.pvars)

/-- `_determine_next_section`: the name of the next section in document
order, if any. -/
def determineNextSection (sections : List PSection) (i : ℕ) : Option Str :=
  (sections.get? (i + 1)).map (·.name)

/-- One value of the engine's flow map. The source also stores the raw
section and a `conditions` list; the parser never emits a `conditions`
key, so that field is always the empty default, and the raw section is
never read. -/
structure FlowEntry where
  index : ℕ
  name : Str
  ftype : Str
  dialogue : Str
  conditions : List Str
  requiredFields : List Str
  nextSection : Option Str
  isConditional : Bool
  deriving Repr, DecidableEq

/-- The flow-map value built for section `sec` at index `i`. -/
def mkFlowEntry (sections : List PSection) (i : ℕ) (sec : PSection) : FlowEntry :=
  { index := i
    name := sec.name
    ftype := classifySection sec.name
    dialogue := sec.dialogue
    conditions := []
    requiredFields := extractRequiredFields sec
    nextSection := determineNextSection sections i
    isConditional := sec.isConditional }

/-- Python dict assignment on the flow map: a later section with an
already-present name replaces the value in place (keeping the original
insertion position), otherwise the entry is appended. -/
def upsertFlow (flow : List FlowEntry) (e : FlowEntry) : List FlowEntry :=
  if flow.any (fun x => x.name == e.name) then
    flow.map (fun x => if x.name == e.name then e else x)
  else flow ++ [e]

/-- `_build_flow_map` recursion over the enumerated section list. -/
def buildFlowGo (sections : List PSection) : ℕ → List PSection → List FlowEntry → List FlowEntry
  | _, [], flow => flow
  | i, sec :: rest, flow =>
      buildFlowGo sections (i + 1) rest (upsertFlow flow (mkFlowEntry sections i sec))

/-- `_build_flow_map`: the insertion-ordered flow map of a section list. -/
def buildFlow (sections : List PSection) : List FlowEntry :=
  buildFlowGo sections 0 sections []

/-- An engine instance: the parsed sections it was built from. -/
structure Engine where
  sections : List PSection

/-- The engine's flow map. -/
def Engine.flow (eng : Engine) : List FlowEntry := buildFlow eng.sections

/-- Lookup of a flow entry by section name (`flow_map.get(name)`). -/
def flowLookup (flow : List FlowEntry) (n : Str) : Option FlowEntry :=
  flow.find? (fun e => e.name == n)

/-- The engine's per-conversation mutable state. -/
structure EState where
  currentSection : Option Str
  completedSections : Finset Str
  collectedData : List (Str × Str)
  conversationPhase : Str
  deriving DecidableEq

/-- The state created by `__init__` (identical to the state after
`reset`). -/
def initState : EState :=
  { currentSection := none
    completedSections := ∅
    collectedData := []
    conversationPhase := mkStr "START" }

/-- `reset`: clear the conversation state. -/
def resetState (_ : EState) : EState := initState

/-- The per-turn output of the engine. -/
structure Decision where
  sectionName : Str
  dtype : Str
  agentLine : Str
  requiredFields : List Str
  phase : Str
  objectionType : Option Str
  deriving Repr, DecidableEq

/-- `start_conversation`: move to the first `OPENING`-typed flow entry;
fall back to the first section in document order; with no sections at all,
emit a fixed default greeting without touching the state. -/
def startConversation (eng : Engine) (st : EState) : Decision × EState :=
  match eng.flow.find? (fun e => e.ftype == mkStr "OPENING") with
  | some e =>
      ({ sectionName := e.name
         dtype := mkStr "OPENING"
         agentLine := e.dialogue
         requiredFields := e.requiredFields
         phase := mkStr "OPENING"
         objectionType := none },
       { st with currentSection := some e.name, conversationPhase := mkStr "OPENING" })
  | none =>
      match eng.sections with
      | first :: _ =>
          ({ sectionName := first.name
             dtype := mkStr "OPENING"
             agentLine := first.dialogue
             requiredFields := []
             phase := mkStr "OPENING"
             objectionType := none },
           { st with currentSection := some first.name })
      | [] =>
          ({ sectionName := mkStr "DEFAULT"
             dtype := mkStr "OPENING"
             agentLine := mkStr "Hello! Thank you for your interest."
             requiredFields := []
             phase := mkStr "OPENING"
             objectionType := none }, st)

/-- The `objections` table of `_check_for_objections`: category name and
keyword list, in declaration order. -/
def objectionCats : List (Str × List Str) :=
  [ (mkStr "not_good_time",
      [mkStr "not a good time", mkStr "busy", mkStr "call back", mkStr "later",
       mkStr "not now"]),
    (mkStr "not_interested",
      [mkStr "not interested", mkStr "don" ++ [apos] ++ mkStr "t want",
       mkStr "no thanks", mkStr "not for me"]),
    (mkStr "too_long",
      [mkStr "how long", mkStr "too long", mkStr "quick", mkStr "time"]),
    (mkStr "bad_reviews",
      [mkStr "review", mkStr "scam", mkStr "trust", mkStr "legitimate"]),
    (mkStr "thought_instant",
      [mkStr "instant", mkStr "immediate", mkStr "now", mkStr "straight away"]) ]

/-- One category test of `_check_for_objections`: some keyword occurs in
the utterance and some keyword occurs in the section name. -/
def catMatch (userLower secLower : Str) (cat : Str × List Str) : Bool :=
  (cat.2.any (fun kw => isSub kw userLower)) && (cat.2.any (fun kw => isSub kw secLower))

/-- `_check_for_objections`: scan the flow map in insertion order; for the
first `OBJECTION_HANDLING` entry for which some objection category matches
both the utterance and the section name, return an `OBJECTION` decision
(without touching any state). -/
def checkForObjections (eng : Engine) (userLower : Str) : Option Decision :=
  eng.flow.findSome? fun e =>
    if e.ftype == mkStr "OBJECTION_HANDLING" then
      match objectionCats.find? (catMatch userLower (pyLower e.name)) with
      | some cat =>
          some { sectionName := e.name
                 dtype := mkStr "OBJECTION_HANDLING"
                 agentLine := e.dialogue
                 requiredFields := []
                 phase := mkStr "OBJECTION"
                 objectionType := some cat.1 }
      | none => none
    else none

/-- `_get_next_section_by_type`: the first flow entry (in insertion order)
of the requested type whose name is not yet completed. -/
def getNextSectionByType (eng : Engine) (st : EState) (ty : Str) : Option Str :=
  (eng.flow.find? (fun e => e.ftype == ty && !(decide (e.name ∈ st.completedSections)))).map
    (·.name)

/-- The scan of `_find_next_sequential_section` over the sections after the
current index: skip completed names, skip names missing from the flow map,
skip `OBJECTION_HANDLING` sections. -/
def findNextSeqGo (eng : Engine) (completed : Finset Str) : List PSection → Option Str
  | [] => none
  | sec :: rest =>
      if decide (sec.name ∈ completed) then findNextSeqGo eng completed rest
      else
        match flowLookup eng.flow sec.name with
        | some e =>
            if e.ftype == mkStr "OBJECTION_HANDLING" then findNextSeqGo eng completed rest
            else some sec.name
        | none => findNextSeqGo eng completed rest

/-- `_find_next_sequential_section`: the first uncompleted non-objection
section after the current one in document order. -/
def findNextSequentialSection (eng : Engine) (st : EState) : Option Str :=
  match st.currentSection with
  | none => none
  | some cur =>
      match flowLookup eng.flow cur with
      | none => none
      | some e => findNextSeqGo eng st.completedSections (eng.sections.drop (e.index + 1))

/-- Maximal runs of word characters of a string (`acc` holds the current
run reversed). -/
def wordRunsGo (acc : Str) : Str → List Str
  | [] => if acc = [] then [] else [acc.reverse]
  | c :: t =>
      if isWordCh c then wordRunsGo (c :: acc) t
      else if acc = [] then wordRunsGo [] t
      else acc.reverse :: wordRunsGo [] t

/-- Maximal runs of word characters of a string. -/
def wordRuns (s : Str) : List Str := wordRunsGo [] s

/-- `re.findall(r'\b\d{10,11}\b', s)`: with both word boundaries required,
the matches are exactly the maximal word-character runs that consist only
of digits and have length 10 or 11. -/
def findPhones (s : Str) : List Str :=
  (wordRuns s).filter (fun r => r.all isDigitCh && (r.length = 10 || r.length = 11))

/-- Character class of the local part of the email pattern. -/
def isLocalCh (c : Char) : Bool :=
  isAlphaCh c || isDigitCh c || c = '.' || c = '_' || c = '%' || c = '+' || c = '-'

/-- Character class of the domain part of the email pattern. -/
def isDomCh (c : Char) : Bool :=
  isAlphaCh c || isDigitCh c || c = '.' || c = '-'

/-- Acceptance of the domain run of the email pattern: a dot with a
non-empty prefix before it and an alphabetic top-level part of length at
least two after the last dot (the model does not reproduce mid-run
backtracking of the regex engine, which no claim depends on). -/
def okDomain (dom : Str) : Bool :=
  let tld := (dom.reverse.takeWhile (fun c => !(c = '.'))).reverse
  ((dom.reverse.dropWhile (fun c => !(c = '.'))).length ≥ 2) &&
  (tld.length ≥ 2) && tld.all isAlphaCh

/-- One match attempt of the email pattern at the start of `s`: a maximal
non-empty local-part run, an `@`, a maximal non-empty accepted domain run,
and a word boundary after it.  Returns the match and the rest. -/
def tryEmail (s : Str) : Option (Str × Str) :=
  let lp := s.takeWhile isLocalCh
  if lp = [] then none
  else
    match s.dropWhile isLocalCh with
    | a :: r2 =>
        if a = '@' then
          let dom := r2.takeWhile isDomCh
          let r3 := r2.dropWhile isDomCh
          if dom = [] then none
          else if (match r3 with | [] => true | c :: _ => !isWordCh c) && okDomain dom then
            some (lp ++ a :: dom, r3)
          else none
        else none
    | [] => none

/-- Fuel-driven scan of the email pattern over a string, carrying the
previous character for the leading word-boundary test; each step consumes
at least one character, so fuel `s.length` is sufficient. -/
def findEmailsFuel : ℕ → Option Char → Str → List Str
  | 0, _, _ => []
  | fuel + 1, prev, s =>
      match s with
      | [] => []
      | c :: t =>
          let bOK := match prev with
            | none => true
            | some p => !(isWordCh p == isWordCh c)
          if bOK && isLocalCh c then
            match tryEmail (c :: t) with
            | some (m, rest) => m :: findEmailsFuel fuel (m.getLast?) rest
            | none => findEmailsFuel fuel (some c) t
          else findEmailsFuel fuel (some c) t

/-- Model of `re.findall` for the email pattern of
`_extract_data_from_input`. -/
def findEmails (s : Str) : List Str := findEmailsFuel s.length none s

/-- `_extract_data_from_input`: typed extraction for `email` and
`mobile`/`phone` expected fields; when nothing typed matched but fields are
expected, the raw input is stored under the first expected field. -/
def extractDataFromInput (userInput : Str) (expectedFields : List Str) :
    List (Str × Str) :=
  let e1 :=
    if expectedFields.contains (mkStr "email") then
      match findEmails userInput with
      | m :: _ => [(mkStr "email", m)]
      | [] => []
    else []
  let e2 :=
    if expectedFields.contains (mkStr "mobile") || expectedFields.contains (mkStr "phone") then
      match findPhones (removeSpaces userInput) with
      | m :: _ => [(mkStr "mobile", m)]
      | [] => []
    else []
  let ex := e1 ++ e2
  if expectedFields ≠ [] ∧ ex = [] then
    match expectedFields with
    | f :: _ => [(f, userInput)]
    | [] => []
  else ex

/-- The fixed terminal decision of `_continue_to_next_section` when no
section remains (the state, including `current_section`, is left
unchanged by the source). -/
def terminalDecision : Decision :=
  { sectionName := mkStr "END"
    dtype := mkStr "CLOSING"
    agentLine := mkStr "Thank you for your time. Goodbye!"
    requiredFields := []
    phase := mkStr "CLOSING"
    objectionType := none }

/-- `_continue_to_next_section`: mark the current section completed and
move to the next sequential uncompleted non-objection section; with none
left, return the terminal `CLOSING` decision without mutating state. -/
def continueToNextSection (eng : Engine) (st : EState) (cur : Str) :
    Decision × EState :=
  match findNextSequentialSection eng st with
  | some nxt =>
      match flowLookup eng.flow nxt with
      | some e =>
          ({ sectionName := nxt
             dtype := e.ftype
             agentLine := e.dialogue
             requiredFields := e.requiredFields
             phase := e.ftype
             objectionType := none },
           { st with completedSections := insert cur st.completedSections
                     currentSection := some nxt })
      | none => (terminalDecision, st)
  | none => (terminalDecision, st)

/-- The clarification decision of `_handle_opening` (no state change). -/
def openingClarify (st : EState) (cur : Str) : Decision × EState :=
  ({ sectionName := cur
     dtype := mkStr "OPENING"
     agentLine := mkStr "Sorry, may I confirm who I" ++ [apos] ++ mkStr "m speaking with?"
     requiredFields := [mkStr "first_name"]
     phase := mkStr "OPENING"
     objectionType := none }, st)

/-- `_handle_opening`: on an affirmation move to the next uncompleted
`INTRODUCTION`-typed section (marking the literal name `OPENING`
completed), otherwise re-ask a fixed clarification line. -/
def handleOpening (eng : Engine) (st : EState) (cur : Str) (u : Str) :
    Decision × EState :=
  let uL := pyLower u
  let affirm := [mkStr "yes", mkStr "yeah", mkStr "speaking", mkStr "this is",
    mkStr "yep", mkStr "yea", mkStr "sure", mkStr "ok", mkStr "okay"]
  if affirm.any (fun w => isSub w uL) then
    match getNextSectionByType eng st (mkStr "INTRODUCTION") with
    | some nxt =>
        match flowLookup eng.flow nxt with
        | some e =>
            ({ sectionName := nxt
               dtype := mkStr "INTRODUCTION"
               agentLine := e.dialogue
               requiredFields := e.requiredFields
               phase := mkStr "INTRODUCTION"
               objectionType := none },
             { st with currentSection := some nxt
                       completedSections := insert (mkStr "OPENING") st.completedSections
                       conversationPhase := mkStr "INTRODUCTION" })
        | none => openingClarify st cur
    | none => openingClarify st cur
  else openingClarify st cur

/-- The questions line of `_handle_introduction` (no state change). -/
def introClarify (st : EState) (cur : Str) : Decision × EState :=
  ({ sectionName := cur
     dtype := mkStr "INTRODUCTION"
     agentLine := mkStr "I" ++ [apos] ++
       mkStr "d be happy to answer any questions you have. What would you like to know?"
     requiredFields := []
     phase := mkStr "INTRODUCTION"
     objectionType := none }, st)

/-- `_handle_introduction`: on a positive response move to the next
sequential uncompleted section (marking the literal name `INTRODUCTION`
completed and adopting the target's type as the phase), otherwise return a
fixed questions line. -/
def handleIntroduction (eng : Engine) (st : EState) (cur : Str) (u : Str) :
    Decision × EState :=
  let uL := pyLower u
  let positive := [mkStr "yes", mkStr "yeah", mkStr "ok", mkStr "okay", mkStr "sure",
    mkStr "go ahead", mkStr "right", mkStr "correct",
    mkStr "that" ++ [apos] ++ mkStr "s right",
    mkStr "yep", mkStr "yea", mkStr "fine", mkStr "good", mkStr "absolutely",
    mkStr "definitely"]
  if positive.any (fun w => isSub w uL) then
    match findNextSequentialSection eng st with
    | some nxt =>
        match flowLookup eng.flow nxt with
        | some e =>
            ({ sectionName := nxt
               dtype := e.ftype
               agentLine := e.dialogue
               requiredFields := e.requiredFields
               phase := e.ftype
               objectionType := none },
             { st with currentSection := some nxt
                       completedSections := insert (mkStr "INTRODUCTION") st.completedSections
                       conversationPhase := e.ftype })
        | none => introClarify st cur
    | none => introClarify st cur
  else introClarify st cur

/-- `_handle_data_collection` (also used for `PROPERTY_INFO`): always merge
the extracted data; on a non-trivial utterance (stripped length > 2) with a
sequential successor, mark the current entry's name completed and advance;
otherwise fall back to the generic advance rule. -/
def handleDataCollection (eng : Engine) (st : EState) (cur : Str)
    (current : FlowEntry) (u : Str) : Decision × EState :=
  let extracted := extractDataFromInput u current.requiredFields
  let st1 := { st with collectedData := alUpdate st.collectedData extracted }
  if (pyStrip u).length > 2 then
    match findNextSequentialSection eng st1 with
    | some nxt =>
        match flowLookup eng.flow nxt with
        | some e =>
            ({ sectionName := nxt
               dtype := e.ftype
               agentLine := e.dialogue
               requiredFields := e.requiredFields
               phase := e.ftype
               objectionType := none },
             { st1 with currentSection := some nxt
                        completedSections := insert current.name st1.completedSections })
        | none => continueToNextSection eng st1 cur
    | none => continueToNextSection eng st1 cur
  else continueToNextSection eng st1 cur

/-- The confirmation prompt of `_handle_booking` (no state change). -/
def bookingPrompt (st : EState) (cur : Str) : Decision × EState :=
  ({ sectionName := cur
     dtype := mkStr "BOOKING"
     agentLine := mkStr "Would you like to proceed with booking the consultation?"
     requiredFields := []
     phase := mkStr "BOOKING"
     objectionType := none }, st)

/-- `_handle_booking`: on an affirmation move to the next sequential
uncompleted section with phase forced to `BOOKING` (without marking
anything completed), otherwise return a fixed confirmation prompt. -/
def handleBooking (eng : Engine) (st : EState) (cur : Str) (u : Str) :
    Decision × EState :=
  let uL := pyLower u
  let affirm := [mkStr "yes", mkStr "ok", mkStr "okay", mkStr "sure", mkStr "fine",
    mkStr "good", mkStr "yeah"]
  if affirm.any (fun w => isSub w uL) then
    match findNextSequentialSection eng st with
    | some nxt =>
        match flowLookup eng.flow nxt with
        | some e =>
            ({ sectionName := nxt
               dtype := e.ftype
               agentLine := e.dialogue
               requiredFields := e.requiredFields
               phase := mkStr "BOOKING"
               objectionType := none },
             { st with currentSection := some nxt })
        | none => bookingPrompt st cur
    | none => bookingPrompt st cur
  else bookingPrompt st cur

/-- `_fallback_response`: a generic clarification decision when the
current section name is missing from the flow map (no state change). -/
def fallbackResponse (st : EState) : Decision :=
  { sectionName := mkStr "FALLBACK"
    dtype := mkStr "CONVERSATION"
    agentLine := mkStr "I" ++ [apos] ++ mkStr "m sorry, could you repeat that?"
    requiredFields := []
    phase := if st.conversationPhase = [] then mkStr "CONVERSATION" else st.conversationPhase
    objectionType := none }

/-- `get_next_step`: the per-turn transition of the engine. -/
def getNextStep (eng : Engine) (st : EState) (u : Str) : Decision × EState :=
  match st.currentSection with
  | none => startConversation eng st
  | some cur =>
      match flowLookup eng.flow cur with
      | none => (fallbackResponse st, st)
      | some current =>
          match checkForObjections eng (pyLower u) with
          | some d => (d, st)
          | none =>
              if current.ftype == mkStr "OPENING" then handleOpening eng st cur u
              else if current.ftype == mkStr "INTRODUCTION" then
                handleIntroduction eng st cur u
              else if current.ftype == mkStr "DATA_COLLECTION" then
                handleDataCollection eng st cur current u
              else if current.ftype == mkStr "PROPERTY_INFO" then
                handleDataCollection eng st cur current u
              else if current.ftype == mkStr "BOOKING" then handleBooking eng st cur u
              else continueToNextSection eng st cur

/-- The progress report of `get_progress` (the source returns the
completed set as a list in unspecified order; the model keeps the set). -/
structure ProgressReport where
  currentSection : Option Str
  phase : Str
  completedSections : Finset Str
  totalSections : ℕ
  progressPercentage : ℚ
  collectedData : List (Str × Str)

/-- The total non-objection section count of `get_progress`. -/
def totalSections (eng : Engine) : ℕ :=
  (eng.flow.filter (fun e => !(e.ftype == mkStr "OBJECTION_HANDLING"))).length

/-- `get_progress`: completion counters and percentage (0 when the total
is 0). -/
def getProgress (eng : Engine) (st : EState) : ProgressReport :=
  let total := totalSections eng
  { currentSection := st.currentSection
    phase := st.conversationPhase
    completedSections := st.completedSections
    totalSections := total
    progressPercentage :=
      if total > 0 then (st.completedSections.card : ℚ) / (total : ℚ) * 100 else 0
    collectedData := st.collectedData }

/-- States reachable from engine construction through any interleaving of
turns (`get_next_step` with arbitrary utterances), `start_conversation`
calls and `reset` calls. -/
inductive Reachable (eng : Engine) : EState → Prop
  | init : Reachable eng initState
  | step (s : EState) (u : Str) : Reachable eng s → Reachable eng (getNextStep eng s u).2
  | start (s : EState) : Reachable eng s → Reachable eng (startConversation eng s).2
  | reset (s : EState) : Reachable eng s → Reachable eng (resetState s)

end ScriptBot

namespace ScriptBot

/-! ### Concrete documents used by closed statements -/

/-- A one-dialogue section (as the parser produces for a section with one
agent line and no placeholders). -/
def plainSection (n d : String) : PSection :=
  { name := mkStr n
    content := mkStr d
    agentLines := [mkStr d]
    dialogue := mkStr d
    pvars := []
    isConditional := false }

/-- A one-dialogue section whose dialogue is given as a character list
(for dialogue containing an apostrophe). -/
def plainSectionS (n : String) (d : Str) : PSection :=
  { name := mkStr n
    content := d
    agentLines := [d]
    dialogue := d
    pvars := []
    isConditional := false }

/-- The INTRODUCTION dialogue of the example document. -/
def exIntroLine : Str := mkStr "I" ++ [apos] ++ mkStr "m calling about..."

/-- The three-section document of the specification's termination example:
`[OPENING, INTRODUCTION, CLOSING]`. -/
def exDoc3 : Engine :=
  ⟨[plainSection "OPENING" "Hi, is this Jane?",
    plainSectionS "INTRODUCTION" exIntroLine,
    plainSection "CLOSING" "Thanks, bye!"]⟩

/-- `start()` on the example document. -/
def exRun0 : Decision × EState := startConversation exDoc3 initState

/-- The first `step("yes")` on the example document. -/
def exRun1 : Decision × EState := getNextStep exDoc3 exRun0.2 (mkStr "yes")

/-- The second `step("yes")` on the example document. -/
def exRun2 : Decision × EState := getNextStep exDoc3 exRun1.2 (mkStr "yes")

/-- The third `step("yes")` on the example document. -/
def exRun3 : Decision × EState := getNextStep exDoc3 exRun2.2 (mkStr "yes")

end ScriptBot

namespace ScriptBot

/-! ### Auxiliary predicates for the engine proofs -/

/-- The names of the flow map, in insertion order. -/
def NamesOf (flow : List FlowEntry) : List Str := flow.map (·.name)

/-- The name of the first section of the document, if any. -/
def firstSectionName (eng : Engine) : Option Str :=
  (eng.sections.head?).map (·.name)

/-- The section types whose handler can insert the section's own name into
`completed_sections` (data collection, property info, and the general
fall-through types). -/
def exitOrObjType (ty : Str) : Prop :=
  ty = mkStr "DATA_COLLECTION" ∨ ty = mkStr "PROPERTY_INFO" ∨
  ty = mkStr "CONVERSATION" ∨ ty = mkStr "CLOSING" ∨
  ty = mkStr "OBJECTION_HANDLING"

/-- The flow index of `n` is strictly below the flow index of `t` (both
names present in the flow map). -/
def SeqIdxLt (eng : Engine) (n t : Str) : Prop :=
  ∃ en et, flowLookup eng.flow n = some en ∧ flowLookup eng.flow t = some et ∧
    en.index < et.index

/-- The ways `current_section` can be reassigned without growing
`completed_sections`: a sequential target (uncompleted, non-objection), an
`OPENING`-typed entry (from `start_conversation`), or the first section as
the `start_conversation` fallback when no `OPENING`-typed entry exists. -/
def MoveTarget (eng : Engine) (s : EState) (t : Str) : Prop :=
  ((∃ e ∈ eng.flow, e.name = t ∧ e.ftype ≠ mkStr "OBJECTION_HANDLING") ∧
    t ∉ s.completedSections) ∨
  (∃ e ∈ eng.flow, e.name = t ∧ e.ftype = mkStr "OPENING") ∨
  (firstSectionName eng = some t ∧ (∃ e ∈ eng.flow, e.name = t) ∧
    ∀ e ∈ eng.flow, e.ftype ≠ mkStr "OPENING")

/-- What is known about an element `a` inserted into `completed_sections`
while moving to target `t`: the literal `OPENING` from the opening handler,
the literal `INTRODUCTION` from the introduction handler, or the current
section's own name from data collection / the generic advance. -/
def MarkInfo (eng : Engine) (s : EState) (a t : Str) : Prop :=
  ∃ n, s.currentSection = some n ∧ (∃ en ∈ eng.flow, en.name = n) ∧ t ≠ n ∧
    ((a = mkStr "OPENING" ∧
        (∃ en ∈ eng.flow, en.name = n ∧ en.ftype = mkStr "OPENING")) ∨
     (a = mkStr "INTRODUCTION" ∧
        (∃ en ∈ eng.flow, en.name = n ∧ en.ftype = mkStr "INTRODUCTION") ∧
        SeqIdxLt eng n t) ∨
     (a = n ∧ (∃ en ∈ eng.flow, en.name = n ∧ exitOrObjType en.ftype) ∧
        SeqIdxLt eng n t))

/-- The three ways any public engine operation can change the conversation
position: no change to position and completed set, a move without marking,
or a move that inserts one element into the completed set. -/
inductive StepShape (eng : Engine) (s : EState) : EState → Prop
  | same : ∀ s', s'.completedSections = s.completedSections →
      s'.currentSection = s.currentSection → StepShape eng s s'
  | move : ∀ s' t, s'.currentSection = some t →
      s'.completedSections = s.completedSections →
      MoveTarget eng s t → StepShape eng s s'
  | mark : ∀ s' a t, s'.currentSection = some t →
      s'.completedSections = insert a s.completedSections →
      ((∃ e ∈ eng.flow, e.name = t ∧ e.ftype ≠ mkStr "OBJECTION_HANDLING") ∧
        t ∉ s.completedSections) →
      MarkInfo eng s a t → StepShape eng s s'

/-- The reachability invariant of the engine: everything that can be said
about `completed_sections` and `current_section` of a reachable state.
Abbreviations: `C` is the completed set, an "objection name" is a flow name
of type `OBJECTION_HANDLING`. -/
structure EngInv (eng : Engine) (s : EState) : Prop where
  /-- Every completed element is one of the two handler literals or the
  name of a section whose handler inserts its own name. -/
  elems : ∀ x ∈ s.completedSections, x = mkStr "OPENING" ∨ x = mkStr "INTRODUCTION" ∨
    ∃ e ∈ eng.flow, e.name = x ∧ exitOrObjType e.ftype
  /-- The literal `OPENING` is only inserted by the opening handler, which
  requires an `OPENING`-typed entry. -/
  litOInv : mkStr "OPENING" ∈ s.completedSections →
    ∃ e ∈ eng.flow, e.ftype = mkStr "OPENING"
  /-- The literal `INTRODUCTION` is only inserted by the introduction
  handler, which requires an `INTRODUCTION`-typed entry. -/
  litIInv : mkStr "INTRODUCTION" ∈ s.completedSections →
    ∃ e ∈ eng.flow, e.ftype = mkStr "INTRODUCTION"
  /-- An objection name can complete only when `start_conversation` fell
  back to the first section, which requires a document without
  `OPENING`-typed entries. -/
  objNoOpen : (∃ e ∈ eng.flow, e.name ∈ s.completedSections ∧
      e.ftype = mkStr "OBJECTION_HANDLING") →
    ∀ e ∈ eng.flow, e.ftype ≠ mkStr "OPENING"
  /-- Whenever an objection name is completed, some non-objection name is
  still uncompleted. -/
  objSpare : (∃ e ∈ eng.flow, e.name ∈ s.completedSections ∧
      e.ftype = mkStr "OBJECTION_HANDLING") →
    ∃ e ∈ eng.flow, e.ftype ≠ mkStr "OBJECTION_HANDLING" ∧
      e.name ∉ s.completedSections
  /-- A completed objection name is the first section's name. -/
  objFirst : ∀ e ∈ eng.flow, e.name ∈ s.completedSections →
    e.ftype = mkStr "OBJECTION_HANDLING" → firstSectionName eng = some e.name
  /-- An objection-typed current section is the first section. -/
  curObjFirst : ∀ n, s.currentSection = some n →
    (∃ e ∈ eng.flow, e.name = n ∧ e.ftype = mkStr "OBJECTION_HANDLING") →
    firstSectionName eng = some n
  /-- An objection-typed current section implies a document without
  `OPENING`-typed entries. -/
  curObjNoOpen : ∀ n, s.currentSection = some n →
    (∃ e ∈ eng.flow, e.name = n ∧ e.ftype = mkStr "OBJECTION_HANDLING") →
    ∀ e ∈ eng.flow, e.ftype ≠ mkStr "OPENING"
  /-- The current section is always a flow name. -/
  curNames : ∀ n, s.currentSection = some n → ∃ e ∈ eng.flow, e.name = n
  /-- In documents with no `OPENING`-typed entry and no section named
  `INTRODUCTION`, every completed name of self-inserting type has a
  later-indexed uncompleted non-objection entry (name insertions always
  advance to a strictly later flow index). -/
  chainW : (∀ e ∈ eng.flow, e.ftype ≠ mkStr "OPENING") →
    (∀ e ∈ eng.flow, e.name ≠ mkStr "INTRODUCTION") →
    ∀ x ∈ s.completedSections, ∀ ex, flowLookup eng.flow x = some ex →
      exitOrObjType ex.ftype →
      ∃ em ∈ eng.flow, em.ftype ≠ mkStr "OBJECTION_HANDLING" ∧
        em.name ∉ s.completedSections ∧ ex.index < em.index
  /-- Once the literal `INTRODUCTION` is completed, the document contains
  an `INTRODUCTION`-typed entry with a later-indexed non-objection
  entry (the target of the insertion) — a static fact about the
  document. -/
  litIStatic : mkStr "INTRODUCTION" ∈ s.completedSections →
    ∃ ei ∈ eng.flow, ei.ftype = mkStr "INTRODUCTION" ∧
      ∃ em ∈ eng.flow, em.ftype ≠ mkStr "OBJECTION_HANDLING" ∧ ei.index < em.index

/-- The invariant required of the flow map built from the first `i`
sections: names are unique, each entry describes the last occurrence of
its name among the first `i` sections, and every processed section has an
entry for its name. -/
def FlowInv (sections : List PSection) (i : ℕ) (flow : List FlowEntry) : Prop :=
  (NamesOf flow).Nodup ∧
  (∀ e ∈ flow,
      e.ftype = classifySection e.name ∧
      e.index < i ∧
      (∃ sec, sections.get? e.index = some sec ∧ sec.name = e.name) ∧
      (∀ j, e.index < j → j < i → ∀ sec, sections.get? j = some sec →
        sec.name ≠ e.name)) ∧
  (∀ j sec, j < i → sections.get? j = some sec → ∃ e ∈ flow, e.name = sec.name)

end ScriptBot

namespace ScriptBot

/-! ### Script parser (src/core/script_parser.py)

`__init__` stores the rstripped lines of the script, then `_parse` runs
metadata extraction, variable extraction and section parsing.  The
auto-detected `agent_patterns` / `section_pattern` fields are computed by
the source but never read afterwards, so they are not modelled. -/

/-- The line list of the parser: split on newline, each line rstripped. -/
def pyLines (text : Str) : List Str :=
  (splitCh (Char.ofNat 10) text).map pyRstrip

/-- First character test. -/
def headIs (c : Char) (s : Str) : Bool :=
  match s with
  | x :: _ => x = c
  | [] => false

/-- Last character test. -/
def lastIs (c : Char) (s : Str) : Bool :=
  match s.getLast? with
  | some x => x = c
  | none => false

/-- One keyword alternative of the role-marker regex
`^(Agent|If|IF|When|WHEN|Unless|UNLESS|User|Customer)\s*[:(]` (applied to
the lowered line): the keyword, optional whitespace, then a colon or an
opening parenthesis. -/
def afterKw (l w : Str) : Bool :=
  if w.isPrefixOf l then
    match (l.drop w.length).dropWhile isWS with
    | c :: _ => c = ':' || c = '('
    | [] => false
  else false

/-- The case-insensitive role-marker test of `_is_likely_section_header`. -/
def roleMarker (line : Str) : Bool :=
  [mkStr "agent", mkStr "if", mkStr "when", mkStr "unless", mkStr "user",
   mkStr "customer"].any (afterKw (pyLower line))

/-- The `section_keywords` list of `_is_likely_section_header`. -/
def sectionKeywords : List Str :=
  [mkStr "start", mkStr "end", mkStr "opening", mkStr "closing",
   mkStr "introduction", mkStr "greeting", mkStr "collection", mkStr "details",
   mkStr "information", mkStr "booking", mkStr "confirmation",
   mkStr "objection", mkStr "handling", mkStr "qualification",
   mkStr "verification", mkStr "call"]

/-- `_is_likely_section_header`: the scored universal header detector (the
`0.5` score step is modelled in half-units, so the threshold `2` becomes
`4`). -/
def isLikelySectionHeader (line0 : Str) : Bool :=
  let line := pyStrip line0
  if line.length < 3 then false
  else if roleMarker line then false
  else if headIs dq line || lastIs dq line then false
  else if headIs '(' line then false
  else if (match splitOnce ':' line with
           | some kv => kv.1.length < 30 && kv.2.length > 50
           | none => false) then false
  else
    let wc := (pySplitWS line).length
    if wc < 1 || wc > 8 then false
    else if !(line.any isUpperCh) then false
    else
      let score2 := (if pyIsUpper line then 6 else 0) +
        (if pyIsTitle line then 4 else 0) +
        (if sectionKeywords.any (fun k => isSub k (pyLower line)) then 4 else 0) +
        (if wc ≤ 4 then 2 else 0) +
        (if 5 ≤ wc ∧ wc ≤ 8 then 1 else 0)
      decide (score2 ≥ 4)

/-- Agent-line pattern 1, `^Agent\s*(\([^)]*\))?:` (case-insensitive). -/
def agentColon (line : Str) : Bool :=
  if (mkStr "agent").isPrefixOf (pyLower line) then
    match ((pyLower line).drop 5).dropWhile isWS with
    | c :: rest =>
        if c = ':' then true
        else if c = '(' then
          match rest.dropWhile (fun x => !(x = ')')) with
          | _ :: c2 :: _ => c2 = ':'
          | _ => false
        else false
    | [] => false
  else false

/-- Agent-line pattern 2, `^[A-Z][a-z]{2,15}:` (the bounded repetition with
the mandatory colon is equivalent to a maximal lower-case run of length 2
to 15 followed by a colon). -/
def nameColon (line : Str) : Bool :=
  match line with
  | c0 :: rest =>
      let run := rest.takeWhile isLowerCh
      isUpperCh c0 && decide (2 ≤ run.length) && decide (run.length ≤ 15) &&
        headIs ':' (rest.drop run.length)
  | [] => false

/-- Agent-line pattern 3, `^\([A-Z][a-z\s]+\):`. -/
def parenName (line : Str) : Bool :=
  match line with
  | c :: c1 :: rest =>
      if c = '(' && isUpperCh c1 then
        let run := rest.takeWhile (fun x => isLowerCh x || isWS x)
        decide (1 ≤ run.length) &&
          (match rest.drop run.length with
           | a :: b :: _ => a = ')' && b = ':'
           | _ => false)
      else false
  | _ => false

/-- Agent-line pattern 4, `^"[^"]+"$`: the whole line is one double-quoted
run with a non-empty interior free of double quotes. -/
def quotedOnly (line : Str) : Bool :=
  match line with
  | c :: rest =>
      c = dq && lastIs dq rest && !(rest.dropLast.isEmpty) &&
        rest.dropLast.all (fun x => !(x = dq))
  | [] => false

/-- `_is_agent_line`: the four agent-line patterns on the stripped line
(pattern 4 additionally requires length over 10). -/
def isAgentLine (line0 : Str) : Bool :=
  let line := pyStrip line0
  if line.isEmpty then false
  else agentColon line || nameColon line || parenName line ||
    (quotedOnly line && decide (line.length > 10))

/-- First substitution of `_clean_agent_text`: remove a leading
`Agent\s*(\([^)]*\))?:\s*` (case-insensitive), if present. -/
def stripAgentPrefix (text : Str) : Str :=
  if (mkStr "agent").isPrefixOf (pyLower text) then
    let ws := (text.drop 5).takeWhile isWS
    match text.drop (5 + ws.length) with
    | c :: rest =>
        if c = ':' then rest.dropWhile isWS
        else if c = '(' then
          let inner := rest.takeWhile (fun x => !(x = ')'))
          match rest.drop inner.length with
          | _ :: c2 :: rest2 => if c2 = ':' then rest2.dropWhile isWS else text
          | _ => text
        else text
    | [] => text
  else text

/-- Second substitution of `_clean_agent_text`: remove a leading
`[A-Z][a-z]+:\s*`, if present. -/
def stripNamePrefix (text : Str) : Str :=
  match text with
  | c0 :: rest =>
      let run := rest.takeWhile isLowerCh
      if isUpperCh c0 && decide (1 ≤ run.length) &&
          headIs ':' (rest.drop run.length) then
        (rest.drop (run.length + 1)).dropWhile isWS
      else text
  | [] => text

/-- Third substitution of `_clean_agent_text`: remove a leading
`\([A-Z][a-z\s]+\):\s*`, if present. -/
def stripParenPrefix (text : Str) : Str :=
  match text with
  | c :: c1 :: rest =>
      if c = '(' && isUpperCh c1 then
        let run := rest.takeWhile (fun x => isLowerCh x || isWS x)
        match rest.drop run.length with
        | a :: b :: rest2 =>
            if a = ')' && b = ':' && decide (1 ≤ run.length) then
              rest2.dropWhile isWS
            else text
        | _ => text
      else text
  | _ => text

/-- `_clean_agent_text`: the three prefix substitutions, quote stripping,
and whitespace normalisation. -/
def cleanAgentText (text : Str) : Str :=
  let t3 := stripParenPrefix (stripNamePrefix (stripAgentPrefix text))
  let t4 := pyStripChars [dq, apos] t3
  pyStrip (List.intercalate [' '] (pySplitWS t4))

/-- The continuation stopper of `_extract_agent_dialogue`,
`^(If |IF |When |WHEN |Unless )` (case-insensitive). -/
def contMarker (l : Str) : Bool :=
  (mkStr "if ").isPrefixOf (pyLower l) ||
  (mkStr "when ").isPrefixOf (pyLower l) ||
  (mkStr "unless ").isPrefixOf (pyLower l)

/-- The absorption loop of `_extract_agent_dialogue`: keep stripping and
collecting following lines until a blank line, a section header, another
agent line or a conditional marker; returns the collected parts and the
unconsumed rest. -/
def absorbGo (acc : List Str) : List Str → List Str × List Str
  | [] => (acc.reverse, [])
  | l :: rest =>
      let nl := pyStrip l
      if nl.isEmpty then (acc.reverse, l :: rest)
      else if isLikelySectionHeader nl then (acc.reverse, l :: rest)
      else if isAgentLine nl then (acc.reverse, l :: rest)
      else if contMarker nl then (acc.reverse, l :: rest)
      else absorbGo (nl :: acc) rest

/-- `_save_section`: the stored section dictionary.  The `variables` key is
the parser's document-wide variable set (`pvars`); `line_count` is never
read and is not modelled. -/
def saveSection (pvars : List Str) (name : Str) (content agents : List Str) :
    PSection :=
  { name := name
    content := List.intercalate [Char.ofNat 10] content
    agentLines := agents
    dialogue := pyStrip (List.intercalate [' '] agents)
    pvars := pvars
    isConditional := isSub (mkStr "IF ") (pyUpper name) ||
      isSub (mkStr "WHEN ") (pyUpper name) }

/-- The main loop of `_parse_sections` (fuel-driven: every iteration
consumes at least the head line, so fuel `lines.length` is sufficient;
exhausted fuel behaves like the end of input). -/
def goSections (pvars : List Str) :
    ℕ → List Str → Option Str → List Str → List Str → List PSection →
    List PSection
  | _, [], cur, content, agents, secs =>
      (match cur with
       | some n => secs ++ [saveSection pvars n content agents]
       | none => secs)
  | 0, _ :: _, cur, content, agents, secs =>
      (match cur with
       | some n => secs ++ [saveSection pvars n content agents]
       | none => secs)
  | fuel + 1, l :: rest, cur, content, agents, secs =>
      let line := pyStrip l
      if line.isEmpty then goSections pvars fuel rest cur content agents secs
      else if isLikelySectionHeader line then
        goSections pvars fuel rest (some line) [] []
          (match cur with
           | some n => secs ++ [saveSection pvars n content agents]
           | none => secs)
      else if isAgentLine line then
        let ab := absorbGo [line] rest
        let txt := cleanAgentText (List.intercalate [' '] ab.1)
        if txt.isEmpty then goSections pvars fuel ab.2 cur content agents secs
        else goSections pvars fuel ab.2 cur (content ++ [txt]) (agents ++ [txt]) secs
      else goSections pvars fuel rest cur (content ++ [line]) agents secs

/-- `_extract_all_agent_lines`: every line detected as an agent line whose
cleaned text is non-empty. -/
def extractAllAgentLines (lines : List Str) : List Str :=
  lines.filterMap fun l =>
    if isAgentLine (pyStrip l) then
      let c := cleanAgentText (pyStrip l)
      if c.isEmpty then none else some c
    else none

/-- `_parse_sections`: the main loop plus the synthetic `CONVERSATION`
fallback, which fires only when the loop saved nothing and some agent line
cleans to non-empty text. -/
def parseSections (pvars : List Str) (lines : List Str) : List PSection :=
  let secs := goSections pvars lines.length lines none [] [] []
  if secs.isEmpty then
    match extractAllAgentLines lines with
    | [] => []
    | als => [saveSection pvars (mkStr "CONVERSATION") als als]
  else secs

/-- One candidate `Key: Value` line of `_extract_metadata`: the entry it
contributes, if any. -/
def metaEntry (line : Str) : Option (Str × Str) :=
  match splitOnce ':' line with
  | none => none
  | some kv =>
      let key := pyStrip kv.1
      if key.length < 30 &&
          !((mkStr "agent ").isPrefixOf (pyLower key) ||
            (mkStr "if ").isPrefixOf (pyLower key) ||
            (mkStr "when ").isPrefixOf (pyLower key)) &&
          !(headIs dq line) then
        some (pyLower key, pyStrip kv.2)
      else none

/-- The scan loop of `_extract_metadata` over the (pre-truncated) lines:
stop at the first accepted header, otherwise assign each contributed
entry. -/
def extractMetadataGo : List Str → List (Str × Str) → List (Str × Str)
  | [], md => md
  | l :: rest, md =>
      let line := pyStrip l
      if line.isEmpty then extractMetadataGo rest md
      else if isLikelySectionHeader line then md
      else
        match metaEntry line with
        | some kv => extractMetadataGo rest (alPut md kv.1 kv.2)
        | none => extractMetadataGo rest md

/-- `_extract_metadata`: the scan is capped at the first 30 lines. -/
def docMetadata (lines : List Str) : List (Str × Str) :=
  extractMetadataGo (lines.take 30) []

/-- The first-character class of the variable pattern
`\{\{([a-zA-Z_][a-zA-Z0-9_]*)\}\}`. -/
def isVarStartCh (c : Char) : Bool := isAlphaCh c || c = '_'

/-- Fuel-driven scanner for the parser's variable pattern (like the flow
engine's placeholder scanner, but the captured name must start with a
letter or underscore). -/
def findVarsFuel : ℕ → Str → List Str
  | 0, _ => []
  | fuel + 1, s =>
      match s with
      | [] => []
      | c :: rest =>
          if c = lbrace then
            match rest with
            | c2 :: rest2 =>
                if c2 = lbrace then
                  match rest2 with
                  | c3 :: rest3 =>
                      if isVarStartCh c3 then
                        match rest3.dropWhile isWordCh with
                        | a1 :: a2 :: rest4 =>
                            if a1 = rbrace && a2 = rbrace then
                              (c3 :: rest3.takeWhile isWordCh) ::
                                findVarsFuel fuel rest4
                            else findVarsFuel fuel rest
                        | _ => findVarsFuel fuel rest
                      else findVarsFuel fuel rest
                  | [] => []
                else findVarsFuel fuel rest
            | [] => []
          else findVarsFuel fuel rest

/-- `_extract_variables`: the variable names of the raw text (the source
stores a Python set; the model fixes first-occurrence order). -/
def extractVariables (text : Str) : List Str :=
  dedupFirst (findVarsFuel text.length text)

/-- A parsed document: metadata, sections and document-wide variables. -/
structure PDoc where
  metadata : List (Str × Str)
  sections : List PSection
  pvars : List Str

/-- The parser pipeline of `_parse` on a raw script text. -/
def parseScript (text : Str) : PDoc :=
  let lines := pyLines text
  let vars := extractVariables text
  { metadata := docMetadata lines
    sections := parseSections vars lines
    pvars := vars }

end ScriptBot

namespace ScriptBot

/-! ### Concrete parser documents used by closed statements -/

/-- A script whose metadata block is 31 lines long, followed by an accepted
section header: the parser's 30-line scan cap cuts the block short. -/
def exMetaText : Str :=
  mkStr "k0: v0\nk1: v1\nk2: v2\nk3: v3\nk4: v4\nk5: v5\nk6: v6\nk7: v7\nk8: v8\nk9: v9\nk10: v10\nk11: v11\nk12: v12\nk13: v13\nk14: v14\nk15: v15\nk16: v16\nk17: v17\nk18: v18\nk19: v19\nk20: v20\nk21: v21\nk22: v22\nk23: v23\nk24: v24\nk25: v25\nk26: v26\nk27: v27\nk28: v28\nk29: v29\nk30: v30\nSECTION ONE\nAgent: Hello there."

/-- A script with a one-line metadata block before the first header. -/
def exC5Text : Str := mkStr "title: Demo\nOPENING\nAgent: Hi."

/-- A script with two placeholders, one outside the first section. -/
def exC10Text : Str :=
  mkStr "OPENING\nAgent: Hi \x7b\x7bfirst_name\x7d\x7d, how are you?\nCLOSING\nAgent: Bye \x7b\x7blast_name\x7d\x7d."

/-- The first parsed section of `exC10Text`. -/
def exC10Sec : PSection :=
  ((parseScript exC10Text).sections).headD (saveSection [] [] [] [])

end ScriptBot

namespace ScriptBot

/-! ## Theorems

General lemmas first, then one theorem (plus witness or counterexample)
per claim of the specification. -/

/-- The fuzzy loop matches at most every keyword once. -/
theorem fzCount_le (ratio : Str → Str → ℕ) (thr : ℕ) (words kws : List Str) :
    fzCount ratio thr words kws ≤ kws.length :=
  List.length_filter_le _ _

/-- A fold of `pickMax` stays put when no later entry is strictly greater. -/
theorem pickMax_foldl_keep :
    ∀ (t : List (Str × ℚ)) (b : Str × ℚ),
      (∀ q ∈ t, ¬ b.2 < q.2) → t.foldl pickMax b = b := by
  intro t
  induction t with
  | nil => intro b _; rfl
  | cons y t ih =>
      intro b hb
      have hy : ¬ b.2 < y.2 := hb y (by simp)
      simp only [List.foldl_cons, pickMax, if_neg hy]
      exact ih b (fun q hq => hb q (by simp [hq]))

/-- A fold of `pickMax` reaches a strictly dominant member of the list. -/
theorem pickMax_foldl_reach :
    ∀ (t : List (Str × ℚ)) (b p : Str × ℚ),
      p ∈ t → (∀ q ∈ t, q ≠ p → q.2 < p.2) → b.2 < p.2 →
      t.foldl pickMax b = p := by
  intro t
  induction t with
  | nil => intro b p hp _ _; exact absurd hp (List.not_mem_nil p)
  | cons y t ih =>
      intro b p hp hdom hb
      have hkeep : ∀ q ∈ t, q ≠ p → q.2 < p.2 :=
        fun q hq => hdom q (List.mem_cons_of_mem y hq)
      by_cases hyp : y = p
      · have hby : b.2 < y.2 := by rw [hyp]; exact hb
        have h1 : pickMax b y = p := by rw [pickMax, if_pos hby, hyp]
        rw [List.foldl_cons, h1]
        apply pickMax_foldl_keep
        intro q hq
        by_cases hqp : q = p
        · rw [hqp]; exact lt_irrefl _
        · exact lt_asymm (hkeep q hq hqp)
      · have hpt : p ∈ t := by
          rcases List.mem_cons.mp hp with h | h
          · exact absurd h.symm hyp
          · exact h
        have hstep : (pickMax b y).2 < p.2 := by
          rw [pickMax]
          by_cases hby : b.2 < y.2
          · rw [if_pos hby]; exact hdom y (List.mem_cons_self y t) hyp
          · rw [if_neg hby]; exact hb
        rw [List.foldl_cons]
        exact ih (pickMax b y) p hpt hkeep hstep

/-- Python `max` over an insertion-ordered map returns a strictly dominant
entry whenever one is present. -/
theorem maxByFirst_dominant {l : List (Str × ℚ)} {p : Str × ℚ}
    (hp : p ∈ l) (hdom : ∀ q ∈ l, q ≠ p → q.2 < p.2) :
    maxByFirst l = some p := by
  cases l with
  | nil => exact absurd hp (List.not_mem_nil p)
  | cons x t =>
      rw [maxByFirst]
      congr 1
      by_cases hxp : x = p
      · have hkx : ∀ q ∈ t, ¬ x.2 < q.2 := by
          intro q hq
          by_cases hqp : q = p
          · rw [hqp, hxp]; exact lt_irrefl _
          · rw [hxp]; exact lt_asymm (hdom q (List.mem_cons_of_mem x hq) hqp)
        rw [pickMax_foldl_keep t x hkx, hxp]
      · have hpt : p ∈ t := by
          rcases List.mem_cons.mp hp with h | h
          · exact absurd h.symm hxp
          · exact h
        exact pickMax_foldl_reach t x p hpt
          (fun q hq => hdom q (List.mem_cons_of_mem x hq))
          (hdom x (List.mem_cons_self x t) hxp)

end ScriptBot

namespace ScriptBot

/-- Generic bound for a scored entry of a row that has no exact keyword and
no phrase match on `exLower`: only the fuzzy loop can contribute, so the
normalised score is at most (keyword count / 2) / (keyword count + phrase
count). -/
theorem scoreRow_fuzzy_bound (ratio : Str → Str → ℕ) (thr : ℕ)
    {row : IntentRow} {q : Str × ℚ}
    (h : scoreRow ratio thr exLower row = some q)
    (hk : kwCount exLower row.2.1 = 0)
    (hp : phCount exLower row.2.2 = 0)
    (hMpos : 0 < ((row.2.1.length + row.2.2.length : ℕ) : ℚ))
    (hbound : (1/2) * (row.2.1.length : ℚ) / ((row.2.1.length + row.2.2.length : ℕ) : ℚ) ≤ 2/5) :
    q.1 = row.1 ∧ q.2 ≤ 2/5 := by
  rw [scoreRow] at h
  simp only [hk, hp, Nat.cast_zero, zero_add, mul_zero, add_zero] at h
  by_cases hc : fzCount ratio thr (pySplitWS exLower) row.2.1 > 0
  · rw [if_pos hc] at h
    have hq := Option.some.inj h
    constructor
    · rw [← hq]
    · rw [← hq]
      refine le_trans (min_le_left _ _) (le_trans ?_ hbound)
      gcongr
      exact fzCount_le ratio thr (pySplitWS exLower) row.2.1
  · rw [if_neg hc] at h
    exact absurd h (by simp)

/-- On the example utterance the `NEGATIVE` row scores exactly the entry
`exNegEntry`: keywords `no` and `not interested` match (2.0), phrases
`no thanks` and `not interested` match (3.0), plus the fuzzy
contribution. -/
theorem scoreRow_negative (ratio : Str → Str → ℕ) (thr : ℕ) :
    scoreRow ratio thr exLower rowNEGATIVE = some (exNegEntry ratio thr) := by
  rw [scoreRow]
  have hk : kwCount exLower rowNEGATIVE.2.1 = 2 := by decide
  have hp : phCount exLower rowNEGATIVE.2.2 = 2 := by decide
  simp only [hk, hp]
  rw [if_pos (show 2 + 2 + fzCount ratio thr (pySplitWS exLower) rowNEGATIVE.2.1 > 0 by
    omega)]
  rw [exNegEntry]
  have hM : ((rowNEGATIVE.2.1.length + rowNEGATIVE.2.2.length : ℕ) : ℚ) = 11 := by
    norm_num [show rowNEGATIVE.2.1.length = 8 from rfl,
      show rowNEGATIVE.2.2.length = 3 from rfl]
  rw [hM]
  norm_num
  rfl

/-- Characterisation of the score map on the example utterance: the
`NEGATIVE` entry is present as `exNegEntry`, and every other entry has a
different label and a normalised score of at most 2/5 (whatever the fuzzy
ratio function does). -/
theorem exScores_char (ratio : Str → Str → ℕ) (thr : ℕ) :
    ∀ q ∈ scoreAllIntents ratio thr exLower,
      q = exNegEntry ratio thr ∨ (q.1 ≠ mkStr "NEGATIVE" ∧ q.2 ≤ 2/5) := by
  intro q hq
  rw [scoreAllIntents, List.mem_filterMap] at hq
  obtain ⟨row, hrow, hsome⟩ := hq
  simp only [intentTable, List.mem_cons, List.not_mem_nil, or_false] at hrow
  rcases hrow with h | h | h | h | h | h | h | h
  all_goals subst h
  · -- POSITIVE
    right
    have hlen1 : rowPOSITIVE.2.1.length = 12 := rfl
    have hlen2 : rowPOSITIVE.2.2.length = 4 := rfl
    have := scoreRow_fuzzy_bound ratio thr hsome (by decide) (by decide)
      (by norm_num [hlen1, hlen2]) (by norm_num [hlen1, hlen2])
    exact ⟨by rw [this.1]; decide, this.2⟩
  · -- NEGATIVE
    left
    have := scoreRow_negative ratio thr
    rw [hsome] at this
    exact Option.some.inj this
  · -- QUESTION
    right
    have hlen1 : rowQUESTION.2.1.length = 11 := rfl
    have hlen2 : rowQUESTION.2.2.length = 4 := rfl
    have := scoreRow_fuzzy_bound ratio thr hsome (by decide) (by decide)
      (by norm_num [hlen1, hlen2]) (by norm_num [hlen1, hlen2])
    exact ⟨by rw [this.1]; decide, this.2⟩
  · -- UNCERTAIN
    right
    have hlen1 : rowUNCERTAIN.2.1.length = 9 := rfl
    have hlen2 : rowUNCERTAIN.2.2.length = 3 := rfl
    have := scoreRow_fuzzy_bound ratio thr hsome (by decide) (by decide)
      (by norm_num [hlen1, hlen2]) (by norm_num [hlen1, hlen2])
    exact ⟨by rw [this.1]; decide, this.2⟩
  · -- OBJECTION
    right
    have hlen1 : rowOBJECTION.2.1.length = 9 := rfl
    have hlen2 : rowOBJECTION.2.2.length = 4 := rfl
    have := scoreRow_fuzzy_bound ratio thr hsome (by decide) (by decide)
      (by norm_num [hlen1, hlen2]) (by norm_num [hlen1, hlen2])
    exact ⟨by rw [this.1]; decide, this.2⟩
  · -- REQUESTINFO
    right
    have hlen1 : rowREQUESTINFO.2.1.length = 8 := rfl
    have hlen2 : rowREQUESTINFO.2.2.length = 3 := rfl
    have := scoreRow_fuzzy_bound ratio thr hsome (by decide) (by decide)
      (by norm_num [hlen1, hlen2]) (by norm_num [hlen1, hlen2])
    exact ⟨by rw [this.1]; decide, this.2⟩
  · -- BUSY
    right
    have hlen1 : rowBUSY.2.1.length = 5 := rfl
    have hlen2 : rowBUSY.2.2.length = 4 := rfl
    have := scoreRow_fuzzy_bound ratio thr hsome (by decide) (by decide)
      (by norm_num [hlen1, hlen2]) (by norm_num [hlen1, hlen2])
    exact ⟨by rw [this.1]; decide, this.2⟩
  · -- FRUSTRATED
    right
    have hlen1 : rowFRUSTRATED.2.1.length = 8 := rfl
    have hlen2 : rowFRUSTRATED.2.2.length = 3 := rfl
    have := scoreRow_fuzzy_bound ratio thr hsome (by decide) (by decide)
      (by norm_num [hlen1, hlen2]) (by norm_num [hlen1, hlen2])
    exact ⟨by rw [this.1]; decide, this.2⟩

end ScriptBot

namespace ScriptBot

/-- On the example utterance, the `NEGATIVE` entry strictly dominates every
other entry and scores at least 5/11. -/
theorem exNegEntry_ge (ratio : Str → Str → ℕ) (thr : ℕ) :
    (5 : ℚ)/11 ≤ (exNegEntry ratio thr).2 := by
  rw [exNegEntry]
  refine le_min ?_ (by norm_num)
  have h0 : (0 : ℚ) ≤ ((fzCount ratio thr (pySplitWS exLower) rowNEGATIVE.2.1 : ℕ) : ℚ) := by
    positivity
  gcongr
  linarith

/-- The maximum of the score map on the example utterance is the `NEGATIVE`
entry, for every fuzzy ratio function. -/
theorem exMaxNegative (ratio : Str → Str → ℕ) (thr : ℕ) :
    maxByFirst (scoreAllIntents ratio thr exLower) = some (exNegEntry ratio thr) := by
  have hmem : exNegEntry ratio thr ∈ scoreAllIntents ratio thr exLower := by
    rw [scoreAllIntents, List.mem_filterMap]
    exact ⟨rowNEGATIVE, by simp [intentTable], scoreRow_negative ratio thr⟩
  refine maxByFirst_dominant hmem ?_
  intro q hq hne
  rcases exScores_char ratio thr q hq with h | h
  · exact absurd h hne
  · calc q.2 ≤ 2/5 := h.2
      _ < 5/11 := by norm_num
      _ ≤ _ := exNegEntry_ge ratio thr

/-- On the example utterance no label other than `NEGATIVE` reaches a score
above one half, for every fuzzy ratio function. -/
theorem exGetScore_le (ratio : Str → Str → ℕ) (thr : ℕ) (lbl : Str)
    (hlbl : lbl ≠ mkStr "NEGATIVE") :
    ¬ (1/2 : ℚ) < getScore (scoreAllIntents ratio thr exLower) lbl := by
  rw [getScore]
  cases hf : (scoreAllIntents ratio thr exLower).find? (fun p => p.1 == lbl) with
  | none => simp
  | some q =>
      have hqmem := List.mem_of_find?_eq_some hf
      have hq1 : q.1 = lbl := by simpa using List.find?_some hf
      rcases exScores_char ratio thr q hqmem with h | h
      · exact absurd (by rw [← hq1, h]; rfl) hlbl
      · simp only [Option.map_some', Option.getD_some]
        exact not_lt.mpr (le_trans h.2 (by norm_num))

/-- Parametric facts about the classifier on the specification's example
utterance `"No thanks, not interested"`: the primary intent is `NEGATIVE`,
the sentiment is `NEUTRAL` (the sentiment rule only consults the
`FRUSTRATED`, `OBJECTION`, `POSITIVE` and `UNCERTAIN` scores, none of which
can exceed one half here), and the input is not a question — for every
fuzzy ratio function and threshold. -/
theorem exDetect_facts (ratio : Str → Str → ℕ) (thr : ℕ) :
    (detect ratio thr exUtter).primaryIntent = mkStr "NEGATIVE" ∧
    (detect ratio thr exUtter).sentiment = mkStr "NEUTRAL" ∧
    (detect ratio thr exUtter).isQuestion = false := by
  refine ⟨?_, ?_, ?_⟩
  · have h1 : (detect ratio thr exUtter).primaryIntent =
        (match maxByFirst (scoreAllIntents ratio thr exLower) with
          | some p => p.1
          | none => mkStr "NEUTRAL") := rfl
    rw [h1, exMaxNegative ratio thr]
    rfl
  · have h2 : (detect ratio thr exUtter).sentiment =
        detectSentiment (scoreAllIntents ratio thr exLower) := rfl
    rw [h2, detectSentiment]
    rw [if_neg (not_or.mpr ⟨exGetScore_le ratio thr _ (by decide),
      exGetScore_le ratio thr _ (by decide)⟩)]
    rw [if_neg (exGetScore_le ratio thr _ (by decide))]
    rw [if_neg (exGetScore_le ratio thr _ (by decide))]
  · have h3 : (detect ratio thr exUtter).isQuestion = isQuestionText exUtter := rfl
    rw [h3]
    decide

/-- C7 (counterexample): on `"No thanks, not interested"` the detector's
sentiment is not `NEGATIVE` as the claim states (it is `NEUTRAL`, because
`_detect_sentiment` only consults the `FRUSTRATED`, `OBJECTION`,
`POSITIVE` and `UNCERTAIN` scores), shown at the concrete fuzzy ratio
model with the application's threshold 80. -/
theorem claim_C7_counterexample :
    (detect fuzzRatioModel 80 exUtter).sentiment ≠ mkStr "NEGATIVE" := by
  rw [(exDetect_facts fuzzRatioModel 80).2.1]
  decide

/-- C7 (amended): the classifier applied to `"No thanks, not interested"`
returns `primary_intent = NEGATIVE`, `is_question = false`, and sentiment
`NEUTRAL` (not `NEGATIVE`), for every fuzzy ratio function and
threshold. -/
theorem claim_C7_amended (ratio : Str → Str → ℕ) (thr : ℕ) :
    (detect ratio thr exUtter).primaryIntent = mkStr "NEGATIVE" ∧
    (detect ratio thr exUtter).sentiment = mkStr "NEUTRAL" ∧
    (detect ratio thr exUtter).isQuestion = false :=
  exDetect_facts ratio thr

end ScriptBot

namespace ScriptBot

/-- The base value is below a fold of pairwise maxima. -/
theorem foldMax_base_le :
    ∀ (t : List (Str × ℚ)) (b : ℚ), b ≤ t.foldl (fun m q => max m q.2) b := by
  intro t
  induction t with
  | nil => intro b; exact le_refl b
  | cons y t ih =>
      intro b
      rw [List.foldl_cons]
      exact le_trans (le_max_left b y.2) (ih (max b y.2))

/-- The value of the `pickMax` fold is the fold of pairwise maxima. -/
theorem pickMax_foldl_snd :
    ∀ (t : List (Str × ℚ)) (b : Str × ℚ),
      (t.foldl pickMax b).2 = t.foldl (fun m q => max m q.2) b.2 := by
  intro t
  induction t with
  | nil => intro b; rfl
  | cons y t ih =>
      intro b
      rw [List.foldl_cons, List.foldl_cons, ih]
      congr 1
      rw [pickMax]
      by_cases h : b.2 < y.2
      · rw [if_pos h]; exact (max_eq_right (le_of_lt h)).symm
      · rw [if_neg h]; exact (max_eq_left (not_lt.mp h)).symm

/-- The `pickMax` fold result is the first entry of the list attaining the
maximal value: Python `max` with strict replacement realises the
declaration-order-first tie-break. -/
theorem find_first_max :
    ∀ (t : List (Str × ℚ)) (x : Str × ℚ),
      (x :: t).find? (fun q => q.2 == t.foldl (fun m q' => max m q'.2) x.2) =
        some (t.foldl pickMax x) := by
  intro t
  induction t with
  | nil =>
      intro x
      simp [List.find?]
  | cons y t ih =>
      intro x
      by_cases hxy : x.2 < y.2
      · have hM : x.2 < (y :: t).foldl (fun m q' => max m q'.2) x.2 := by
          rw [List.foldl_cons]
          exact lt_of_lt_of_le (lt_of_lt_of_le hxy (le_max_right x.2 y.2))
            (foldMax_base_le t (max x.2 y.2))
        have hpredx : (x.2 == (y :: t).foldl (fun m q' => max m q'.2) x.2) = false := by
          exact beq_eq_false_iff_ne.mpr (ne_of_lt hM)
        rw [List.find?_cons_of_neg _ (by simpa using hpredx)]
        have hmax : max x.2 y.2 = y.2 := max_eq_right (le_of_lt hxy)
        have hpick : pickMax x y = y := by rw [pickMax, if_pos hxy]
        rw [List.foldl_cons, hmax, List.foldl_cons, hpick]
        exact ih y
      · have hmax : max x.2 y.2 = x.2 := max_eq_left (not_lt.mp hxy)
        have hpick : pickMax x y = x := by rw [pickMax, if_neg hxy]
        rw [List.foldl_cons, hmax, List.foldl_cons, hpick]
        have ihx := ih x
        by_cases hx : (x.2 == t.foldl (fun m q' => max m q'.2) x.2) = true
        · rw [List.find?_cons_of_pos _ (by simpa using hx)] at ihx
          rw [List.find?_cons_of_pos _ (by simpa using hx)]
          exact ihx
        · have hy : (y.2 == t.foldl (fun m q' => max m q'.2) x.2) = false := by
            refine beq_eq_false_iff_ne.mpr ?_
            intro hEq
            have h1 : y.2 ≤ x.2 := not_lt.mp hxy
            have h2 : x.2 ≤ t.foldl (fun m q' => max m q'.2) x.2 := foldMax_base_le t x.2
            have hxf : (x.2 == t.foldl (fun m q' => max m q'.2) x.2) = false := by
              simpa using hx
            have h3 : x.2 ≠ t.foldl (fun m q' => max m q'.2) x.2 :=
              beq_eq_false_iff_ne.mp hxf
            exact h3 (le_antisymm h2 (hEq ▸ h1))
          rw [List.find?_cons_of_neg _ (by simpa using hx)] at ihx
          rw [List.find?_cons_of_neg _ (by simpa using hx),
            List.find?_cons_of_neg _ (by simpa using hy)]
          exact ihx

/-- C8: on every utterance with a non-empty score map, the primary intent
is the first label (in the intent table's declaration order, which is the
insertion order of the score map) whose normalised score attains the
maximum; classification is a pure function, so two classifications of the
same utterance agree definitionally. -/
theorem claim_C8_first_max_tiebreak (ratio : Str → Str → ℕ) (thr : ℕ) (u : Str)
    (hne : scoreAllIntents ratio thr (pyStrip (pyLower u)) ≠ []) :
    ∃ q, (scoreAllIntents ratio thr (pyStrip (pyLower u))).find?
        (fun r => r.2 == listMaxScore (scoreAllIntents ratio thr (pyStrip (pyLower u)))) =
          some q ∧
      (detect ratio thr u).primaryIntent = q.1 := by
  have h1 : (detect ratio thr u).primaryIntent =
      (match maxByFirst (scoreAllIntents ratio thr (pyStrip (pyLower u))) with
        | some p => p.1
        | none => mkStr "NEUTRAL") := rfl
  cases hS : scoreAllIntents ratio thr (pyStrip (pyLower u)) with
  | nil => exact absurd hS hne
  | cons x t =>
      refine ⟨t.foldl pickMax x, ?_, ?_⟩
      · rw [listMaxScore]
        exact find_first_max t x
      · rw [h1, hS, maxByFirst]

/-- C8 (witness): the utterance `"yes"` produces a non-empty score map, and
the theorem applies to it. -/
theorem claim_C8_witness :
    scoreAllIntents fuzzRatioModel 80 (pyStrip (pyLower (mkStr "yes"))) ≠ [] ∧
    (∃ q, (scoreAllIntents fuzzRatioModel 80 (pyStrip (pyLower (mkStr "yes")))).find?
        (fun r => r.2 == listMaxScore
          (scoreAllIntents fuzzRatioModel 80 (pyStrip (pyLower (mkStr "yes"))))) =
          some q ∧
      (detect fuzzRatioModel 80 (mkStr "yes")).primaryIntent = q.1) :=
  ⟨by decide, claim_C8_first_max_tiebreak fuzzRatioModel 80 (mkStr "yes") (by decide)⟩

/-- C9: the modelled classifier is a total function, and whenever no intent
label scores a match (the score map is empty) the returned signal has
primary intent `NEUTRAL` with confidence 0. -/
theorem claim_C9_neutral_default (ratio : Str → Str → ℕ) (thr : ℕ) (u : Str)
    (h : scoreAllIntents ratio thr (pyStrip (pyLower u)) = []) :
    (detect ratio thr u).primaryIntent = mkStr "NEUTRAL" ∧
    (detect ratio thr u).confidence = 0 := by
  constructor
  · have h1 : (detect ratio thr u).primaryIntent =
        (match maxByFirst (scoreAllIntents ratio thr (pyStrip (pyLower u))) with
          | some p => p.1
          | none => mkStr "NEUTRAL") := rfl
    rw [h1, h]
    rfl
  · have h2 : (detect ratio thr u).confidence =
        getScore (scoreAllIntents ratio thr (pyStrip (pyLower u)))
          (match maxByFirst (scoreAllIntents ratio thr (pyStrip (pyLower u))) with
            | some p => p.1
            | none => mkStr "NEUTRAL") := rfl
    rw [h2, h]
    rfl

/-- C9 (witness): the utterance `"zz"` matches no keyword, phrase or fuzzy
keyword under the concrete ratio model, so its score map is empty and the
theorem yields the `NEUTRAL`, zero-confidence signal. -/
theorem claim_C9_witness :
    scoreAllIntents fuzzRatioModel 80 (pyStrip (pyLower (mkStr "zz"))) = [] ∧
    ((detect fuzzRatioModel 80 (mkStr "zz")).primaryIntent = mkStr "NEUTRAL" ∧
     (detect fuzzRatioModel 80 (mkStr "zz")).confidence = 0) :=
  ⟨by decide, claim_C9_neutral_default fuzzRatioModel 80 (mkStr "zz") (by decide)⟩

end ScriptBot

namespace ScriptBot

/-- C1 (counterexample): on the three-section example document, after
`start()` and two `step("yes")` calls the conversation sits at the
`CLOSING` section — `current_section` is `"CLOSING"`, not `"END"`, and the
decision returned by the second step carries section `"CLOSING"`, not the
terminal `"END"` decision that the claim asserts. -/
theorem claim_C1_counterexample :
    exRun2.2.currentSection = some (mkStr "CLOSING") ∧
    exRun2.2.currentSection ≠ some (mkStr "END") ∧
    exRun2.1.sectionName = mkStr "CLOSING" ∧
    exRun2.1.sectionName ≠ mkStr "END" := by
  refine ⟨?_, ?_, ?_, ?_⟩ <;> decide

/-- C1 (amended): on the three-section example document, `start()` returns
the OPENING dialogue; the first `step("yes")` returns the INTRODUCTION
dialogue; the second `step("yes")` returns the CLOSING section's dialogue
`"Thanks, bye!"` with `current_section == "CLOSING"` (not `"END"`); one
further step — the third, i.e. N steps for N = 3 sections — returns the
terminal `CLOSING` decision whose section field is `"END"` with the fixed
goodbye line, while `current_section` remains `"CLOSING"` and
`completed_sections` is exactly `{OPENING, INTRODUCTION}`: the final
section's name is never added to the completed set. -/
theorem claim_C1_amended :
    exRun0.1.sectionName = mkStr "OPENING" ∧
    exRun0.1.agentLine = mkStr "Hi, is this Jane?" ∧
    exRun1.1.sectionName = mkStr "INTRODUCTION" ∧
    exRun1.1.agentLine = exIntroLine ∧
    exRun2.1.sectionName = mkStr "CLOSING" ∧
    exRun2.1.agentLine = mkStr "Thanks, bye!" ∧
    exRun2.1.phase = mkStr "CLOSING" ∧
    exRun2.2.currentSection = some (mkStr "CLOSING") ∧
    exRun3.1.sectionName = mkStr "END" ∧
    exRun3.1.dtype = mkStr "CLOSING" ∧
    exRun3.1.agentLine = mkStr "Thank you for your time. Goodbye!" ∧
    exRun3.2.currentSection = some (mkStr "CLOSING") ∧
    exRun3.2.completedSections = {mkStr "OPENING", mkStr "INTRODUCTION"} := by
  refine ⟨?_, ?_, ?_, ?_, ?_, ?_, ?_, ?_, ?_, ?_, ?_, ?_, ?_⟩ <;> decide

end ScriptBot

namespace ScriptBot

/-- A successful `findSome?` comes from some list member. -/
theorem findSome_some_spec {α β : Type} (f : α → Option β) :
    ∀ (l : List α) (b : β), l.findSome? f = some b → ∃ a ∈ l, f a = some b := by
  intro l
  induction l with
  | nil => intro b h; simp [List.findSome?] at h
  | cons x t ih =>
      intro b h
      rw [List.findSome?] at h
      split at h
      next v heq =>
        exact ⟨x, List.mem_cons_self x t, by rw [heq]; exact h⟩
      next heq =>
        obtain ⟨a, ha, hfa⟩ := ih b h
        exact ⟨a, List.mem_cons_of_mem x ha, hfa⟩

/-- `findSome?` succeeds when some member succeeds. -/
theorem findSome_isSome_of_mem {α β : Type} (f : α → Option β) :
    ∀ (l : List α) (a : α), a ∈ l → (f a).isSome → (l.findSome? f).isSome := by
  intro l
  induction l with
  | nil => intro a ha _; exact absurd ha (List.not_mem_nil a)
  | cons x t ih =>
      intro a ha hsome
      rw [List.findSome?]
      split
      next v heq => simp
      next heq =>
        rcases List.mem_cons.mp ha with h | h
        · rw [h, heq] at hsome
          simp at hsome
        · exact ih a h hsome

/-- C2: whenever the current section exists in the flow map, an utterance
matching an objection-category keyword and a same-category
`OBJECTION_HANDLING` section existing in the flow map force `step` to
return a decision with phase `OBJECTION` carrying an objection section's
dialogue, leaving the whole conversation state (in particular
`completed_sections`) unchanged — regardless of the current section's
type. -/
theorem claim_C2_objection_precedence (eng : Engine) (st : EState) (u : Str)
    (n : Str) (hcur : st.currentSection = some n)
    (hlook : (flowLookup eng.flow n).isSome)
    (hmatch : ∃ cat ∈ objectionCats,
      (∃ kw ∈ cat.2, isSub kw (pyLower u)) ∧
      (∃ e ∈ eng.flow, e.ftype = mkStr "OBJECTION_HANDLING" ∧
        ∃ kw2 ∈ cat.2, isSub kw2 (pyLower e.name))) :
    (getNextStep eng st u).1.phase = mkStr "OBJECTION" ∧
    (getNextStep eng st u).2 = st ∧
    (getNextStep eng st u).2.completedSections = st.completedSections ∧
    ∃ e ∈ eng.flow, e.ftype = mkStr "OBJECTION_HANDLING" ∧
      (getNextStep eng st u).1.agentLine = e.dialogue ∧
      (getNextStep eng st u).1.sectionName = e.name := by
  obtain ⟨cat, hcat, ⟨kw, hkw, hkwu⟩, ⟨e0, he0, he0ty, kw2, hkw2, hkw2n⟩⟩ := hmatch
  -- the objection scan succeeds
  have hcm : catMatch (pyLower u) (pyLower e0.name) cat = true := by
    rw [catMatch]
    simp only [Bool.and_eq_true]
    exact ⟨List.any_eq_true.mpr ⟨kw, hkw, hkwu⟩,
      List.any_eq_true.mpr ⟨kw2, hkw2, hkw2n⟩⟩
  have hobj : (checkForObjections eng (pyLower u)).isSome := by
    rw [checkForObjections]
    refine findSome_isSome_of_mem _ eng.flow e0 he0 ?_
    have hcond : (e0.ftype == mkStr "OBJECTION_HANDLING") = true := by
      rw [he0ty]; exact beq_self_eq_true _
    rw [if_pos hcond]
    cases hf : objectionCats.find? (catMatch (pyLower u) (pyLower e0.name)) with
    | none =>
        exact absurd hcm (by simpa using List.find?_eq_none.mp hf cat hcat)
    | some c => simp
  obtain ⟨d, hd⟩ := Option.isSome_iff_exists.mp hobj
  obtain ⟨e1, he1⟩ := Option.isSome_iff_exists.mp hlook
  have hstep : getNextStep eng st u = (d, st) := by
    simp only [getNextStep, hcur, he1, hd]
  -- shape of the decision
  have hd' : List.findSome? (fun e =>
      if (e.ftype == mkStr "OBJECTION_HANDLING") = true then
        match objectionCats.find? (catMatch (pyLower u) (pyLower e.name)) with
        | some cat =>
            some { sectionName := e.name
                   dtype := mkStr "OBJECTION_HANDLING"
                   agentLine := e.dialogue
                   requiredFields := []
                   phase := mkStr "OBJECTION"
                   objectionType := some cat.1 }
        | none => none
      else none) eng.flow = some d := by
    rw [checkForObjections] at hd
    exact hd
  obtain ⟨e2, he2, hfe2⟩ := findSome_some_spec _ eng.flow d hd'
  by_cases hty : (e2.ftype == mkStr "OBJECTION_HANDLING") = true
  · rw [if_pos hty] at hfe2
    cases hf2 : objectionCats.find? (catMatch (pyLower u) (pyLower e2.name)) with
    | none => rw [hf2] at hfe2; exact absurd hfe2 (by simp)
    | some c2 =>
        rw [hf2] at hfe2
        have hd2 := Option.some.inj hfe2
        refine ⟨?_, ?_, ?_, ⟨e2, he2, by simpa using hty, ?_, ?_⟩⟩
        · rw [hstep, ← hd2]
        · rw [hstep]
        · rw [hstep]
        · rw [hstep, ← hd2]
        · rw [hstep, ← hd2]
  · rw [if_neg hty] at hfe2
    exact absurd hfe2 (by simp)

/-- C2 (witness): a concrete conversation sitting at a `CONVERSATION`
section of a document with an objection section named
`OBJECTION NOT INTERESTED`, on the utterance `"not interested"`. -/
theorem claim_C2_witness :
    ∃ d : Decision × EState,
      d = getNextStep
        ⟨[plainSection "MAIN TALK" "Let me tell you more.",
          plainSection "OBJECTION NOT INTERESTED" "I understand completely."]⟩
        { currentSection := some (mkStr "MAIN TALK")
          completedSections := ∅
          collectedData := []
          conversationPhase := mkStr "CONVERSATION" }
        (mkStr "not interested") ∧
      d.1.phase = mkStr "OBJECTION" := by
  refine ⟨_, rfl, ?_⟩
  have h := claim_C2_objection_precedence
    ⟨[plainSection "MAIN TALK" "Let me tell you more.",
      plainSection "OBJECTION NOT INTERESTED" "I understand completely."]⟩
    { currentSection := some (mkStr "MAIN TALK")
      completedSections := ∅
      collectedData := []
      conversationPhase := mkStr "CONVERSATION" }
    (mkStr "not interested") (mkStr "MAIN TALK") rfl (by decide) (by decide)
  exact h.1

end ScriptBot

namespace ScriptBot

/-- The codomain of the section classifier. -/
theorem classify_cases (n : Str) :
    classifySection n = mkStr "OPENING" ∨ classifySection n = mkStr "INTRODUCTION" ∨
    classifySection n = mkStr "DATA_COLLECTION" ∨ classifySection n = mkStr "PROPERTY_INFO" ∨
    classifySection n = mkStr "BOOKING" ∨ classifySection n = mkStr "OBJECTION_HANDLING" ∨
    classifySection n = mkStr "CLOSING" ∨ classifySection n = mkStr "CONVERSATION" := by
  rw [classifySection]
  split_ifs <;> simp

/-- `buildFlowGo` preserves the flow-map invariant. -/
theorem buildFlowGo_inv (sections : List PSection) :
    ∀ (rest : List PSection) (i : ℕ) (flow : List FlowEntry),
      sections.drop i = rest → FlowInv sections i flow →
      FlowInv sections (i + rest.length) (buildFlowGo sections i rest flow) := by
  intro rest
  induction rest with
  | nil =>
      intro i flow _ hinv
      simpa [buildFlowGo] using hinv
  | cons sec rest ih =>
      intro i flow hdrop hinv
      obtain ⟨hnodup, hent, hcompl⟩ := hinv
      have hgets : sections.get? i = some sec := by
        have h0 : (sections.drop i).get? 0 = some sec := by rw [hdrop]; rfl
        rwa [List.get?_drop, Nat.add_zero] at h0
      have hdrop' : sections.drop (i + 1) = rest := by
        rw [← List.tail_drop, hdrop]
        rfl
      have hstep : FlowInv sections (i + 1)
          (upsertFlow flow (mkFlowEntry sections i sec)) := by
        rw [upsertFlow]
        by_cases hpres : flow.any (fun x => x.name == (mkFlowEntry sections i sec).name)
        · rw [if_pos hpres]
          refine ⟨?_, ?_, ?_⟩
          · have : NamesOf (flow.map (fun x =>
                if x.name == (mkFlowEntry sections i sec).name then
                  mkFlowEntry sections i sec else x)) = NamesOf flow := by
              rw [NamesOf, NamesOf, List.map_map]
              refine List.map_congr_left ?_
              intro x _
              by_cases hx : (x.name == (mkFlowEntry sections i sec).name) = true
              · simp only [Function.comp_apply, hx, if_true]
                exact (eq_of_beq hx).symm
              · simp only [Function.comp_apply]
                rw [if_neg hx]
            rw [this]
            exact hnodup
          · intro e he
            obtain ⟨x, hx, hxe⟩ := List.mem_map.mp he
            by_cases hmatch : (x.name == (mkFlowEntry sections i sec).name) = true
            · rw [if_pos hmatch] at hxe
              rw [← hxe]
              refine ⟨rfl, Nat.lt_succ_self i, ⟨sec, hgets, rfl⟩, ?_⟩
              intro j hj1 hj2 sec' _ _
              have hidx : (mkFlowEntry sections i sec).index = i := rfl
              rw [hidx] at hj1
              omega
            · rw [if_neg hmatch] at hxe
              obtain ⟨hty, hlt, hsec, hlater⟩ := hent x hx
              rw [← hxe]
              refine ⟨hty, Nat.lt_succ_of_lt hlt, hsec, ?_⟩
              intro j hj1 hj2 sec' hsec' hname
              by_cases hji : j = i
              · rw [hji, hgets] at hsec'
                have hs : sec' = sec := (Option.some.inj hsec').symm
                apply hmatch
                refine beq_iff_eq.mpr ?_
                have hdefn : (mkFlowEntry sections i sec).name = sec.name := rfl
                rw [hdefn, ← hname, hs]
              · exact hlater j hj1 (by omega) sec' hsec' hname
          · intro j sec' hj hsec'
            by_cases hji : j = i
            · rw [hji, hgets] at hsec'
              have hs : sec' = sec := (Option.some.inj hsec').symm
              obtain ⟨x0, hx0, hx0n⟩ := List.any_eq_true.mp hpres
              refine ⟨mkFlowEntry sections i sec, ?_, ?_⟩
              · refine List.mem_map.mpr ⟨x0, hx0, ?_⟩
                rw [if_pos hx0n]
              · rw [hs]
                rfl
            · obtain ⟨e, he, hen⟩ := hcompl j sec' (by omega) hsec'
              refine ⟨if e.name == (mkFlowEntry sections i sec).name then
                  mkFlowEntry sections i sec else e, List.mem_map.mpr ⟨e, he, rfl⟩, ?_⟩
              by_cases hm : (e.name == (mkFlowEntry sections i sec).name) = true
              · rw [if_pos hm]
                rw [← hen]
                exact (eq_of_beq hm).symm ▸ rfl
              · rw [if_neg hm]
                exact hen
        · rw [if_neg hpres]
          have hnotin : ∀ x ∈ flow, x.name ≠ (mkFlowEntry sections i sec).name := by
            intro x hx heq
            exact hpres (List.any_eq_true.mpr ⟨x, hx, beq_iff_eq.mpr heq⟩)
          refine ⟨?_, ?_, ?_⟩
          · rw [NamesOf, List.map_append]
            refine List.Nodup.append hnodup (by simp) ?_
            intro a ha hb
            simp only [List.map_cons, List.map_nil, List.mem_singleton] at hb
            obtain ⟨x, hx, hxa⟩ := List.mem_map.mp ha
            exact hnotin x hx (by rw [hxa, hb])
          · intro e he
            rcases List.mem_append.mp he with he | he
            · obtain ⟨hty, hlt, hsec, hlater⟩ := hent e he
              refine ⟨hty, Nat.lt_succ_of_lt hlt, hsec, ?_⟩
              intro j hj1 hj2 sec' hsec' hname
              by_cases hji : j = i
              · rw [hji, hgets] at hsec'
                have hs : sec' = sec := (Option.some.inj hsec').symm
                exact hnotin e he (by rw [← hname, hs]; rfl)
              · exact hlater j hj1 (by omega) sec' hsec' hname
            · simp only [List.mem_singleton] at he
              rw [he]
              refine ⟨rfl, Nat.lt_succ_self i, ⟨sec, hgets, rfl⟩, ?_⟩
              intro j hj1 hj2 sec' _ _
              have hidx : (mkFlowEntry sections i sec).index = i := rfl
              rw [hidx] at hj1
              omega
          · intro j sec' hj hsec'
            by_cases hji : j = i
            · rw [hji, hgets] at hsec'
              have hs : sec' = sec := (Option.some.inj hsec').symm
              exact ⟨mkFlowEntry sections i sec, List.mem_append_right _ (by simp), by
                rw [hs]; rfl⟩
            · obtain ⟨e, he, hen⟩ := hcompl j sec' (by omega) hsec'
              exact ⟨e, List.mem_append_left _ he, hen⟩
      have := ih (i + 1) (upsertFlow flow (mkFlowEntry sections i sec)) hdrop' hstep
      rw [buildFlowGo]
      have harith : i + 1 + rest.length = i + (rest.length + 1) := by omega
      rw [List.length_cons]
      rw [← harith]
      exact this

/-- The flow map of an engine satisfies the flow-map invariant over the
whole section list. -/
theorem flow_inv (eng : Engine) :
    FlowInv eng.sections eng.sections.length eng.flow := by
  have h := buildFlowGo_inv eng.sections eng.sections 0 [] rfl
    ⟨by simp [NamesOf], by simp, by simp⟩
  simpa [Engine.flow, buildFlow] using h

end ScriptBot

namespace ScriptBot

/-- A successful flow lookup returns a member entry carrying the looked-up
name. -/
theorem lookup_mem {flow : List FlowEntry} {n : Str} {e : FlowEntry}
    (h : flowLookup flow n = some e) : e ∈ flow ∧ e.name = n := by
  rw [flowLookup] at h
  have hp := List.find?_some h
  simp only [beq_iff_eq] at hp
  exact ⟨List.mem_of_find?_eq_some h, hp⟩

/-- With pairwise-distinct names, looking up a member entry's name returns
that entry. -/
theorem lookup_self {flow : List FlowEntry}
    (hnd : (NamesOf flow).Nodup) {e : FlowEntry} (he : e ∈ flow) :
    flowLookup flow e.name = some e := by
  induction flow with
  | nil => cases he
  | cons x t ih =>
      simp only [NamesOf, List.map_cons, List.nodup_cons] at hnd
      rcases List.mem_cons.mp he with he | he
      · rw [he, flowLookup]
        exact List.find?_cons_of_pos _ (beq_iff_eq.mpr rfl)
      · have hne : (x.name == e.name) = false := by
          refine beq_eq_false_iff_ne.mpr ?_
          intro hcon
          exact hnd.1 (hcon ▸ List.mem_map.mpr ⟨e, he, rfl⟩)
        rw [flowLookup, List.find?_cons_of_neg _ (by rw [hne]; exact Bool.false_ne_true)]
        exact ih hnd.2 he

/-- With pairwise-distinct names, the name determines the entry. -/
theorem name_inj {flow : List FlowEntry} (hnd : (NamesOf flow).Nodup)
    {e1 e2 : FlowEntry} (h1 : e1 ∈ flow) (h2 : e2 ∈ flow)
    (hn : e1.name = e2.name) : e1 = e2 := by
  have k1 := lookup_self hnd h1
  have k2 := lookup_self hnd h2
  rw [hn, k2] at k1
  exact (Option.some.inj k1).symm

/-- The names of an engine's flow map are pairwise distinct. -/
theorem eng_nodup (eng : Engine) : (NamesOf eng.flow).Nodup := (flow_inv eng).1

/-- Every flow entry's type is the classification of its name. -/
theorem eng_ftype (eng : Engine) {e : FlowEntry} (he : e ∈ eng.flow) :
    e.ftype = classifySection e.name := ((flow_inv eng).2.1 e he).1

/-- Every flow entry points at a section bearing its name. -/
theorem eng_sec (eng : Engine) {e : FlowEntry} (he : e ∈ eng.flow) :
    ∃ sec, eng.sections.get? e.index = some sec ∧ sec.name = e.name :=
  ((flow_inv eng).2.1 e he).2.2.1

/-- A flow entry's index is the last occurrence of its name in the
document. -/
theorem eng_last (eng : Engine) {e : FlowEntry} (he : e ∈ eng.flow) :
    ∀ j, e.index < j → ∀ sec, eng.sections.get? j = some sec →
      sec.name ≠ e.name := by
  intro j hj sec hsec
  have hjlt : j < eng.sections.length := by
    obtain ⟨h1, -⟩ := List.get?_eq_some.mp hsec
    exact h1
  exact ((flow_inv eng).2.1 e he).2.2.2 j hj hjlt sec hsec

/-- Every section's name has a flow entry. -/
theorem eng_complete (eng : Engine) {j : ℕ} {sec : PSection}
    (h : eng.sections.get? j = some sec) : ∃ e ∈ eng.flow, e.name = sec.name := by
  have hl : j < eng.sections.length := by
    obtain ⟨h1, -⟩ := List.get?_eq_some.mp h
    exact h1
  exact (flow_inv eng).2.2 j sec hl h

/-- Looking up a member entry's name in the engine's flow map returns that
entry. -/
theorem eng_lookup_self (eng : Engine) {e : FlowEntry} (he : e ∈ eng.flow) :
    flowLookup eng.flow e.name = some e := lookup_self (eng_nodup eng) he

/-- A strict flow-index step never returns to its origin. -/
theorem SeqIdxLt_ne {eng : Engine} {n t : Str} (h : SeqIdxLt eng n t) : t ≠ n := by
  rintro rfl
  obtain ⟨en, et, h1, h2, h3⟩ := h
  rw [h1] at h2
  rw [Option.some.inj h2] at h3
  exact lt_irrefl _ h3

/-- What the scan of `_find_next_sequential_section` guarantees about a
returned name. -/
theorem findNextSeqGo_spec (eng : Engine) (completed : Finset Str) :
    ∀ (l : List PSection) (t : Str), findNextSeqGo eng completed l = some t →
      ∃ k sec, l.get? k = some sec ∧ sec.name = t ∧ t ∉ completed ∧
        ∃ e, flowLookup eng.flow t = some e ∧
          e.ftype ≠ mkStr "OBJECTION_HANDLING" := by
  intro l
  induction l with
  | nil =>
      intro t h
      rw [findNextSeqGo] at h
      cases h
  | cons sec rest ih =>
      intro t h
      rw [findNextSeqGo] at h
      split at h
      · obtain ⟨k, sec2, hg, h1, h2, h3⟩ := ih t h
        exact ⟨k + 1, sec2, hg, h1, h2, h3⟩
      next hc =>
        split at h
        next e heq =>
          split at h
          · obtain ⟨k, sec2, hg, h1, h2, h3⟩ := ih t h
            exact ⟨k + 1, sec2, hg, h1, h2, h3⟩
          next hobj =>
            have hst : sec.name = t := Option.some.inj h
            refine ⟨0, sec, rfl, hst, ?_, e, by rw [← hst]; exact heq, ?_⟩
            · intro hmem
              rw [← hst] at hmem
              exact hc (decide_eq_true hmem)
            · intro hcon
              exact hobj (beq_iff_eq.mpr hcon)
        next heq =>
          obtain ⟨k, sec2, hg, h1, h2, h3⟩ := ih t h
          exact ⟨k + 1, sec2, hg, h1, h2, h3⟩

/-- What a successful sequential search guarantees: the target is an
uncompleted non-objection flow name at a strictly later flow index than the
current section. -/
theorem findNextSeq_spec {eng : Engine} {st : EState} {t : Str}
    (h : findNextSequentialSection eng st = some t) :
    ∃ cur, st.currentSection = some cur ∧ SeqIdxLt eng cur t ∧
      t ∉ st.completedSections ∧
      ∃ e, flowLookup eng.flow t = some e ∧
        e.ftype ≠ mkStr "OBJECTION_HANDLING" := by
  rw [findNextSequentialSection] at h
  split at h
  · cases h
  next cur hcur =>
    split at h
    · cases h
    next ecur hecur =>
      obtain ⟨k, sec, hget, hname, hnc, e, hlookT, hobj⟩ :=
        findNextSeqGo_spec eng _ _ _ h
      have hget' : eng.sections.get? (ecur.index + 1 + k) = some sec := by
        rwa [List.get?_drop] at hget
      have hemem := lookup_mem hlookT
      have hidx : ecur.index < e.index := by
        by_contra hnot
        push_neg at hnot
        refine eng_last eng hemem.1 (ecur.index + 1 + k) (by omega) sec hget' ?_
        rw [hname, hemem.2]
      exact ⟨cur, hcur, ⟨ecur, e, hecur, hlookT, hidx⟩, hnc, e, hlookT, hobj⟩

/-- What `_get_next_section_by_type` guarantees about a returned name. -/
theorem byType_spec {eng : Engine} {st : EState} {ty t : Str}
    (h : getNextSectionByType eng st ty = some t) :
    ∃ e ∈ eng.flow, e.name = t ∧ e.ftype = ty ∧ t ∉ st.completedSections := by
  rw [getNextSectionByType] at h
  obtain ⟨e, he, hname0⟩ := Option.map_eq_some'.mp h
  have hname : e.name = t := hname0
  have hmem := List.mem_of_find?_eq_some he
  have hp := List.find?_some he
  simp only [Bool.and_eq_true, beq_iff_eq, Bool.not_eq_true',
    decide_eq_false_iff_not] at hp
  refine ⟨e, hmem, hname, hp.1, ?_⟩
  rw [← hname]
  exact hp.2

end ScriptBot

namespace ScriptBot

/-- `start_conversation` only moves the position (or leaves the state
unchanged); it never grows the completed set. -/
theorem start_outcome (eng : Engine) (st : EState) :
    StepShape eng st (startConversation eng st).2 := by
  rcases hf : eng.flow.find? (fun e => e.ftype == mkStr "OPENING") with _ | e
  · rcases hs : eng.sections with _ | ⟨first, rest⟩
    · simp only [startConversation, hf, hs]
      exact StepShape.same st rfl rfl
    · simp only [startConversation, hf, hs]
      refine StepShape.move _ first.name rfl rfl ?_
      refine Or.inr (Or.inr ⟨?_, ?_, ?_⟩)
      · rw [firstSectionName, hs]
        rfl
      · exact eng_complete eng (show eng.sections.get? 0 = some first by rw [hs]; rfl)
      · intro e2 he2 hty2
        exact (List.find?_eq_none.mp hf e2 he2) (beq_iff_eq.mpr hty2)
  · simp only [startConversation, hf]
    refine StepShape.move _ e.name rfl rfl ?_
    refine Or.inr (Or.inl ⟨e, List.mem_of_find?_eq_some hf, rfl, ?_⟩)
    have hp := List.find?_some hf
    simp only [beq_iff_eq] at hp
    exact hp

/-- Outcome of the opening handler: a clarification keeps the state, an
advance marks the literal `OPENING` and moves to an uncompleted
`INTRODUCTION`-typed section. -/
theorem handleOpening_outcome (eng : Engine) (st : EState) (cur u : Str)
    (hcur : st.currentSection = some cur) {ecur : FlowEntry}
    (hlook : flowLookup eng.flow cur = some ecur)
    (hty : ecur.ftype = mkStr "OPENING") :
    StepShape eng st (handleOpening eng st cur u).2 := by
  rcases hnx : getNextSectionByType eng st (mkStr "INTRODUCTION") with _ | nxt
  · simp only [handleOpening, hnx]
    split
    · exact StepShape.same st rfl rfl
    · exact StepShape.same st rfl rfl
  · rcases hl : flowLookup eng.flow nxt with _ | e
    · simp only [handleOpening, hnx, hl]
      split
      · exact StepShape.same st rfl rfl
      · exact StepShape.same st rfl rfl
    · simp only [handleOpening, hnx, hl]
      split
      · obtain ⟨e2, he2, hn2, hty2, hnc2⟩ := byType_spec hnx
        refine StepShape.mark _ (mkStr "OPENING") nxt rfl rfl ?_ ?_
        · exact ⟨⟨e2, he2, hn2, by rw [hty2]; decide⟩, hnc2⟩
        · have hmemc := lookup_mem hlook
          refine ⟨cur, hcur, ⟨ecur, hmemc.1, hmemc.2⟩, ?_,
            Or.inl ⟨rfl, ecur, hmemc.1, hmemc.2, hty⟩⟩
          intro hcon
          have he2c : e2 = ecur :=
            name_inj (eng_nodup eng) he2 hmemc.1 (by rw [hn2, hcon, hmemc.2])
          rw [he2c, hty] at hty2
          exact absurd hty2 (by decide)
      · exact StepShape.same st rfl rfl

/-- Outcome of the introduction handler: a clarification keeps the state,
an advance marks the literal `INTRODUCTION` and moves along the document
to a later-indexed uncompleted non-objection section. -/
theorem handleIntro_outcome (eng : Engine) (st : EState) (cur u : Str)
    (hcur : st.currentSection = some cur) {ecur : FlowEntry}
    (hlook : flowLookup eng.flow cur = some ecur)
    (hty : ecur.ftype = mkStr "INTRODUCTION") :
    StepShape eng st (handleIntroduction eng st cur u).2 := by
  rcases hnx : findNextSequentialSection eng st with _ | nxt
  · simp only [handleIntroduction, hnx]
    split
    · exact StepShape.same st rfl rfl
    · exact StepShape.same st rfl rfl
  · rcases hl : flowLookup eng.flow nxt with _ | e
    · simp only [handleIntroduction, hnx, hl]
      split
      · exact StepShape.same st rfl rfl
      · exact StepShape.same st rfl rfl
    · simp only [handleIntroduction, hnx, hl]
      split
      · obtain ⟨cur2, hcur2, hseq, hnc, e2, hlook2, hobj2⟩ := findNextSeq_spec hnx
        rw [hcur] at hcur2
        rw [(Option.some.inj hcur2).symm] at hseq
        refine StepShape.mark _ (mkStr "INTRODUCTION") nxt rfl rfl ?_ ?_
        · exact ⟨⟨e2, (lookup_mem hlook2).1, (lookup_mem hlook2).2, hobj2⟩, hnc⟩
        · have hmemc := lookup_mem hlook
          exact ⟨cur, hcur, ⟨ecur, hmemc.1, hmemc.2⟩, SeqIdxLt_ne hseq,
            Or.inr (Or.inl ⟨rfl, ⟨ecur, hmemc.1, hmemc.2, hty⟩, hseq⟩)⟩
      · exact StepShape.same st rfl rfl

/-- Outcome of the generic advance (`_continue_to_next_section`), stated
for any working state `st` that agrees with the reference state `s` on
position and completion (the data-collection handler passes a state that
differs only in collected data). -/
theorem continue_outcome (eng : Engine) (s st : EState) (cur : Str)
    (hC : st.completedSections = s.completedSections)
    (hP : st.currentSection = s.currentSection)
    (hcur : s.currentSection = some cur) {ecur : FlowEntry}
    (hlook : flowLookup eng.flow cur = some ecur)
    (hty : exitOrObjType ecur.ftype) :
    StepShape eng s (continueToNextSection eng st cur).2 := by
  rcases hn : findNextSequentialSection eng st with _ | nxt
  · simp only [continueToNextSection, hn]
    exact StepShape.same st hC hP
  · rcases hl : flowLookup eng.flow nxt with _ | e
    · simp only [continueToNextSection, hn, hl]
      exact StepShape.same st hC hP
    · simp only [continueToNextSection, hn, hl]
      obtain ⟨cur2, hcur2, hseq, hnc, e2, hlook2, hobj2⟩ := findNextSeq_spec hn
      rw [hP, hcur] at hcur2
      rw [(Option.some.inj hcur2).symm] at hseq
      refine StepShape.mark _ cur nxt rfl
        (by show insert cur st.completedSections = insert cur s.completedSections
            rw [hC]) ?_ ?_
      · refine ⟨⟨e2, (lookup_mem hlook2).1, (lookup_mem hlook2).2, hobj2⟩, ?_⟩
        rw [← hC]
        exact hnc
      · have hmemc := lookup_mem hlook
        exact ⟨cur, hcur, ⟨ecur, hmemc.1, hmemc.2⟩, SeqIdxLt_ne hseq,
          Or.inr (Or.inr ⟨rfl, ⟨ecur, hmemc.1, hmemc.2, hty⟩, hseq⟩)⟩

/-- Outcome of the data-collection handler: either a generic advance from
the data-merged state, or a direct advance that marks the current entry's
name. -/
theorem handleDC_outcome (eng : Engine) (st : EState) (cur u : Str)
    (hcur : st.currentSection = some cur) {ecur : FlowEntry}
    (hlook : flowLookup eng.flow cur = some ecur)
    (hty : ecur.ftype = mkStr "DATA_COLLECTION" ∨
      ecur.ftype = mkStr "PROPERTY_INFO") :
    StepShape eng st (handleDataCollection eng st cur ecur u).2 := by
  have hexo : exitOrObjType ecur.ftype := by
    rcases hty with h | h
    · exact Or.inl h
    · exact Or.inr (Or.inl h)
  simp only [handleDataCollection]
  split
  · split
    next nxt heqn =>
      split
      next e heql =>
        obtain ⟨cur2, hcur2, hseq, hnc, e2, hlook2, hobj2⟩ := findNextSeq_spec heqn
        have hcur2' : st.currentSection = some cur2 := hcur2
        rw [hcur] at hcur2'
        rw [(Option.some.inj hcur2').symm] at hseq
        have hnc' : nxt ∉ st.completedSections := hnc
        refine StepShape.mark _ cur nxt rfl
          (by show insert ecur.name _ = insert cur st.completedSections
              rw [(lookup_mem hlook).2]) ?_ ?_
        · exact ⟨⟨e2, (lookup_mem hlook2).1, (lookup_mem hlook2).2, hobj2⟩, hnc'⟩
        · have hmemc := lookup_mem hlook
          exact ⟨cur, hcur, ⟨ecur, hmemc.1, hmemc.2⟩, SeqIdxLt_ne hseq,
            Or.inr (Or.inr ⟨rfl, ⟨ecur, hmemc.1, hmemc.2, hexo⟩, hseq⟩)⟩
      next heql =>
        exact continue_outcome eng st _ cur rfl rfl hcur hlook hexo
    next heqn =>
      exact continue_outcome eng st _ cur rfl rfl hcur hlook hexo
  · exact continue_outcome eng st _ cur rfl rfl hcur hlook hexo

/-- Outcome of the booking handler: a move without marking, or no state
change. -/
theorem handleBooking_outcome (eng : Engine) (st : EState) (cur u : Str) :
    StepShape eng st (handleBooking eng st cur u).2 := by
  simp only [handleBooking]
  split
  · split
    next nxt heqn =>
      split
      next e heql =>
        obtain ⟨cur2, hcur2, hseq, hnc, e2, hlook2, hobj2⟩ := findNextSeq_spec heqn
        refine StepShape.move _ nxt rfl rfl ?_
        exact Or.inl ⟨⟨e2, (lookup_mem hlook2).1, (lookup_mem hlook2).2, hobj2⟩, hnc⟩
      next heql => exact StepShape.same st rfl rfl
    next heqn => exact StepShape.same st rfl rfl
  · exact StepShape.same st rfl rfl

/-- Every turn of the engine is one of the three step shapes. -/
theorem step_outcome (eng : Engine) (st : EState) (u : Str) :
    StepShape eng st (getNextStep eng st u).2 := by
  rcases hcur : st.currentSection with _ | cur
  · simp only [getNextStep, hcur]
    exact start_outcome eng st
  · rcases hlook : flowLookup eng.flow cur with _ | ecur
    · simp only [getNextStep, hcur, hlook]
      exact StepShape.same st rfl rfl
    · rcases hobj : checkForObjections eng (pyLower u) with _ | d
      · simp only [getNextStep, hcur, hlook, hobj]
        split_ifs with h1 h2 h3 h4 h5
        · exact handleOpening_outcome eng st cur u hcur hlook (eq_of_beq h1)
        · exact handleIntro_outcome eng st cur u hcur hlook (eq_of_beq h2)
        · exact handleDC_outcome eng st cur u hcur hlook (Or.inl (eq_of_beq h3))
        · exact handleDC_outcome eng st cur u hcur hlook (Or.inr (eq_of_beq h4))
        · exact handleBooking_outcome eng st cur u
        · refine continue_outcome eng st st cur rfl rfl hcur hlook ?_
          have hcl := eng_ftype eng (lookup_mem hlook).1
          rcases classify_cases ecur.name with h | h | h | h | h | h | h | h
          · exact absurd (beq_iff_eq.mpr (hcl.trans h)) h1
          · exact absurd (beq_iff_eq.mpr (hcl.trans h)) h2
          · exact absurd (beq_iff_eq.mpr (hcl.trans h)) h3
          · exact absurd (beq_iff_eq.mpr (hcl.trans h)) h4
          · exact absurd (beq_iff_eq.mpr (hcl.trans h)) h5
          · exact Or.inr (Or.inr (Or.inr (Or.inr (hcl.trans h))))
          · exact Or.inr (Or.inr (Or.inr (Or.inl (hcl.trans h))))
          · exact Or.inr (Or.inr (Or.inl (hcl.trans h)))
      · simp only [getNextStep, hcur, hlook, hobj]
        exact StepShape.same st rfl rfl

end ScriptBot

namespace ScriptBot

/-- C4: across a session with no reset, `completed_sections` only grows —
one turn of `get_next_step` never removes an element, and its cardinality
is non-decreasing, for every engine, every state and every utterance. -/
theorem claim_C4_monotone_completion (eng : Engine) (st : EState) (u : Str) :
    st.completedSections ⊆ ((getNextStep eng st u).2).completedSections ∧
    st.completedSections.card ≤ ((getNextStep eng st u).2).completedSections.card := by
  have h := step_outcome eng st u
  cases h with
  | same hC hP =>
      rw [hC]
      exact ⟨Finset.Subset.refl _, le_refl _⟩
  | move t hP hC hM =>
      rw [hC]
      exact ⟨Finset.Subset.refl _, le_refl _⟩
  | mark a t hP hC hT hM =>
      rw [hC]
      exact ⟨Finset.subset_insert _ _, Finset.card_le_card (Finset.subset_insert _ _)⟩

end ScriptBot

namespace ScriptBot

/-- A flow entry named by the literal `OPENING` is `OPENING`-typed. -/
theorem entry_named_O {eng : Engine} {e : FlowEntry} (he : e ∈ eng.flow)
    (hn : e.name = mkStr "OPENING") : e.ftype = mkStr "OPENING" := by
  have h := eng_ftype eng he
  rw [hn] at h
  rw [h]
  decide

/-- A flow entry named by the literal `INTRODUCTION` is
`INTRODUCTION`-typed. -/
theorem entry_named_I {eng : Engine} {e : FlowEntry} (he : e ∈ eng.flow)
    (hn : e.name = mkStr "INTRODUCTION") : e.ftype = mkStr "INTRODUCTION" := by
  have h := eng_ftype eng he
  rw [hn] at h
  rw [h]
  decide

/-- The invariant only reads the completed set and the position. -/
theorem inv_of_eq {eng : Engine} {s s' : EState} (inv : EngInv eng s)
    (hC : s'.completedSections = s.completedSections)
    (hP : s'.currentSection = s.currentSection) : EngInv eng s' := by
  refine ⟨?_, ?_, ?_, ?_, ?_, ?_, ?_, ?_, ?_, ?_, ?_⟩
  · rw [hC]; exact inv.elems
  · rw [hC]; exact inv.litOInv
  · rw [hC]; exact inv.litIInv
  · rw [hC]; exact inv.objNoOpen
  · rw [hC]; exact inv.objSpare
  · rw [hC]; exact inv.objFirst
  · rw [hP]; exact inv.curObjFirst
  · rw [hP]; exact inv.curObjNoOpen
  · rw [hP]; exact inv.curNames
  · rw [hC]; exact inv.chainW
  · rw [hC]; exact inv.litIStatic

/-- The invariant is preserved by a move without marking. -/
theorem inv_move {eng : Engine} {s s' : EState} (inv : EngInv eng s) {t : Str}
    (hP : s'.currentSection = some t)
    (hC : s'.completedSections = s.completedSections)
    (hM : MoveTarget eng s t) : EngInv eng s' := by
  have hobjcase : (∃ e ∈ eng.flow, e.name = t ∧ e.ftype = mkStr "OBJECTION_HANDLING") →
      firstSectionName eng = some t ∧ ∀ e ∈ eng.flow, e.ftype ≠ mkStr "OPENING" := by
    rintro ⟨e, he, hn, hty⟩
    rcases hM with ⟨⟨e2, he2, hn2, hty2⟩, -⟩ | ⟨e2, he2, hn2, hty2⟩ | ⟨hf, hex, hno⟩
    · have he2e : e2 = e := name_inj (eng_nodup eng) he2 he (hn2.trans hn.symm)
      rw [he2e] at hty2
      exact absurd hty hty2
    · have he2e : e2 = e := name_inj (eng_nodup eng) he2 he (hn2.trans hn.symm)
      rw [he2e, hty] at hty2
      exact absurd hty2 (by decide)
    · exact ⟨hf, hno⟩
  have hnames : ∃ e ∈ eng.flow, e.name = t := by
    rcases hM with ⟨⟨e2, he2, hn2, -⟩, -⟩ | ⟨e2, he2, hn2, -⟩ | ⟨-, hex, -⟩
    · exact ⟨e2, he2, hn2⟩
    · exact ⟨e2, he2, hn2⟩
    · exact hex
  refine ⟨?_, ?_, ?_, ?_, ?_, ?_, ?_, ?_, ?_, ?_, ?_⟩
  · rw [hC]; exact inv.elems
  · rw [hC]; exact inv.litOInv
  · rw [hC]; exact inv.litIInv
  · rw [hC]; exact inv.objNoOpen
  · rw [hC]; exact inv.objSpare
  · rw [hC]; exact inv.objFirst
  · intro m hm hobjm
    rw [hP] at hm
    rw [← Option.some.inj hm] at hobjm ⊢
    exact (hobjcase hobjm).1
  · intro m hm hobjm
    rw [hP] at hm
    rw [← Option.some.inj hm] at hobjm
    exact (hobjcase hobjm).2
  · intro m hm
    rw [hP] at hm
    rw [← Option.some.inj hm]
    exact hnames
  · rw [hC]; exact inv.chainW
  · rw [hC]; exact inv.litIStatic

end ScriptBot

namespace ScriptBot

/-- The invariant is preserved by a marking move. -/
theorem inv_mark {eng : Engine} {s s' : EState} (inv : EngInv eng s) {a t : Str}
    (hP : s'.currentSection = some t)
    (hC : s'.completedSections = insert a s.completedSections)
    (hT : (∃ e ∈ eng.flow, e.name = t ∧ e.ftype ≠ mkStr "OBJECTION_HANDLING") ∧
      t ∉ s.completedSections)
    (hM : MarkInfo eng s a t) : EngInv eng s' := by
  by_cases ha : a ∈ s.completedSections
  · exact inv_move inv hP (by rw [hC, Finset.insert_eq_self.mpr ha]) (Or.inl hT)
  · obtain ⟨n, hcur, ⟨enn, henn, hnn⟩, htn, hD⟩ := hM
    obtain ⟨⟨et, het, hetn, hetobj⟩, htc⟩ := hT
    have hmem' : ∀ x, x ∈ s'.completedSections ↔ x = a ∨ x ∈ s.completedSections := by
      intro x
      rw [hC]
      exact Finset.mem_insert
    refine ⟨?_, ?_, ?_, ?_, ?_, ?_, ?_, ?_, ?_, ?_, ?_⟩
    · -- elems
      intro x hx
      rcases (hmem' x).mp hx with hxa | hx2
      · subst hxa
        rcases hD with ⟨haO, -⟩ | ⟨haI, -, -⟩ | ⟨haN, ⟨en2, hen2, hn2, hexo⟩, -⟩
        · exact Or.inl haO
        · exact Or.inr (Or.inl haI)
        · refine Or.inr (Or.inr ⟨en2, hen2, ?_, hexo⟩)
          rw [hn2, haN]
      · exact inv.elems x hx2
    · -- litOInv
      intro h
      rcases (hmem' _).mp h with hOa | h2
      · rcases hD with ⟨-, en2, hen2, hty2⟩ | ⟨haI, -, -⟩ | ⟨haN, ⟨en2, hen2, hn2, hexo⟩, -⟩
        · exact ⟨en2, hen2, hty2.2⟩
        · rw [haI] at hOa
          exact absurd hOa (by decide)
        · have hname : en2.name = mkStr "OPENING" := by rw [hn2, ← haN, ← hOa]
          have hO2 := entry_named_O hen2 hname
          rw [hO2] at hexo
          exact absurd hexo (by simp only [exitOrObjType]; decide)
      · exact inv.litOInv h2
    · -- litIInv
      intro h
      rcases (hmem' _).mp h with hIa | h2
      · rcases hD with ⟨haO, -⟩ | ⟨-, ⟨en2, hen2, hn2, hty2⟩, -⟩ | ⟨haN, ⟨en2, hen2, hn2, hexo⟩, -⟩
        · rw [haO] at hIa
          exact absurd hIa (by decide)
        · exact ⟨en2, hen2, hty2⟩
        · have hname : en2.name = mkStr "INTRODUCTION" := by rw [hn2, ← haN, ← hIa]
          have hI2 := entry_named_I hen2 hname
          rw [hI2] at hexo
          exact absurd hexo (by simp only [exitOrObjType]; decide)
      · exact inv.litIInv h2
    · -- objNoOpen
      rintro ⟨e, he, hec, hobj⟩
      rcases (hmem' _).mp hec with hea | h2
      · rcases hD with ⟨haO, -⟩ | ⟨haI, -, -⟩ | ⟨haN, -, -⟩
        · have h1 := entry_named_O he (hea.trans haO)
          rw [h1] at hobj
          exact absurd hobj (by decide)
        · have h1 := entry_named_I he (hea.trans haI)
          rw [h1] at hobj
          exact absurd hobj (by decide)
        · exact inv.curObjNoOpen n hcur ⟨e, he, hea.trans haN, hobj⟩
      · exact inv.objNoOpen ⟨e, he, h2, hobj⟩
    · -- objSpare
      rintro ⟨e, he, hec, hobj⟩
      by_cases hta : t = a
      · rcases hD with ⟨haO, -⟩ | ⟨haI, ⟨eni, heni, hni, htyi⟩, hseq⟩ | ⟨haN, -, -⟩
        · have hetO : et.ftype = mkStr "OPENING" :=
            entry_named_O het (by rw [hetn, hta, haO])
          rcases (hmem' _).mp hec with hea | h2
          · have h1 := entry_named_O he (hea.trans haO)
            rw [h1] at hobj
            exact absurd hobj (by decide)
          · exact absurd hetO (inv.objNoOpen ⟨e, he, h2, hobj⟩ et het)
        · rcases (hmem' _).mp hec with hea | h2
          · have h1 := entry_named_I he (hea.trans haI)
            rw [h1] at hobj
            exact absurd hobj (by decide)
          · refine ⟨eni, heni, by rw [htyi]; decide, ?_⟩
            rw [hni, hC]
            intro hmemn
            rcases Finset.mem_insert.mp hmemn with hna | hns
            · exact htn (hta.trans hna.symm)
            · rcases inv.elems n hns with hO | hI | ⟨e4, he4, hn4, hexo4⟩
              · have h5 := entry_named_O heni (by rw [hni, hO])
                rw [h5] at htyi
                exact absurd htyi (by decide)
              · exact htn (hta.trans (haI.trans hI.symm))
              · have he4i : e4 = eni :=
                  name_inj (eng_nodup eng) he4 heni (hn4.trans hni.symm)
                rw [he4i, htyi] at hexo4
                exact absurd hexo4 (by simp only [exitOrObjType]; decide)
        · exact absurd (hta.trans haN) htn
      · refine ⟨et, het, hetobj, ?_⟩
        rw [hetn, hC]
        intro hmem
        rcases Finset.mem_insert.mp hmem with h | h
        · exact hta h
        · exact htc h
    · -- objFirst
      intro e he hec hobj
      rcases (hmem' _).mp hec with hea | h2
      · rcases hD with ⟨haO, -⟩ | ⟨haI, -, -⟩ | ⟨haN, -, -⟩
        · have h1 := entry_named_O he (hea.trans haO)
          rw [h1] at hobj
          exact absurd hobj (by decide)
        · have h1 := entry_named_I he (hea.trans haI)
          rw [h1] at hobj
          exact absurd hobj (by decide)
        · have h1 := inv.curObjFirst n hcur ⟨e, he, hea.trans haN, hobj⟩
          rw [hea.trans haN]
          exact h1
      · exact inv.objFirst e he h2 hobj
    · -- curObjFirst
      intro m hm hobjm
      rw [hP] at hm
      rw [← Option.some.inj hm] at hobjm ⊢
      obtain ⟨e4, he4, hn4, hty4⟩ := hobjm
      have he4t : e4 = et := name_inj (eng_nodup eng) he4 het (hn4.trans hetn.symm)
      rw [he4t] at hty4
      exact absurd hty4 hetobj
    · -- curObjNoOpen
      intro m hm hobjm
      rw [hP] at hm
      rw [← Option.some.inj hm] at hobjm
      obtain ⟨e4, he4, hn4, hty4⟩ := hobjm
      have he4t : e4 = et := name_inj (eng_nodup eng) he4 het (hn4.trans hetn.symm)
      rw [he4t] at hty4
      exact absurd hty4 hetobj
    · -- curNames
      intro m hm
      rw [hP] at hm
      rw [← Option.some.inj hm]
      exact ⟨et, het, hetn⟩
    · -- chainW
      intro hnoO hnoI x hx ex hlkx hexo
      rcases (hmem' x).mp hx with hxa | hxs
      · rcases hD with ⟨haO, ⟨en2, hen2, hty2⟩⟩ | ⟨haI, -, -⟩ | ⟨haN, -, hseq⟩
        · exact absurd hty2.2 (hnoO en2 hen2)
        · have hxm := lookup_mem hlkx
          exact absurd (hxm.2.trans (hxa.trans haI)) (hnoI ex hxm.1)
        · obtain ⟨en3, et3, hlkn, hlkt, hidx⟩ := hseq
          rw [hxa, haN, hlkn] at hlkx
          have hexeq : en3 = ex := Option.some.inj hlkx
          refine ⟨et3, (lookup_mem hlkt).1, ?_, ?_, ?_⟩
          · have he3 : et3 = et := name_inj (eng_nodup eng) (lookup_mem hlkt).1 het
              ((lookup_mem hlkt).2.trans hetn.symm)
            rw [he3]
            exact hetobj
          · rw [(lookup_mem hlkt).2, hC]
            intro hmem
            rcases Finset.mem_insert.mp hmem with h | h
            · exact htn (h.trans haN)
            · exact htc h
          · rw [← hexeq]
            exact hidx
      · obtain ⟨em0, hem0, hem0obj, hem0nc, hem0idx⟩ :=
          inv.chainW hnoO hnoI x hxs ex hlkx hexo
        by_cases hema : em0.name = a
        · rcases hD with ⟨haO, ⟨en2, hen2, hty2⟩⟩ | ⟨haI, -, -⟩ | ⟨haN, -, hseq⟩
          · exact absurd hty2.2 (hnoO en2 hen2)
          · exact absurd (hema.trans haI) (hnoI em0 hem0)
          · obtain ⟨en3, et3, hlkn, hlkt, hidx⟩ := hseq
            have hm0 : em0 = en3 := name_inj (eng_nodup eng) hem0 (lookup_mem hlkn).1
              ((hema.trans haN).trans (lookup_mem hlkn).2.symm)
            refine ⟨et3, (lookup_mem hlkt).1, ?_, ?_, ?_⟩
            · have he3 : et3 = et := name_inj (eng_nodup eng) (lookup_mem hlkt).1 het
                ((lookup_mem hlkt).2.trans hetn.symm)
              rw [he3]
              exact hetobj
            · rw [(lookup_mem hlkt).2, hC]
              intro hmem
              rcases Finset.mem_insert.mp hmem with h | h
              · exact htn (h.trans haN)
              · exact htc h
            · rw [hm0] at hem0idx
              exact lt_trans hem0idx hidx
        · refine ⟨em0, hem0, hem0obj, ?_, hem0idx⟩
          rw [hC]
          intro hmem
          rcases Finset.mem_insert.mp hmem with h | h
          · exact hema h
          · exact hem0nc h
    · -- litIStatic
      intro h
      rcases (hmem' _).mp h with hIa | h2
      · rcases hD with ⟨haO, -⟩ | ⟨haI, ⟨eni, heni, hni, htyi⟩, hseq⟩ | ⟨haN, ⟨en2, hen2, hn2, hexo2⟩, -⟩
        · rw [haO] at hIa
          exact absurd hIa (by decide)
        · obtain ⟨en3, et3, hlkn, hlkt, hidx⟩ := hseq
          have hm3 : en3 = eni := name_inj (eng_nodup eng) (lookup_mem hlkn).1 heni
            ((lookup_mem hlkn).2.trans hni.symm)
          refine ⟨eni, heni, htyi, et3, (lookup_mem hlkt).1, ?_, ?_⟩
          · have he3 : et3 = et := name_inj (eng_nodup eng) (lookup_mem hlkt).1 het
              ((lookup_mem hlkt).2.trans hetn.symm)
            rw [he3]
            exact hetobj
          · rw [← hm3]
            exact hidx
        · have hname : en2.name = mkStr "INTRODUCTION" := by rw [hn2, ← haN, ← hIa]
          have hI2 := entry_named_I hen2 hname
          rw [hI2] at hexo2
          exact absurd hexo2 (by simp only [exitOrObjType]; decide)
      · exact inv.litIStatic h2

end ScriptBot

namespace ScriptBot

/-- The invariant is preserved by every step shape. -/
theorem inv_shape {eng : Engine} {s s' : EState} (inv : EngInv eng s)
    (h : StepShape eng s s') : EngInv eng s' := by
  cases h with
  | same hC hP => exact inv_of_eq inv hC hP
  | move t hP hC hM => exact inv_move inv hP hC hM
  | mark a t hP hC hT hM => exact inv_mark inv hP hC hT hM

/-- The freshly constructed state satisfies the invariant. -/
theorem inv_init (eng : Engine) : EngInv eng initState := by
  refine ⟨?_, ?_, ?_, ?_, ?_, ?_, ?_, ?_, ?_, ?_, ?_⟩
  · intro x hx
    exact absurd hx (Finset.not_mem_empty x)
  · intro h
    exact absurd h (Finset.not_mem_empty _)
  · intro h
    exact absurd h (Finset.not_mem_empty _)
  · rintro ⟨e, he, hec, -⟩
    exact absurd hec (Finset.not_mem_empty _)
  · rintro ⟨e, he, hec, -⟩
    exact absurd hec (Finset.not_mem_empty _)
  · intro e he hec hobj
    exact absurd hec (Finset.not_mem_empty _)
  · intro m hm
    simp [initState] at hm
  · intro m hm
    simp [initState] at hm
  · intro m hm
    simp [initState] at hm
  · intro hnoO hnoI x hx
    exact absurd hx (Finset.not_mem_empty _)
  · intro h
    exact absurd h (Finset.not_mem_empty _)

/-- Every reachable state satisfies the invariant. -/
theorem inv_reachable {eng : Engine} {s : EState} (h : Reachable eng s) :
    EngInv eng s := by
  induction h with
  | init => exact inv_init eng
  | step s u hr ih => exact inv_shape ih (step_outcome eng s u)
  | start s hr ih => exact inv_shape ih (start_outcome eng s)
  | reset s hr ih => exact inv_init eng

end ScriptBot

namespace ScriptBot

/-- Under the invariant, the completed set never outgrows the non-objection
section count used as the denominator of the progress percentage. -/
theorem card_le_total {eng : Engine} {s : EState} (inv : EngInv eng s) :
    s.completedSections.card ≤ totalSections eng := by
  classical
  set NObj : Finset Str :=
    ((eng.flow.filter (fun e => !(e.ftype == mkStr "OBJECTION_HANDLING"))).map
      (fun e => e.name)).toFinset with hNdef
  have hnodupL :
      ((eng.flow.filter (fun e => !(e.ftype == mkStr "OBJECTION_HANDLING"))).map
        (fun e => e.name)).Nodup := by
    have hsub : ((eng.flow.filter (fun e => !(e.ftype == mkStr "OBJECTION_HANDLING"))).map
        (fun e => e.name)).Sublist (eng.flow.map (fun e => e.name)) :=
      List.Sublist.map (fun e => e.name) (List.filter_sublist eng.flow)
    exact List.Nodup.sublist hsub (eng_nodup eng)
  have hcardN : NObj.card = totalSections eng := by
    rw [hNdef, List.toFinset_card_of_nodup hnodupL, List.length_map]
    rfl
  have hNmem : ∀ x, x ∈ NObj ↔ ∃ e ∈ eng.flow, e.name = x ∧
      e.ftype ≠ mkStr "OBJECTION_HANDLING" := by
    intro x
    rw [hNdef]
    simp only [List.mem_toFinset, List.mem_map, List.mem_filter,
      Bool.not_eq_true', beq_eq_false_iff_ne]
    constructor
    · rintro ⟨e, ⟨he, hobj⟩, hname⟩
      exact ⟨e, he, hname, hobj⟩
    · rintro ⟨e, he, hname, hobj⟩
      exact ⟨e, ⟨he, hobj⟩, hname⟩
  have key : (s.completedSections \ NObj).card ≤ (NObj \ s.completedSections).card := by
    set X : Finset Str := s.completedSections \ NObj with hX
    set M : Finset Str := NObj \ s.completedSections with hM
    have hmemX : ∀ x, x ∈ X ↔ x ∈ s.completedSections ∧ x ∉ NObj := by
      intro x
      rw [hX]
      exact Finset.mem_sdiff
    have hmemM : ∀ x, x ∈ M ↔ x ∈ NObj ∧ x ∉ s.completedSections := by
      intro x
      rw [hM]
      exact Finset.mem_sdiff
    have hXelem : ∀ x ∈ X, (x = mkStr "OPENING" ∧ mkStr "OPENING" ∈ X) ∨
        (x = mkStr "INTRODUCTION" ∧ mkStr "INTRODUCTION" ∈ X) ∨
        (∃ e ∈ eng.flow, e.name = x ∧ e.ftype = mkStr "OBJECTION_HANDLING") := by
      intro x hx
      obtain ⟨hxc, hxn⟩ := (hmemX x).mp hx
      rcases inv.elems x hxc with h | h | ⟨e, he, hn, hexo⟩
      · exact Or.inl ⟨h, h ▸ hx⟩
      · exact Or.inr (Or.inl ⟨h, h ▸ hx⟩)
      · by_cases hobj : e.ftype = mkStr "OBJECTION_HANDLING"
        · exact Or.inr (Or.inr ⟨e, he, hn, hobj⟩)
        · exact absurd ((hNmem x).mpr ⟨e, he, hn, hobj⟩) hxn
    have hEO : mkStr "OPENING" ∈ X →
        ∃ eo ∈ eng.flow, eo.ftype = mkStr "OPENING" ∧ eo.name ∈ M := by
      intro hPO
      obtain ⟨hOc, hOn⟩ := (hmemX _).mp hPO
      obtain ⟨eo, heo, heoty⟩ := inv.litOInv hOc
      have heoN : eo.name ∈ NObj := (hNmem _).mpr ⟨eo, heo, rfl, by rw [heoty]; decide⟩
      refine ⟨eo, heo, heoty, (hmemM _).mpr ⟨heoN, ?_⟩⟩
      intro hcc
      rcases inv.elems _ hcc with h | h | ⟨e4, he4, hn4, hexo4⟩
      · rw [h] at heoN
        exact hOn heoN
      · have h5 := entry_named_I heo h
        rw [h5] at heoty
        exact absurd heoty (by decide)
      · have he4o : e4 = eo := name_inj (eng_nodup eng) he4 heo hn4
        rw [he4o, heoty] at hexo4
        exact absurd hexo4 (by simp only [exitOrObjType]; decide)
    have hEI : mkStr "INTRODUCTION" ∈ X →
        ∃ ei ∈ eng.flow, ei.ftype = mkStr "INTRODUCTION" ∧ ei.name ∈ M := by
      intro hPI
      obtain ⟨hIc, hIn⟩ := (hmemX _).mp hPI
      obtain ⟨ei, hei, heity⟩ := inv.litIInv hIc
      have heiN : ei.name ∈ NObj := (hNmem _).mpr ⟨ei, hei, rfl, by rw [heity]; decide⟩
      refine ⟨ei, hei, heity, (hmemM _).mpr ⟨heiN, ?_⟩⟩
      intro hcc
      rcases inv.elems _ hcc with h | h | ⟨e4, he4, hn4, hexo4⟩
      · have h5 := entry_named_O hei h
        rw [h5] at heity
        exact absurd heity (by decide)
      · rw [h] at heiN
        exact hIn heiN
      · have he4i : e4 = ei := name_inj (eng_nodup eng) he4 hei hn4
        rw [he4i, heity] at hexo4
        exact absurd hexo4 (by simp only [exitOrObjType]; decide)
    by_cases hPB : ∃ e ∈ eng.flow, e.name ∈ s.completedSections ∧
        e.ftype = mkStr "OBJECTION_HANDLING"
    · obtain ⟨eb, heb, hebc, hebobj⟩ := hPB
      have hno : ∀ e ∈ eng.flow, e.ftype ≠ mkStr "OPENING" :=
        inv.objNoOpen ⟨eb, heb, hebc, hebobj⟩
      have hPOf : mkStr "OPENING" ∉ s.completedSections := by
        intro hc
        obtain ⟨eo, heo, heoty⟩ := inv.litOInv hc
        exact hno eo heo heoty
      by_cases hPI : mkStr "INTRODUCTION" ∈ X
      · obtain ⟨hIc, hIn⟩ := (hmemX _).mp hPI
        have hnoI : ∀ e ∈ eng.flow, e.name ≠ mkStr "INTRODUCTION" := by
          intro e he hcon
          have hty := entry_named_I he hcon
          refine hIn ((hNmem _).mpr ⟨e, he, hcon, ?_⟩)
          rw [hty]
          decide
        obtain ⟨ei, hei, heity, em, hem, hemobj, heidx⟩ := inv.litIStatic hIc
        have heiN : ei.name ∈ NObj := (hNmem _).mpr ⟨ei, hei, rfl, by rw [heity]; decide⟩
        have heinc : ei.name ∉ s.completedSections := by
          intro hcc
          rcases inv.elems _ hcc with h | h | ⟨e4, he4, hn4, hexo4⟩
          · rw [← h] at hPOf
            exact hPOf hcc
          · exact hnoI ei hei h
          · have he4i : e4 = ei := name_inj (eng_nodup eng) he4 hei hn4
            rw [he4i, heity] at hexo4
            exact absurd hexo4 (by simp only [exitOrObjType]; decide)
        have heiM : ei.name ∈ M := (hmemM _).mpr ⟨heiN, heinc⟩
        have hsecond : ∃ y ∈ M, y ≠ ei.name := by
          by_cases hemc : em.name ∈ s.completedSections
          · rcases inv.elems _ hemc with h | h | ⟨e4, he4, hn4, hexo4⟩
            · rw [← h] at hPOf
              exact absurd hemc hPOf
            · exact absurd h (hnoI em hem)
            · have he4m : e4 = em := name_inj (eng_nodup eng) he4 hem hn4
              rw [he4m] at hexo4
              obtain ⟨em2, hem2, hem2obj, hem2nc, hem2idx⟩ :=
                inv.chainW hno hnoI em.name hemc em (eng_lookup_self eng hem) hexo4
              refine ⟨em2.name,
                (hmemM _).mpr ⟨(hNmem _).mpr ⟨em2, hem2, rfl, hem2obj⟩, hem2nc⟩, ?_⟩
              intro hcon
              have h6 : em2 = ei := name_inj (eng_nodup eng) hem2 hei hcon
              rw [h6] at hem2idx
              omega
          · refine ⟨em.name,
              (hmemM _).mpr ⟨(hNmem _).mpr ⟨em, hem, rfl, hemobj⟩, hemc⟩, ?_⟩
            intro hcon
            have h6 : em = ei := name_inj (eng_nodup eng) hem hei hcon
            rw [h6] at heidx
            omega
        obtain ⟨y, hyM, hyne⟩ := hsecond
        have hXsub : X ⊆ {mkStr "INTRODUCTION", eb.name} := by
          intro x hx
          rcases hXelem x hx with ⟨h, -⟩ | ⟨h, -⟩ | ⟨e, he, hn, hobj⟩
          · exact absurd ((hmemX x).mp hx).1 (by rw [h]; exact hPOf)
          · rw [h]
            exact Finset.mem_insert_self _ _
          · have h1 := inv.objFirst e he (by rw [hn]; exact ((hmemX x).mp hx).1) hobj
            have h2 := inv.objFirst eb heb hebc hebobj
            rw [h2] at h1
            rw [← hn, ← Option.some.inj h1]
            exact Finset.mem_insert_of_mem (Finset.mem_singleton_self _)
        have hXcard : X.card ≤ 2 := by
          refine le_trans (Finset.card_le_card hXsub) ?_
          refine le_trans (Finset.card_insert_le _ _) ?_
          simp
        have hMcard : 2 ≤ M.card :=
          Finset.one_lt_card_iff.mpr ⟨ei.name, y, heiM, hyM, Ne.symm hyne⟩
        omega
      · obtain ⟨em, hem, hemobj, hemnc⟩ := inv.objSpare ⟨eb, heb, hebc, hebobj⟩
        have hXsub : X ⊆ {eb.name} := by
          intro x hx
          rcases hXelem x hx with ⟨h, -⟩ | ⟨-, hIX⟩ | ⟨e, he, hn, hobj⟩
          · exact absurd ((hmemX x).mp hx).1 (by rw [h]; exact hPOf)
          · exact absurd hIX hPI
          · have h1 := inv.objFirst e he (by rw [hn]; exact ((hmemX x).mp hx).1) hobj
            have h2 := inv.objFirst eb heb hebc hebobj
            rw [h2] at h1
            rw [← hn, ← Option.some.inj h1]
            exact Finset.mem_singleton_self _
        have hMel : em.name ∈ M :=
          (hmemM _).mpr ⟨(hNmem _).mpr ⟨em, hem, rfl, hemobj⟩, hemnc⟩
        have hXcard : X.card ≤ 1 := le_trans (Finset.card_le_card hXsub) (by simp)
        have hMcard : 1 ≤ M.card := Finset.card_pos.mpr ⟨_, hMel⟩
        omega
    · have hXelem2 : ∀ x ∈ X, x = mkStr "OPENING" ∨ x = mkStr "INTRODUCTION" := by
        intro x hx
        rcases hXelem x hx with ⟨h, -⟩ | ⟨h, -⟩ | ⟨e, he, hn, hobj⟩
        · exact Or.inl h
        · exact Or.inr h
        · exact absurd ⟨e, he, by rw [hn]; exact ((hmemX x).mp hx).1, hobj⟩ hPB
      by_cases hPO : mkStr "OPENING" ∈ X
      · by_cases hPI : mkStr "INTRODUCTION" ∈ X
        · obtain ⟨eo, heo, heoty, heoM⟩ := hEO hPO
          obtain ⟨ei, hei, heity, heiM⟩ := hEI hPI
          have hne : eo.name ≠ ei.name := by
            intro hcon
            have h5 : eo = ei := name_inj (eng_nodup eng) heo hei hcon
            rw [h5] at heoty
            rw [heoty] at heity
            exact absurd heity (by decide)
          have hXsub : X ⊆ {mkStr "OPENING", mkStr "INTRODUCTION"} := by
            intro x hx
            rcases hXelem2 x hx with h | h
            · rw [h]
              exact Finset.mem_insert_self _ _
            · rw [h]
              exact Finset.mem_insert_of_mem (Finset.mem_singleton_self _)
          have hXcard : X.card ≤ 2 := by
            refine le_trans (Finset.card_le_card hXsub) ?_
            refine le_trans (Finset.card_insert_le _ _) ?_
            simp
          have hMcard : 2 ≤ M.card :=
            Finset.one_lt_card_iff.mpr ⟨eo.name, ei.name, heoM, heiM, hne⟩
          omega
        · obtain ⟨eo, heo, heoty, heoM⟩ := hEO hPO
          have hXsub : X ⊆ {mkStr "OPENING"} := by
            intro x hx
            rcases hXelem2 x hx with h | h
            · rw [h]
              exact Finset.mem_singleton_self _
            · exact absurd (h ▸ hx) hPI
          have hXcard : X.card ≤ 1 := le_trans (Finset.card_le_card hXsub) (by simp)
          have hMcard : 1 ≤ M.card := Finset.card_pos.mpr ⟨_, heoM⟩
          omega
      · by_cases hPI : mkStr "INTRODUCTION" ∈ X
        · obtain ⟨ei, hei, heity, heiM⟩ := hEI hPI
          have hXsub : X ⊆ {mkStr "INTRODUCTION"} := by
            intro x hx
            rcases hXelem2 x hx with h | h
            · exact absurd (h ▸ hx) hPO
            · rw [h]
              exact Finset.mem_singleton_self _
          have hXcard : X.card ≤ 1 := le_trans (Finset.card_le_card hXsub) (by simp)
          have hMcard : 1 ≤ M.card := Finset.card_pos.mpr ⟨_, heiM⟩
          omega
        · have hXempty : X = ∅ := by
            refine Finset.eq_empty_of_forall_not_mem ?_
            intro x hx
            rcases hXelem2 x hx with h | h
            · exact hPO (h ▸ hx)
            · exact hPI (h ▸ hx)
          rw [hXempty]
          simp
  calc s.completedSections.card
      = (s.completedSections ∩ NObj).card + (s.completedSections \ NObj).card :=
        (Finset.card_inter_add_card_sdiff _ _).symm
    _ ≤ (s.completedSections ∩ NObj).card + (NObj \ s.completedSections).card :=
        Nat.add_le_add_left key _
    _ = (NObj ∩ s.completedSections).card + (NObj \ s.completedSections).card := by
        rw [Finset.inter_comm]
    _ = NObj.card := Finset.card_inter_add_card_sdiff _ _
    _ = totalSections eng := hcardN

end ScriptBot

namespace ScriptBot

/-- C3: for every document and every reachable conversation state, the
progress percentage of `get_progress` lies in `[0, 100]`, and with zero
non-objection sections it is defined to be `0` rather than a division
fault. -/
theorem claim_C3_bounded_progress (eng : Engine) (s : EState)
    (h : Reachable eng s) :
    0 ≤ (getProgress eng s).progressPercentage ∧
    (getProgress eng s).progressPercentage ≤ 100 ∧
    (totalSections eng = 0 → (getProgress eng s).progressPercentage = 0) := by
  have hinv := inv_reachable h
  have hcard := card_le_total hinv
  by_cases ht : totalSections eng > 0
  · have hp : (getProgress eng s).progressPercentage =
        (s.completedSections.card : ℚ) / (totalSections eng : ℚ) * 100 := by
      simp only [getProgress]
      rw [if_pos ht]
    have htQ : (0 : ℚ) < (totalSections eng : ℚ) := by exact_mod_cast ht
    have hcQ : (s.completedSections.card : ℚ) ≤ (totalSections eng : ℚ) := by
      exact_mod_cast hcard
    refine ⟨?_, ?_, ?_⟩
    · rw [hp]
      positivity
    · rw [hp, div_mul_eq_mul_div, div_le_iff htQ]
      linarith
    · intro h0
      exact absurd h0 (by omega)
  · have hp : (getProgress eng s).progressPercentage = 0 := by
      simp only [getProgress]
      rw [if_neg ht]
    exact ⟨by rw [hp], by rw [hp]; norm_num, fun _ => hp⟩

/-- C3 (witness): the claim theorem applied to the example three-section
document at the freshly constructed state, whose reachability is
`Reachable.init`. -/
theorem claim_C3_witness :
    0 ≤ (getProgress exDoc3 initState).progressPercentage ∧
    (getProgress exDoc3 initState).progressPercentage ≤ 100 ∧
    (totalSections exDoc3 = 0 →
      (getProgress exDoc3 initState).progressPercentage = 0) :=
  claim_C3_bounded_progress exDoc3 initState Reachable.init

end ScriptBot

namespace ScriptBot

/-- The unconsumed rest of the absorption loop is drawn from its input. -/
theorem absorbGo_rest_sub :
    ∀ (ls : List Str) (acc : List Str) (x : Str),
      x ∈ (absorbGo acc ls).2 → x ∈ ls := by
  intro ls
  induction ls with
  | nil =>
      intro acc x hx
      simp [absorbGo] at hx
  | cons l rest ih =>
      intro acc x hx
      rw [absorbGo] at hx
      split_ifs at hx
      · exact hx
      · exact hx
      · exact hx
      · exact hx
      · exact List.mem_cons_of_mem l (ih _ x hx)

/-- With no accepted header anywhere, the main section loop never saves a
section: it only ever skips, absorbs and accumulates. -/
theorem goSections_none (pvars : List Str) :
    ∀ (fuel : ℕ) (lines content agents : List Str) (secs : List PSection),
      (∀ l ∈ lines, isLikelySectionHeader (pyStrip l) = false) →
      goSections pvars fuel lines none content agents secs = secs := by
  intro fuel
  induction fuel with
  | zero =>
      intro lines content agents secs h
      cases lines with
      | nil => rfl
      | cons l rest => rfl
  | succ fuel ih =>
      intro lines content agents secs h
      cases lines with
      | nil => rfl
      | cons l rest =>
          have hl := h l (List.mem_cons_self l rest)
          have hrest : ∀ x ∈ rest, isLikelySectionHeader (pyStrip x) = false :=
            fun x hx => h x (List.mem_cons_of_mem l hx)
          have habs : ∀ x ∈ (absorbGo [pyStrip l] rest).2,
              isLikelySectionHeader (pyStrip x) = false :=
            fun x hx => hrest x (absorbGo_rest_sub rest _ x hx)
          simp only [goSections]
          by_cases h1 : (pyStrip l).isEmpty = true
          · rw [if_pos h1]
            exact ih rest _ _ _ hrest
          · rw [if_neg h1, if_neg (by rw [hl]; exact Bool.false_ne_true)]
            by_cases h3 : isAgentLine (pyStrip l) = true
            · rw [if_pos h3]
              by_cases h4 : (cleanAgentText
                  (List.intercalate [' '] (absorbGo [pyStrip l] rest).1)).isEmpty = true
              · rw [if_pos h4]
                exact ih _ _ _ _ habs
              · rw [if_neg h4]
                exact ih _ _ _ _ habs
            · rw [if_neg h3]
              exact ih rest _ _ _ hrest

/-- C6 (counterexample): the one-line script `"Agent:"` contains a detected
spoken line, yet the parsed document has no sections at all — the agent
line cleans to the empty string, so the synthetic `CONVERSATION` fallback
does not fire and the "never empty when any spoken line exists" invariant
fails. -/
theorem claim_C6_counterexample :
    isAgentLine (mkStr "Agent:") = true ∧
    (parseScript (mkStr "Agent:")).sections = [] := by
  constructor
  · decide
  · rfl

/-- C6 (amended): for a text in which no line is accepted as a section
header, the parsed sections are empty when every detected spoken line
cleans to the empty string, and otherwise consist of exactly one synthetic
`CONVERSATION` section holding every detected and cleaned spoken line. -/
theorem claim_C6_amended (text : Str)
    (hnh : ∀ l ∈ pyLines text, isLikelySectionHeader (pyStrip l) = false) :
    ((parseScript text).sections = [] ∧ extractAllAgentLines (pyLines text) = []) ∨
    (extractAllAgentLines (pyLines text) ≠ [] ∧
      (parseScript text).sections =
        [saveSection (extractVariables text) (mkStr "CONVERSATION")
          (extractAllAgentLines (pyLines text))
          (extractAllAgentLines (pyLines text))]) := by
  have h0 : goSections (extractVariables text) (pyLines text).length
      (pyLines text) none [] [] [] = [] :=
    goSections_none _ _ _ _ _ _ hnh
  have hsec : (parseScript text).sections =
      parseSections (extractVariables text) (pyLines text) := rfl
  rw [hsec, parseSections, h0]
  cases hals : extractAllAgentLines (pyLines text) with
  | nil =>
      left
      simp
  | cons a as =>
      right
      refine ⟨by simp, ?_⟩
      simp

/-- C6 (witness): the amended theorem applied to the header-free script
`"Agent: Hello."`, which has one spoken line cleaning to `"Hello."`. -/
theorem claim_C6_witness :
    ((parseScript (mkStr "Agent: Hello.")).sections = [] ∧
      extractAllAgentLines (pyLines (mkStr "Agent: Hello.")) = []) ∨
    (extractAllAgentLines (pyLines (mkStr "Agent: Hello.")) ≠ [] ∧
      (parseScript (mkStr "Agent: Hello.")).sections =
        [saveSection (extractVariables (mkStr "Agent: Hello."))
          (mkStr "CONVERSATION")
          (extractAllAgentLines (pyLines (mkStr "Agent: Hello.")))
          (extractAllAgentLines (pyLines (mkStr "Agent: Hello.")))]) :=
  claim_C6_amended (mkStr "Agent: Hello.") (by decide)

end ScriptBot

namespace ScriptBot

/-- Replacing the entries of key `k` makes the first `k`-match the new
pair. -/
theorem find_map_put (k v : Str) :
    ∀ md : List (Str × Str), md.any (fun p => p.1 == k) = true →
      (md.map (fun p => if p.1 == k then (k, v) else p)).find?
        (fun p => p.1 == k) = some (k, v) := by
  intro md
  induction md with
  | nil =>
      intro h
      cases h
  | cons p t ih =>
      intro h
      rw [List.map_cons]
      by_cases hp : (p.1 == k) = true
      · rw [if_pos hp]
        exact List.find?_cons_of_pos _ (by simp)
      · rw [if_neg hp, List.find?_cons_of_neg _ (by exact hp)]
        refine ih ?_
        rcases List.any_eq_true.mp h with ⟨x, hx, hxk⟩
        rcases List.mem_cons.mp hx with hxp | hx2
        · rw [hxp] at hxk
          exact absurd hxk hp
        · exact List.any_eq_true.mpr ⟨x, hx2, hxk⟩

/-- Appending a fresh pair makes it the first `k`-match. -/
theorem find_append_single (k v : Str) :
    ∀ md : List (Str × Str), md.any (fun p => p.1 == k) = false →
      (md ++ [(k, v)]).find? (fun p => p.1 == k) = some (k, v) := by
  intro md
  induction md with
  | nil =>
      intro h
      exact List.find?_cons_of_pos _ (by simp)
  | cons p t ih =>
      intro h
      simp only [List.any_cons, Bool.or_eq_false_iff] at h
      rw [List.cons_append,
        List.find?_cons_of_neg _ (by rw [h.1]; exact Bool.false_ne_true)]
      exact ih h.2

/-- Replacing the entries of key `k` leaves the first match of any other
key unchanged. -/
theorem find_map_put_other (k v k2 : Str) (hne : k2 ≠ k) :
    ∀ md : List (Str × Str),
      (md.map (fun p => if p.1 == k then (k, v) else p)).find?
        (fun p => p.1 == k2) = md.find? (fun p => p.1 == k2) := by
  intro md
  induction md with
  | nil => rfl
  | cons p t ih =>
      rw [List.map_cons]
      by_cases hp : (p.1 == k) = true
      · rw [if_pos hp]
        have hk2 : ((k, v).1 == k2) = false :=
          beq_eq_false_iff_ne.mpr (fun hc => hne hc.symm)
        have hpk2 : (p.1 == k2) = false := by
          refine beq_eq_false_iff_ne.mpr ?_
          intro hc
          exact hne (hc.symm.trans (eq_of_beq hp))
        rw [List.find?_cons_of_neg _ (by rw [hk2]; exact Bool.false_ne_true),
          List.find?_cons_of_neg _ (by rw [hpk2]; exact Bool.false_ne_true)]
        exact ih
      · rw [if_neg hp]
        by_cases hq : (p.1 == k2) = true
        · rw [List.find?_cons_of_pos _ (by exact hq), List.find?_cons_of_pos _ (by exact hq)]
        · rw [List.find?_cons_of_neg _ (by exact hq), List.find?_cons_of_neg _ (by exact hq)]
          exact ih

/-- Appending a pair of key `k` leaves the first match of any other key
unchanged. -/
theorem find_append_single_other (k v k2 : Str) (hne : k2 ≠ k) :
    ∀ md : List (Str × Str),
      (md ++ [(k, v)]).find? (fun p => p.1 == k2) =
        md.find? (fun p => p.1 == k2) := by
  intro md
  induction md with
  | nil =>
      rw [List.nil_append]
      rw [List.find?_cons_of_neg _ (by
        rw [beq_eq_false_iff_ne.mpr (fun hc : k = k2 => hne hc.symm)]
        exact Bool.false_ne_true)]
  | cons p t ih =>
      rw [List.cons_append]
      by_cases hq : (p.1 == k2) = true
      · rw [List.find?_cons_of_pos _ (by exact hq), List.find?_cons_of_pos _ (by exact hq)]
      · rw [List.find?_cons_of_neg _ (by exact hq), List.find?_cons_of_neg _ (by exact hq)]
        exact ih

/-- Python dict assignment followed by lookup of the same key. -/
theorem alGet_alPut_self (md : List (Str × Str)) (k v : Str) :
    alGet (alPut md k v) k = some v := by
  rw [alPut]
  by_cases h : md.any (fun p => p.1 == k) = true
  · rw [if_pos h, alGet, find_map_put k v md h]
    rfl
  · rw [if_neg h, alGet,
      find_append_single k v md (by rwa [Bool.not_eq_true] at h)]
    rfl

/-- Python dict assignment leaves lookups of other keys unchanged. -/
theorem alGet_alPut_other (md : List (Str × Str)) (k v k2 : Str)
    (hne : k2 ≠ k) : alGet (alPut md k v) k2 = alGet md k2 := by
  rw [alPut]
  by_cases h : md.any (fun p => p.1 == k) = true
  · rw [if_pos h, alGet, alGet, find_map_put_other k v k2 hne md]
  · rw [if_neg h, alGet, alGet, find_append_single_other k v k2 hne md]

/-- The metadata scan stops at the first accepted header and ignores
everything after it. -/
theorem extractMetadataGo_stop (hdrline : Str) (tl : List Str)
    (hhdr : isLikelySectionHeader (pyStrip hdrline) = true) :
    ∀ (pre : List Str) (md : List (Str × Str)),
      (∀ l ∈ pre, isLikelySectionHeader (pyStrip l) = false) →
      extractMetadataGo (pre ++ hdrline :: tl) md = extractMetadataGo pre md := by
  have hne : (pyStrip hdrline).isEmpty = false := by
    cases hemp : pyStrip hdrline with
    | nil =>
        rw [hemp] at hhdr
        exact absurd hhdr (by decide)
    | cons c t => rfl
  intro pre
  induction pre with
  | nil =>
      intro md h
      rw [List.nil_append]
      simp only [extractMetadataGo]
      rw [if_neg (by rw [hne]; exact Bool.false_ne_true), if_pos hhdr]
  | cons l pre' ih =>
      intro md h
      have hl := h l (List.mem_cons_self l pre')
      have hrest : ∀ x ∈ pre', isLikelySectionHeader (pyStrip x) = false :=
        fun x hx => h x (List.mem_cons_of_mem l hx)
      rw [List.cons_append]
      simp only [extractMetadataGo]
      by_cases h1 : (pyStrip l).isEmpty = true
      · rw [if_pos h1, if_pos h1]
        exact ih md hrest
      · rw [if_neg h1, if_neg h1, if_neg (by rw [hl]; exact Bool.false_ne_true),
          if_neg (by rw [hl]; exact Bool.false_ne_true)]
        cases hme : metaEntry (pyStrip l) with
        | none =>
            simp only [hme]
            exact ih md hrest
        | some kv =>
            simp only [hme]
            exact ih (alPut md kv.1 kv.2) hrest

/-- The metadata scan records `k ↦ v` whenever some header-free prefix line
contributes a `k`-entry and every contributed `k`-entry carries the value
`v`. -/
theorem extractMetadataGo_get (k v : Str) :
    ∀ (pre : List Str) (md : List (Str × Str)),
      (∀ l ∈ pre, isLikelySectionHeader (pyStrip l) = false) →
      (∀ l ∈ pre, ∀ kv, metaEntry (pyStrip l) = some kv → kv.1 = k → kv.2 = v) →
      ((∃ l ∈ pre, ∃ kv, metaEntry (pyStrip l) = some kv ∧ kv.1 = k) ∨
        alGet md k = some v) →
      alGet (extractMetadataGo pre md) k = some v := by
  intro pre
  induction pre with
  | nil =>
      intro md hnh hsame hex
      rcases hex with ⟨l, hl, -⟩ | hmd
      · cases hl
      · exact hmd
  | cons l pre' ih =>
      intro md hnh hsame hex
      have hl := hnh l (List.mem_cons_self l pre')
      have hrest : ∀ x ∈ pre', isLikelySectionHeader (pyStrip x) = false :=
        fun x hx => hnh x (List.mem_cons_of_mem l hx)
      have hsame' : ∀ x ∈ pre', ∀ kv, metaEntry (pyStrip x) = some kv →
          kv.1 = k → kv.2 = v :=
        fun x hx => hsame x (List.mem_cons_of_mem l hx)
      simp only [extractMetadataGo]
      by_cases h1 : (pyStrip l).isEmpty = true
      · rw [if_pos h1]
        refine ih md hrest hsame' ?_
        rcases hex with ⟨l2, hl2, kv, hkv, hk⟩ | hmd
        · rcases List.mem_cons.mp hl2 with hl2l | hl2r
          · exfalso
            rw [hl2l] at hkv
            have : pyStrip l = [] := by
              cases hpe : pyStrip l with
              | nil => rfl
              | cons c t => rw [hpe] at h1; cases h1
            rw [this] at hkv
            cases hkv
          · exact Or.inl ⟨l2, hl2r, kv, hkv, hk⟩
        · exact Or.inr hmd
      · rw [if_neg h1, if_neg (by rw [hl]; exact Bool.false_ne_true)]
        cases hme : metaEntry (pyStrip l) with
        | none =>
            simp only [hme]
            refine ih md hrest hsame' ?_
            rcases hex with ⟨l2, hl2, kv, hkv, hk⟩ | hmd
            · rcases List.mem_cons.mp hl2 with hl2l | hl2r
              · rw [hl2l, hme] at hkv
                cases hkv
              · exact Or.inl ⟨l2, hl2r, kv, hkv, hk⟩
            · exact Or.inr hmd
        | some kv =>
            simp only [hme]
            by_cases hkk : kv.1 = k
            · have hvv : kv.2 = v :=
                hsame l (List.mem_cons_self l pre') kv hme hkk
              refine ih (alPut md kv.1 kv.2) hrest hsame' (Or.inr ?_)
              rw [hkk, hvv]
              exact alGet_alPut_self md k v
            · refine ih (alPut md kv.1 kv.2) hrest hsame' ?_
              rcases hex with ⟨l2, hl2, kv2, hkv2, hk2⟩ | hmd
              · rcases List.mem_cons.mp hl2 with hl2l | hl2r
                · rw [hl2l, hme] at hkv2
                  rw [← Option.some.inj hkv2] at hk2
                  exact absurd hk2 hkk
                · exact Or.inl ⟨l2, hl2r, kv2, hkv2, hk2⟩
              · refine Or.inr ?_
                rw [alGet_alPut_other md kv.1 kv.2 k (fun hc => hkk hc.symm)]
                exact hmd

end ScriptBot

namespace ScriptBot

/-- C5 (counterexample): in `exMetaText` the line `"k30: v30"` (line index
30) lies strictly before the first accepted header `"SECTION ONE"` (line
index 31) — no earlier line is accepted as a header — and it is a valid
metadata line with key under 30 characters and no role/conditional marker,
yet the parsed metadata has no `"k30"` entry: the scan is capped at the
first 30 lines, not at the first accepted header. -/
theorem claim_C5_counterexample :
    ((pyLines exMetaText).take 31).all
      (fun l => !(isLikelySectionHeader (pyStrip l))) = true ∧
    (pyLines exMetaText).get? 30 = some (mkStr "k30: v30") ∧
    (pyLines exMetaText).get? 31 = some (mkStr "SECTION ONE") ∧
    isLikelySectionHeader (mkStr "SECTION ONE") = true ∧
    metaEntry (mkStr "k30: v30") = some (mkStr "k30", mkStr "v30") ∧
    alGet (parseScript exMetaText).metadata (mkStr "k30") = none := by
  refine ⟨by decide, by decide, by decide, by decide, by decide, by decide⟩

end ScriptBot

namespace ScriptBot

/-- The final save of the section loop preserves the per-section variable
set. -/
theorem finalSave_pvars (pvars : List Str) (cur : Option Str)
    (content agents : List Str) (secs : List PSection)
    (hsecs : ∀ s2 ∈ secs, s2.pvars = pvars) (s2 : PSection)
    (hs2 : s2 ∈ ((match cur with
      | some n => secs ++ [saveSection pvars n content agents]
      | none => secs) : List PSection)) : s2.pvars = pvars := by
  cases cur with
  | none => exact hsecs s2 hs2
  | some n =>
      rcases List.mem_append.mp hs2 with h | h
      · exact hsecs s2 h
      · rw [List.mem_singleton.mp h]
        rfl

/-- Every section produced by the section loop carries the document-wide
variable set. -/
theorem goSections_pvars (pvars : List Str) :
    ∀ (fuel : ℕ) (lines : List Str) (cur : Option Str)
      (content agents : List Str) (secs : List PSection),
      (∀ s2 ∈ secs, s2.pvars = pvars) →
      ∀ sec ∈ goSections pvars fuel lines cur content agents secs,
        sec.pvars = pvars := by
  intro fuel
  induction fuel with
  | zero =>
      intro lines cur content agents secs hsecs sec hsec
      cases lines with
      | nil =>
          exact finalSave_pvars pvars cur content agents secs hsecs sec hsec
      | cons l rest =>
          exact finalSave_pvars pvars cur content agents secs hsecs sec hsec
  | succ fuel ih =>
      intro lines cur content agents secs hsecs sec hsec
      cases lines with
      | nil =>
          exact finalSave_pvars pvars cur content agents secs hsecs sec hsec
      | cons l rest =>
          simp only [goSections] at hsec
          by_cases h1 : (pyStrip l).isEmpty = true
          · rw [if_pos h1] at hsec
            exact ih rest cur content agents secs hsecs sec hsec
          · rw [if_neg h1] at hsec
            by_cases h2 : isLikelySectionHeader (pyStrip l) = true
            · rw [if_pos h2] at hsec
              exact ih rest _ [] [] _
                (fun s2 hs2 =>
                  finalSave_pvars pvars cur content agents secs hsecs s2 hs2)
                sec hsec
            · rw [if_neg h2] at hsec
              by_cases h3 : isAgentLine (pyStrip l) = true
              · rw [if_pos h3] at hsec
                by_cases h4 : (cleanAgentText (List.intercalate [' ']
                    (absorbGo [pyStrip l] rest).1)).isEmpty = true
                · rw [if_pos h4] at hsec
                  exact ih _ cur content agents secs hsecs sec hsec
                · rw [if_neg h4] at hsec
                  exact ih _ cur _ _ secs hsecs sec hsec
              · rw [if_neg h3] at hsec
                exact ih rest cur _ agents secs hsecs sec hsec

/-- Every section of a parsed document carries the parser's document-wide
variable set. -/
theorem parsed_pvars (text : Str) :
    ∀ sec ∈ (parseScript text).sections, sec.pvars = extractVariables text := by
  intro sec hsec
  have h0 : (parseScript text).sections =
      parseSections (extractVariables text) (pyLines text) := rfl
  rw [h0, parseSections] at hsec
  by_cases hempty : (goSections (extractVariables text) (pyLines text).length
      (pyLines text) none [] [] []).isEmpty = true
  · rw [if_pos hempty] at hsec
    cases hals : extractAllAgentLines (pyLines text) with
    | nil =>
        rw [hals] at hsec
        cases hsec
    | cons a as =>
        rw [hals] at hsec
        rw [List.mem_singleton.mp hsec]
        rfl
  · rw [if_neg hempty] at hsec
    exact goSections_pvars (extractVariables text) _ _ none [] [] []
      (by intro s2 hs2; cases hs2) sec hsec

/-- Membership in the first-occurrence deduplication loop. -/
theorem dedupFirstGo_mem :
    ∀ (l seen : List Str) (x : Str),
      x ∈ dedupFirstGo seen l ↔ x ∈ l ∧ x ∉ seen := by
  intro l
  induction l with
  | nil =>
      intro seen x
      simp [dedupFirstGo]
  | cons a t ih =>
      intro seen x
      rw [dedupFirstGo]
      by_cases hc : seen.contains a = true
      · rw [if_pos hc, ih]
        constructor
        · rintro ⟨hx, hn⟩
          exact ⟨List.mem_cons_of_mem a hx, hn⟩
        · rintro ⟨hx, hn⟩
          rcases List.mem_cons.mp hx with hxa | hx2
          · exfalso
            rw [hxa] at hn
            exact hn (by simpa using hc)
          · exact ⟨hx2, hn⟩
      · rw [if_neg hc, List.mem_cons, ih]
        constructor
        · rintro (hxa | ⟨hx, hn⟩)
          · refine ⟨by rw [hxa]; exact List.mem_cons_self a t, ?_⟩
            rw [hxa]
            intro hm
            exact hc (by simpa using hm)
          · refine ⟨List.mem_cons_of_mem a hx, ?_⟩
            intro hm
            exact hn (List.mem_cons_of_mem a hm)
        · rintro ⟨hx, hn⟩
          rcases List.mem_cons.mp hx with hxa | hx2
          · exact Or.inl hxa
          · by_cases hxa : x = a
            · exact Or.inl hxa
            · refine Or.inr ⟨hx2, ?_⟩
              intro hm
              rcases List.mem_cons.mp hm with h | h
              · exact hxa h
              · exact hn h

/-- First-occurrence deduplication preserves membership. -/
theorem dedupFirst_mem (l : List Str) (x : Str) : x ∈ dedupFirst l ↔ x ∈ l := by
  rw [dedupFirst, dedupFirstGo_mem]
  simp

/-- C10: for every parsed document and every one of its sections, the
required fields computed by the flow engine are exactly the placeholders of
that section's own dialogue united with the variables declared anywhere in
the document — a section with no placeholders of its own still carries
every document-wide variable. -/
theorem claim_C10_required_fields (text : Str) (sec : PSection)
    (hsec : sec ∈ (parseScript text).sections) :
    (extractRequiredFields sec).toFinset =
      (findPlaceholders sec.dialogue).toFinset ∪
        (extractVariables text).toFinset := by
  have hpv := parsed_pvars text sec hsec
  rw [extractRequiredFields, hpv]
  ext x
  simp only [List.mem_toFinset, Finset.mem_union, dedupFirst_mem,
    List.mem_append]

/-- C10 (witness): the claim theorem applied to the first section of the
two-placeholder example document. -/
theorem claim_C10_witness :
    exC10Sec ∈ (parseScript exC10Text).sections ∧
    (extractRequiredFields exC10Sec).toFinset =
      (findPlaceholders exC10Sec.dialogue).toFinset ∪
        (extractVariables exC10Text).toFinset :=
  ⟨by decide, claim_C10_required_fields exC10Text exC10Sec (by decide)⟩

end ScriptBot

namespace ScriptBot

/-- The absorption loop never lengthens the unconsumed rest. -/
theorem absorbGo_rest_len :
    ∀ (ls acc : List Str), (absorbGo acc ls).2.length ≤ ls.length := by
  intro ls
  induction ls with
  | nil =>
      intro acc
      simp [absorbGo]
  | cons l rest ih =>
      intro acc
      rw [absorbGo]
      split_ifs
      · exact le_refl _
      · exact le_refl _
      · exact le_refl _
      · exact le_refl _
      · exact Nat.le_succ_of_le (ih _)

/-- The section loop does not depend on the fuel once the fuel covers the
line count. -/
theorem goSections_fuel (pvars : List Str) :
    ∀ (fuel fuel2 : ℕ) (lines : List Str) (cur : Option Str)
      (content agents : List Str) (secs : List PSection),
      lines.length ≤ fuel → lines.length ≤ fuel2 →
      goSections pvars fuel lines cur content agents secs =
        goSections pvars fuel2 lines cur content agents secs := by
  intro fuel
  induction fuel with
  | zero =>
      intro fuel2 lines cur content agents secs h1 h2
      cases lines with
      | nil =>
          cases fuel2 with
          | zero => rfl
          | succ f2 => rfl
      | cons l rest =>
          rw [List.length_cons] at h1
          omega
  | succ f ih =>
      intro fuel2 lines cur content agents secs h1 h2
      cases lines with
      | nil =>
          cases fuel2 with
          | zero => rfl
          | succ f2 => rfl
      | cons l rest =>
          cases fuel2 with
          | zero =>
              rw [List.length_cons] at h2
              omega
          | succ f2 =>
              have hr : rest.length ≤ f := by
                rw [List.length_cons] at h1
                omega
              have hr2 : rest.length ≤ f2 := by
                rw [List.length_cons] at h2
                omega
              simp only [goSections]
              by_cases hb1 : (pyStrip l).isEmpty = true
              · rw [if_pos hb1, if_pos hb1]
                exact ih f2 rest cur content agents secs hr hr2
              · rw [if_neg hb1, if_neg hb1]
                by_cases hb2 : isLikelySectionHeader (pyStrip l) = true
                · rw [if_pos hb2, if_pos hb2]
                  exact ih f2 rest _ [] [] _ hr hr2
                · rw [if_neg hb2, if_neg hb2]
                  by_cases hb3 : isAgentLine (pyStrip l) = true
                  · rw [if_pos hb3, if_pos hb3]
                    have habs : (absorbGo [pyStrip l] rest).2.length ≤ f :=
                      le_trans (absorbGo_rest_len rest _) hr
                    have habs2 : (absorbGo [pyStrip l] rest).2.length ≤ f2 :=
                      le_trans (absorbGo_rest_len rest _) hr2
                    by_cases hb4 : (cleanAgentText (List.intercalate [' ']
                        (absorbGo [pyStrip l] rest).1)).isEmpty = true
                    · rw [if_pos hb4, if_pos hb4]
                      exact ih f2 _ cur content agents secs habs habs2
                    · rw [if_neg hb4, if_neg hb4]
                      exact ih f2 _ cur _ _ secs habs habs2
                  · rw [if_neg hb3, if_neg hb3]
                    exact ih f2 rest cur _ agents secs hr hr2

/-- When the input continues with an accepted header, the absorption loop
stops no later than that header: the unconsumed rest still ends with the
header and its tail, preceded by a selection of the pre-header lines. -/
theorem absorbGo_stop (hdrline : Str) (tail : List Str)
    (hhdr : isLikelySectionHeader (pyStrip hdrline) = true) :
    ∀ (pre2 acc : List Str),
      ∃ pre3, (absorbGo acc (pre2 ++ hdrline :: tail)).2 = pre3 ++ hdrline :: tail ∧
        pre3.length ≤ pre2.length ∧ ∀ x ∈ pre3, x ∈ pre2 := by
  intro pre2
  induction pre2 with
  | nil =>
      intro acc
      refine ⟨[], ?_, le_refl _, fun x hx => absurd hx (List.not_mem_nil x)⟩
      rw [List.nil_append]
      simp only [absorbGo]
      by_cases h1 : (pyStrip hdrline).isEmpty = true
      · rw [if_pos h1]
      · rw [if_neg h1, if_pos hhdr]
  | cons p pre2' ih =>
      intro acc
      rw [List.cons_append]
      by_cases h1 : (pyStrip p).isEmpty = true
      · refine ⟨p :: pre2', ?_, le_refl _, fun x hx => hx⟩
        simp only [absorbGo]
        rw [if_pos h1]
        rfl
      · by_cases h2 : isLikelySectionHeader (pyStrip p) = true
        · refine ⟨p :: pre2', ?_, le_refl _, fun x hx => hx⟩
          simp only [absorbGo]
          rw [if_neg h1, if_pos h2]
          rfl
        · by_cases h3 : isAgentLine (pyStrip p) = true
          · refine ⟨p :: pre2', ?_, le_refl _, fun x hx => hx⟩
            simp only [absorbGo]
            rw [if_neg h1, if_neg h2, if_pos h3]
            rfl
          · by_cases h4 : contMarker (pyStrip p) = true
            · refine ⟨p :: pre2', ?_, le_refl _, fun x hx => hx⟩
              simp only [absorbGo]
              rw [if_neg h1, if_neg h2, if_neg h3, if_pos h4]
              rfl
            · obtain ⟨pre3, heq, hlen, hsub⟩ := ih (pyStrip p :: acc)
              refine ⟨pre3, ?_, Nat.le_succ_of_le hlen,
                fun x hx => List.mem_cons_of_mem p (hsub x hx)⟩
              simp only [absorbGo]
              rw [if_neg h1, if_neg h2, if_neg h3, if_neg h4]
              exact heq

/-- Pre-header lines are discarded by the section loop: with no section
started yet, running over a header-free prefix followed by an accepted
header reaches the same state as starting at the header (only the
about-to-be-discarded accumulators can differ). -/
theorem goSections_skip (pvars : List Str) (hdrline : Str) (tail : List Str)
    (hhdr : isLikelySectionHeader (pyStrip hdrline) = true) :
    ∀ (n : ℕ) (pre : List Str), pre.length ≤ n →
      (∀ l ∈ pre, isLikelySectionHeader (pyStrip l) = false) →
      ∀ (fuel : ℕ) (content agents : List Str) (secs : List PSection),
        (pre ++ hdrline :: tail).length ≤ fuel →
        ∃ content2 agents2,
          goSections pvars fuel (pre ++ hdrline :: tail) none content agents secs =
            goSections pvars (hdrline :: tail).length (hdrline :: tail) none
              content2 agents2 secs := by
  intro n
  induction n with
  | zero =>
      intro pre hlen hpre fuel content agents secs hfuel
      have hnil : pre = [] := List.length_eq_zero.mp (Nat.le_zero.mp hlen)
      subst hnil
      rw [List.nil_append] at hfuel ⊢
      exact ⟨content, agents, goSections_fuel pvars fuel (hdrline :: tail).length
        _ none content agents secs hfuel (le_refl _)⟩
  | succ n ih =>
      intro pre hlen hpre fuel content agents secs hfuel
      cases pre with
      | nil =>
          rw [List.nil_append] at hfuel ⊢
          exact ⟨content, agents, goSections_fuel pvars fuel (hdrline :: tail).length
            _ none content agents secs hfuel (le_refl _)⟩
      | cons l pre' =>
          cases fuel with
          | zero =>
              rw [List.cons_append, List.length_cons] at hfuel
              omega
          | succ f =>
              have hl := hpre l (List.mem_cons_self l pre')
              have hpre' : ∀ x ∈ pre', isLikelySectionHeader (pyStrip x) = false :=
                fun x hx => hpre x (List.mem_cons_of_mem l hx)
              have hlen' : pre'.length ≤ n := by
                rw [List.length_cons] at hlen
                omega
              have hfuel' : (pre' ++ hdrline :: tail).length ≤ f := by
                rw [List.cons_append, List.length_cons] at hfuel
                omega
              rw [List.cons_append]
              simp only [goSections]
              by_cases h1 : (pyStrip l).isEmpty = true
              · rw [if_pos h1]
                exact ih pre' hlen' hpre' f content agents secs hfuel'
              · rw [if_neg h1, if_neg (by rw [hl]; exact Bool.false_ne_true)]
                by_cases h3 : isAgentLine (pyStrip l) = true
                · rw [if_pos h3]
                  obtain ⟨pre3, heq, hlen3, hsub3⟩ :=
                    absorbGo_stop hdrline tail hhdr pre' [pyStrip l]
                  have hlen3' : pre3.length ≤ n := le_trans hlen3 hlen'
                  have hpre3 : ∀ x ∈ pre3, isLikelySectionHeader (pyStrip x) = false :=
                    fun x hx => hpre' x (hsub3 x hx)
                  have hfuel3 : (pre3 ++ hdrline :: tail).length ≤ f := by
                    rw [List.length_append] at hfuel' ⊢
                    omega
                  by_cases h4 : (cleanAgentText (List.intercalate [' ']
                      (absorbGo [pyStrip l] (pre' ++ hdrline :: tail)).1)).isEmpty = true
                  · rw [if_pos h4, heq]
                    exact ih pre3 hlen3' hpre3 f content agents secs hfuel3
                  · rw [if_neg h4, heq]
                    exact ih pre3 hlen3' hpre3 f _ _ secs hfuel3
                · rw [if_neg h3]
                  exact ih pre' hlen' hpre' f _ agents secs hfuel'

/-- Once a section has been started, the section loop always saves it (or a
successor): the result is never the empty list. -/
theorem goSections_some_ne (pvars : List Str) :
    ∀ (fuel : ℕ) (lines : List Str) (m : Str) (content agents : List Str)
      (secs : List PSection),
      goSections pvars fuel lines (some m) content agents secs ≠ [] := by
  intro fuel
  induction fuel with
  | zero =>
      intro lines m content agents secs
      cases lines with
      | nil =>
          intro hcon
          have hcon2 : secs ++ [saveSection pvars m content agents] = [] := hcon
          exact List.cons_ne_nil _ _ (List.append_eq_nil.mp hcon2).2
      | cons l rest =>
          intro hcon
          have hcon2 : secs ++ [saveSection pvars m content agents] = [] := hcon
          exact List.cons_ne_nil _ _ (List.append_eq_nil.mp hcon2).2
  | succ f ih =>
      intro lines m content agents secs
      cases lines with
      | nil =>
          intro hcon
          have hcon2 : secs ++ [saveSection pvars m content agents] = [] := hcon
          exact List.cons_ne_nil _ _ (List.append_eq_nil.mp hcon2).2
      | cons l rest =>
          simp only [goSections]
          by_cases h1 : (pyStrip l).isEmpty = true
          · rw [if_pos h1]
            exact ih rest m content agents secs
          · rw [if_neg h1]
            by_cases h2 : isLikelySectionHeader (pyStrip l) = true
            · rw [if_pos h2]
              exact ih rest (pyStrip l) [] [] _
            · rw [if_neg h2]
              by_cases h3 : isAgentLine (pyStrip l) = true
              · rw [if_pos h3]
                by_cases h4 : (cleanAgentText (List.intercalate [' ']
                    (absorbGo [pyStrip l] rest).1)).isEmpty = true
                · rw [if_pos h4]
                  exact ih _ m content agents secs
                · rw [if_neg h4]
                  exact ih _ m _ _ secs
              · rw [if_neg h3]
                exact ih rest m _ agents secs

/-- C5 (amended): when the first accepted header occurs within the 30-line
scan cap, every valid metadata line of the header-free prefix whose
contributed entries for its key all carry the same value is recorded —
lookup of the lower-cased key returns that value — and the parsed sections
are computed from the header line and the lines after it alone: the
pre-header block, metadata lines included, is discarded when the first
header opens a section and never contributes to any section's dialogue. -/
theorem claim_C5_amended (text : Str) (pre tail : List Str)
    (hdrline line k v : Str)
    (hsplit : pyLines text = pre ++ hdrline :: tail)
    (hlen : pre.length < 30)
    (hpre : pre.all (fun l => !(isLikelySectionHeader (pyStrip l))) = true)
    (hhdr : isLikelySectionHeader (pyStrip hdrline) = true)
    (hline : line ∈ pre)
    (hentry : metaEntry (pyStrip line) = some (k, v))
    (hsame : pre.all (fun l2 =>
      match metaEntry (pyStrip l2) with
      | some kv => !(kv.1 == k) || (kv.2 == v)
      | none => true) = true) :
    alGet (parseScript text).metadata k = some v ∧
    (parseScript text).sections =
      goSections (extractVariables text) tail.length tail
        (some (pyStrip hdrline)) [] [] [] := by
  have hpre' : ∀ l ∈ pre, isLikelySectionHeader (pyStrip l) = false := by
    intro l hl
    have h2 := List.all_eq_true.mp hpre l hl
    rwa [Bool.not_eq_true'] at h2
  constructor
  · have hsame' : ∀ l2 ∈ pre, ∀ kv, metaEntry (pyStrip l2) = some kv →
        kv.1 = k → kv.2 = v := by
      intro l2 hl2 kv hkv hk1
      have h2 := List.all_eq_true.mp hsame l2 hl2
      rw [hkv] at h2
      rcases Bool.or_eq_true_iff.mp h2 with h3 | h3
      · rw [Bool.not_eq_true', beq_eq_false_iff_ne] at h3
        exact absurd hk1 h3
      · exact eq_of_beq h3
    have hsplit30 : (pyLines text).take 30 =
        pre ++ hdrline :: tail.take (29 - pre.length) := by
      rw [hsplit, List.take_append_eq_append_take,
        List.take_of_length_le (le_of_lt hlen)]
      congr 1
      have h30 : 30 - pre.length = (29 - pre.length) + 1 := by omega
      rw [h30, List.take_succ_cons]
    have hmd : (parseScript text).metadata =
        extractMetadataGo ((pyLines text).take 30) [] := rfl
    rw [hmd, hsplit30, extractMetadataGo_stop hdrline
      (tail.take (29 - pre.length)) hhdr pre [] hpre']
    exact extractMetadataGo_get k v pre [] hpre' hsame'
      (Or.inl ⟨line, hline, (k, v), hentry, rfl⟩)
  · obtain ⟨c2, a2, hskip⟩ := goSections_skip (extractVariables text) hdrline tail
      hhdr pre.length pre (le_refl _) hpre'
      (pre ++ hdrline :: tail).length [] [] [] (le_refl _)
    have hone : goSections (extractVariables text) (hdrline :: tail).length
        (hdrline :: tail) none c2 a2 [] =
        goSections (extractVariables text) tail.length tail
          (some (pyStrip hdrline)) [] [] [] := by
      have hne : (pyStrip hdrline).isEmpty = false := by
        cases hemp : pyStrip hdrline with
        | nil =>
            rw [hemp] at hhdr
            exact absurd hhdr (by decide)
        | cons c t => rfl
      rw [List.length_cons]
      simp only [goSections]
      rw [if_neg (by rw [hne]; exact Bool.false_ne_true), if_pos hhdr]
    have hsec : (parseScript text).sections =
        parseSections (extractVariables text) (pyLines text) := rfl
    rw [hsec]
    simp only [parseSections]
    rw [hsplit, hskip, hone]
    have hne2 := goSections_some_ne (extractVariables text) tail.length tail
      (pyStrip hdrline) [] [] []
    rw [if_neg (fun hcon => hne2 (List.isEmpty_iff.mp hcon))]

/-- C5 (witness): the amended theorem applied to a script with a one-line
metadata block before the header `OPENING`: the `title` entry round-trips
to `"Demo"`, and the sections come from the header and the agent line after
it alone. -/
theorem claim_C5_witness :
    alGet (parseScript exC5Text).metadata (mkStr "title") =
      some (mkStr "Demo") ∧
    (parseScript exC5Text).sections =
      goSections (extractVariables exC5Text) ([mkStr "Agent: Hi."]).length
        [mkStr "Agent: Hi."] (some (pyStrip (mkStr "OPENING"))) [] [] [] :=
  claim_C5_amended exC5Text [mkStr "title: Demo"] [mkStr "Agent: Hi."]
    (mkStr "OPENING") (mkStr "title: Demo") (mkStr "title") (mkStr "Demo")
    (by decide) (by decide) (by decide) (by decide) (by decide) (by decide)
    (by decide)

end ScriptBot
